import Mathlib

/-!
# A shallow embedding of `SimpleVector<Type>` and `ArrayPtr<Type>`

Source files: `simple-vector/array_ptr.h` and `simple-vector/simple_vector.h`.

Modelling decisions.

* A heap block of `Type[n]` is a `List α` of length `n`; the null pointer is the empty
  list.  A raw position (`Iterator`, `ConstIterator`) is an offset from `begin()`; positions
  handed in by a caller are integers, so that both halves of the assertions
  `pos >= begin() && pos <= end()` say something.
* `Type()` is `default`.  Move assignment `*d = std::move(*s)` stores the value of `*s` in `*d`
  and leaves `Element.residue d_old s_old` in `*s`: the moved-from state is valid but
  unspecified, so every theorem is proved for an arbitrary `residue`.
* The loops of `<algorithm>` that the class calls (`std::move`, `std::move_backward`,
  `std::generate`, `std::equal`) are written out element by element, with the exact
  iteration count `last - first`.
* `size_t` values are natural numbers: a block with `2^63` elements cannot be allocated, so
  `capacity_ * 2` never wraps.  Allocation itself never fails in the model.
* `assert` is modelled as in a debug build: a failed assertion makes the operation return
  `none`.  `throw std::out_of_range` is `Except.error`.
* An access outside a block is undefined behaviour in C++; here such a read yields `Type()`
  and such a write is dropped.  The invariant `SimpleVector.WF` keeps every access of the
  operations inside the block, so no result depends on this choice.
* A reference parameter (`const Type&`, `Type&&`) is a `Ref`: an object outside the buffer
  of the array, or an element of the array itself, as in `v.PushBack(v[0])`.  It is read at
  the point where the source reads it, from the block as it is then; a read from a deleted
  block is undefined behaviour and makes the operation return `none`.
* In the first part blocks are values: an operation is a function of the array it is called
  on.  Whether two arrays share storage cannot be said there, so the second part (`Heap`,
  `HeapVector`) places the blocks in a free store with addresses, `new[]` and `delete[]`,
  and an array holds a pointer; the copy constructor and the mutating operations are
  written out again over it.
* Element `operator==` is a `BEq` instance and element `operator<` a decidable `LT`
  instance; theorems say which laws of them they need.
-/

namespace CppSimpleVector

/-- Element types of the container: `default` is `Type()`, and `residue d s` is the state in
which move assignment leaves its source `s` when the destination held `d` before. -/
class Element (α : Type) extends Inhabited α where
  /-- State of a moved-from object. -/
  residue : α → α → α

/-- Trivially copyable elements: moving an `int` copies it. -/
instance : Element Nat where
  default := 0
  residue := fun _ s => s

/-- Elements that own a resource: a moved-from `std::string` is left empty. -/
instance : Element String where
  default := ""
  residue := fun _ _ => ""

/-! ## array_ptr.h -/

/-- Class `ArrayPtr<Type>`: the block `raw_ptr_` points to (`[]` for `nullptr`). -/
structure ArrayPtr (α : Type) where
  /-- The owned block. -/
  raw_ptr_ : List α
deriving Repr, DecidableEq

namespace ArrayPtr

variable {α : Type}

/-- Default constructor `ArrayPtr() = default`: `raw_ptr_ = nullptr`. -/
def empty : ArrayPtr α := ⟨[]⟩

/-- Constructor `ArrayPtr(size_t size)`:
`raw_ptr_(size == 0 ? nullptr : new Type[size]())`, a value-initialised block. -/
def ofSize [Inhabited α] (size : Nat) : ArrayPtr α :=
  ⟨if size = 0 then [] else List.replicate size default⟩

/-- Method `Get()`: the raw block. -/
def Get (p : ArrayPtr α) : List α := p.raw_ptr_

/-- Read through `operator[]`: `raw_ptr_[index]`. -/
def get [Inhabited α] (p : ArrayPtr α) (index : Nat) : α := (p.raw_ptr_[index]?).getD default

/-- Write through `operator[]`: `raw_ptr_[index] = x`. -/
def set (p : ArrayPtr α) (index : Nat) (x : α) : ArrayPtr α := ⟨p.raw_ptr_.set index x⟩

/-- Method `swap(ArrayPtr& other)`: returns the new `(*this, other)`. -/
def swap (p other : ArrayPtr α) : ArrayPtr α × ArrayPtr α := (other, p)

/-- Move constructor `ArrayPtr(ArrayPtr&& other)`: the fresh object starts as `nullptr` and
swaps with `other`.  Returns `(*this, other)`. -/
def moveFrom (other : ArrayPtr α) : ArrayPtr α × ArrayPtr α := (empty : ArrayPtr α).swap other

/-- Move assignment `operator=(ArrayPtr&& other)` between two distinct objects: the block
of `*this` is deleted, `*this` takes the block of `other`, `other` becomes `nullptr`.
Returns `(*this, other)`. -/
def moveAssign (_p other : ArrayPtr α) : ArrayPtr α × ArrayPtr α := (⟨other.raw_ptr_⟩, ⟨[]⟩)

/-- Method `Release()`: returns the block and the emptied object. -/
def Release (p : ArrayPtr α) : List α × ArrayPtr α := (p.raw_ptr_, ⟨[]⟩)

/-- Conversion `explicit operator bool()`: `raw_ptr_ != nullptr`. -/
def toBool (p : ArrayPtr α) : Bool := !p.raw_ptr_.isEmpty

end ArrayPtr

/-! ## The algorithms of the standard library used by `SimpleVector` -/

section Algorithms

variable {α : Type}

/-- Read of `*(p + i)` in a block. -/
def deref [Inhabited α] (buf : List α) (i : Nat) : α := (buf[i]?).getD default

/-- Loop of `std::move(first, last, d_first)` from one block into another one:
`n` times `*d_first++ = std::move(*first++)`.  Returns `(source block, destination block)`. -/
def stdMoveLoop [Element α] : Nat → List α → List α → Nat → Nat → List α × List α
  | 0, src, dst, _, _ => (src, dst)
  | n + 1, src, dst, first, d_first =>
    let s := deref src first
    let d := deref dst d_first
    stdMoveLoop n (src.set first (Element.residue d s)) (dst.set d_first s) (first + 1) (d_first + 1)

/-- The call `std::move(first, last, d_first)` between two distinct blocks. -/
def stdMove [Element α] (src dst : List α) (first last d_first : Nat) : List α × List α :=
  stdMoveLoop (last - first) src dst first d_first

/-- Loop of `std::move(first, last, d_first)` when both ranges lie in the same block. -/
def stdMoveSelfLoop [Element α] : Nat → List α → Nat → Nat → List α
  | 0, buf, _, _ => buf
  | n + 1, buf, first, d_first =>
    let s := deref buf first
    let d := deref buf d_first
    stdMoveSelfLoop n ((buf.set first (Element.residue d s)).set d_first s) (first + 1) (d_first + 1)

/-- The call `std::move(first, last, d_first)` inside one block. -/
def stdMoveSelf [Element α] (buf : List α) (first last d_first : Nat) : List α :=
  stdMoveSelfLoop (last - first) buf first d_first

/-- Loop of `std::move_backward(first, last, d_last)` inside one block:
`n` times `*(--d_last) = std::move(*(--last))`. -/
def stdMoveBackwardLoop [Element α] : Nat → List α → Nat → Nat → List α
  | 0, buf, _, _ => buf
  | n + 1, buf, last, d_last =>
    let s := deref buf (last - 1)
    let d := deref buf (d_last - 1)
    stdMoveBackwardLoop n ((buf.set (last - 1) (Element.residue d s)).set (d_last - 1) s)
      (last - 1) (d_last - 1)

/-- The call `std::move_backward(first, last, d_last)` inside one block. -/
def stdMoveBackward [Element α] (buf : List α) (first last d_last : Nat) : List α :=
  stdMoveBackwardLoop (last - first) buf last d_last

/-- Loop of `std::generate(first, last, [] { return Type(); })`. -/
def stdGenerateLoop [Inhabited α] : Nat → List α → Nat → List α
  | 0, buf, _ => buf
  | n + 1, buf, first => stdGenerateLoop n (buf.set first default) (first + 1)

/-- The call `std::generate(first, last, [] { return Type(); })`. -/
def stdGenerate [Inhabited α] (buf : List α) (first last : Nat) : List α :=
  stdGenerateLoop (last - first) buf first

/-- Loop of `std::equal(first1, last1, first2)`: false at the first pair that differs. -/
def stdEqualLoop [Inhabited α] [BEq α] : Nat → List α → Nat → List α → Nat → Bool
  | 0, _, _, _, _ => true
  | n + 1, b1, first1, b2, first2 =>
    if deref b1 first1 == deref b2 first2 then stdEqualLoop n b1 (first1 + 1) b2 (first2 + 1)
    else false

/-- The call `std::equal(first1, last1, first2)`. -/
def stdEqual [Inhabited α] [BEq α] (b1 : List α) (first1 last1 : Nat) (b2 : List α)
    (first2 : Nat) : Bool :=
  stdEqualLoop (last1 - first1) b1 first1 b2 first2

/-- Loop of `std::copy(first, last, d_first)` from a sequence the array does not own. -/
def stdCopyLoop [Inhabited α] : Nat → List α → List α → Nat → Nat → List α
  | 0, _, dst, _, _ => dst
  | n + 1, src, dst, first, d_first =>
    stdCopyLoop n src (dst.set d_first (deref src first)) (first + 1) (d_first + 1)

/-- The call `std::copy(first, last, d_first)`. -/
def stdCopy [Inhabited α] (src dst : List α) (first last d_first : Nat) : List α :=
  stdCopyLoop (last - first) src dst first d_first

/-- Loop of `std::fill(first, last, value)`. -/
def stdFillLoop : Nat → List α → Nat → α → List α
  | 0, buf, _, _ => buf
  | n + 1, buf, first, value => stdFillLoop n (buf.set first value) (first + 1) value

/-- The call `std::fill(first, last, value)`. -/
def stdFill (buf : List α) (first last : Nat) (value : α) : List α :=
  stdFillLoop (last - first) buf first value

/-- Loop of `std::lexicographical_compare(first1, last1, first2, last2)` with `n1` and `n2`
elements left in the two ranges. -/
def stdLexicographicalCompareLoop [Inhabited α] [LT α] [DecidableRel (α := α) (· < ·)] :
    Nat → Nat → List α → Nat → List α → Nat → Bool
  | 0, n2, _, _, _, _ => decide (n2 ≠ 0)
  | _ + 1, 0, _, _, _, _ => false
  | n1 + 1, n2 + 1, b1, first1, b2, first2 =>
    if deref b1 first1 < deref b2 first2 then true
    else if deref b2 first2 < deref b1 first1 then false
    else stdLexicographicalCompareLoop n1 n2 b1 (first1 + 1) b2 (first2 + 1)

/-- The call `std::lexicographical_compare(first1, last1, first2, last2)`. -/
def stdLexicographicalCompare [Inhabited α] [LT α] [DecidableRel (α := α) (· < ·)]
    (b1 : List α) (first1 last1 : Nat) (b2 : List α) (first2 last2 : Nat) : Bool :=
  stdLexicographicalCompareLoop (last1 - first1) (last2 - first2) b1 first1 b2 first2

end Algorithms

/-! ## simple_vector.h -/

/-- Class `ReserveProxyObj`: the private member `capacity_`. -/
structure ReserveProxyObj where
  /-- The capacity to reserve. -/
  capacity_ : Nat
deriving Repr, DecidableEq

/-- Method `ReserveProxyObj::GetCapacity`. -/
def ReserveProxyObj.GetCapacity (p : ReserveProxyObj) : Nat := p.capacity_

/-- Free function `Reserve(size_t capacity_to_reserve)`.  It lives in the namespace of its
result type here, the method `SimpleVector::Reserve` having the same name. -/
def ReserveProxyObj.Reserve (capacity_to_reserve : Nat) : ReserveProxyObj :=
  ReserveProxyObj.mk capacity_to_reserve

/-- What a reference parameter (`const Type&` or `Type&&`) of a member function is bound
to: an object outside the buffer of the array, given by its value, or the element in slot
`j` of the block the array owns when the call starts. -/
inductive Ref (α : Type) where
  /-- An object that is not an element of the array. -/
  | obj (x : α) : Ref α
  /-- The element in slot `j` of the array itself, as in `v.PushBack(v[j])`. -/
  | elem (j : Nat) : Ref α
deriving Repr, DecidableEq

/-- Read through a reference parameter while the block it may point into exists; `buf` is
that block as it is at the time of the read. -/
def Ref.get [Inhabited α] (r : Ref α) (buf : List α) : α :=
  match r with
  | Ref.obj x => x
  | Ref.elem j => deref buf j

/-- Read through a reference parameter; `deleted` tells whether the block an element
reference points into has been deleted since the call started.  Reading an element of a
deleted block is undefined behaviour: `none`. -/
def Ref.read [Inhabited α] (r : Ref α) (buf : List α) (deleted : Bool) : Option α :=
  match r with
  | Ref.obj x => some x
  | Ref.elem j => if deleted then none else some (deref buf j)

/-- The block after the referenced object was moved from and left in state `y`: an object
outside the block leaves the block alone. -/
def Ref.leave (r : Ref α) (buf : List α) (y : α) : List α :=
  match r with
  | Ref.obj _ => buf
  | Ref.elem j => buf.set j y

/-- Class `SimpleVector<Type>`: the private members `items_`, `size_`, `capacity_`. -/
structure SimpleVector (α : Type) where
  /-- The owned buffer. -/
  items_ : ArrayPtr α
  /-- Number of live elements. -/
  size_ : Nat
  /-- Number of allocated slots. -/
  capacity_ : Nat
deriving Repr, DecidableEq

namespace SimpleVector

variable {α : Type}

/-- Default constructor `SimpleVector() noexcept = default`. -/
def empty : SimpleVector α := { items_ := ArrayPtr.empty, size_ := 0, capacity_ := 0 }

/-- Method `GetSize`. -/
def GetSize (v : SimpleVector α) : Nat := v.size_

/-- Method `GetCapacity`. -/
def GetCapacity (v : SimpleVector α) : Nat := v.capacity_

/-- Method `IsEmpty`. -/
def IsEmpty (v : SimpleVector α) : Bool := v.size_ == 0

/-- Method `begin()` (also `cbegin()`): `items_.Get()`, the origin of all positions. -/
def begin (_v : SimpleVector α) : Int := 0

/-- Method `end()` (also `cend()`): `items_.Get() + size_`. -/
def end_ (v : SimpleVector α) : Int := v.begin + (v.size_ : Int)

/-- The live sequence: the elements of the range `[begin(), end())`. -/
def toList (v : SimpleVector α) : List α := v.items_.Get.take v.size_

/-- The representation invariant of the class: the buffer has `capacity_` slots and
`size_ <= capacity_`. -/
def WF (v : SimpleVector α) : Prop :=
  v.items_.raw_ptr_.length = v.capacity_ ∧ v.size_ ≤ v.capacity_

instance (v : SimpleVector α) : Decidable v.WF := by
  unfold WF; infer_instance

/-- Constructor `SimpleVector(size_t size)`. -/
def ofSize [Inhabited α] (size : Nat) : SimpleVector α :=
  let items : ArrayPtr α := ArrayPtr.ofSize size
  { items_ := ArrayPtr.mk (stdGenerate items.Get 0 size), size_ := size, capacity_ := size }

/-- Constructor `SimpleVector(size_t size, const Type& value)`. -/
def ofSizeValue [Inhabited α] (size : Nat) (value : α) : SimpleVector α :=
  let items : ArrayPtr α := ArrayPtr.ofSize size
  { items_ := ArrayPtr.mk (stdFill items.Get 0 size value), size_ := size, capacity_ := size }

/-- Constructor `SimpleVector(std::initializer_list<Type> init)`. -/
def ofInitList [Inhabited α] (init : List α) : SimpleVector α :=
  let items : ArrayPtr α := ArrayPtr.ofSize init.length
  { items_ := ArrayPtr.mk (stdCopy init items.Get 0 init.length 0), size_ := init.length,
    capacity_ := init.length }

/-- Copy constructor `SimpleVector(const SimpleVector& other)`. -/
def copy [Inhabited α] (other : SimpleVector α) : SimpleVector α :=
  let items : ArrayPtr α := ArrayPtr.ofSize other.size_
  { items_ := ArrayPtr.mk (stdCopy other.items_.Get items.Get 0 other.size_ 0),
    size_ := other.size_, capacity_ := other.size_ }

/-- Move constructor `SimpleVector(SimpleVector&& other)`: returns `(*this, other)`. -/
def moveFrom (other : SimpleVector α) : SimpleVector α × SimpleVector α :=
  let mv := ArrayPtr.moveFrom other.items_
  ({ items_ := mv.1, size_ := other.size_, capacity_ := other.capacity_ },
   { items_ := mv.2, size_ := 0, capacity_ := 0 })

/-- Constructor `SimpleVector(ReserveProxyObj capacity_obj)`; `size_` keeps its default
member initialiser 0. -/
def ofReserve [Inhabited α] (capacity_obj : ReserveProxyObj) : SimpleVector α :=
  { items_ := ArrayPtr.ofSize capacity_obj.GetCapacity, size_ := 0,
    capacity_ := capacity_obj.GetCapacity }

/-- Method `Reserve(size_t new_capacity)`. -/
def Reserve [Element α] (v : SimpleVector α) (new_capacity : Nat) : SimpleVector α :=
  if new_capacity > v.capacity_ then
    let new_items : ArrayPtr α := ArrayPtr.ofSize new_capacity
    let r := stdMove v.items_.Get new_items.Get 0 v.size_ 0
    let sw := (ArrayPtr.mk r.1).swap (ArrayPtr.mk r.2)
    { items_ := sw.1, size_ := v.size_, capacity_ := new_capacity }
  else v

/-- Method `PushBack(const Type& item)`.  `item` is read after the call of `Reserve`; when
`Reserve` has swapped in a new block, its local `new_items` has deleted the old one, and an
`item` that is an element of the array is read from a deleted block: undefined behaviour,
`none`. -/
def PushBack [Element α] (v : SimpleVector α) (item : Ref α) : Option (SimpleVector α) :=
  let new_capacity := if v.capacity_ = 0 then 1 else v.capacity_ * 2
  let v1 := if v.size_ = v.capacity_ then v.Reserve new_capacity else v
  let deleted : Bool := decide (v.size_ = v.capacity_ ∧ new_capacity > v.capacity_)
  match item.read v.items_.Get deleted with
  | none => none
  | some x => some { v1 with items_ := v1.items_.set v1.size_ x, size_ := v1.size_ + 1 }

/-- Method `PushBack(Type&& item)`: the same body with `items_[size_++] = std::move(item)`,
which also leaves the object `item` refers to in the moved-from state; the second component
is that state. -/
def PushBackMove [Element α] (v : SimpleVector α) (item : Ref α) :
    Option (SimpleVector α × α) :=
  let new_capacity := if v.capacity_ = 0 then 1 else v.capacity_ * 2
  let v1 := if v.size_ = v.capacity_ then v.Reserve new_capacity else v
  let deleted : Bool := decide (v.size_ = v.capacity_ ∧ new_capacity > v.capacity_)
  match item.read v.items_.Get deleted with
  | none => none
  | some x =>
    let y := Element.residue (v1.items_.get v1.size_) x
    some ({ v1 with items_ := (ArrayPtr.mk (item.leave v1.items_.Get y)).set v1.size_ x,
                    size_ := v1.size_ + 1 }, y)

/-- Method `Insert(ConstIterator pos, const Type& value)`; `pos` is an offset from `begin()`,
the result is the new array and the returned iterator as an offset from the new `begin()`.
`value` is read where the source reads it: from the old block after the prefix was moved
out (reallocating branch), from the block after `std::move_backward` (in-place branch). -/
def Insert [Element α] (v : SimpleVector α) (pos : Int) (value : Ref α) :
    Option (SimpleVector α × Int) :=
  if pos ≥ v.begin ∧ pos ≤ v.end_ then
    let index := (pos - v.begin).toNat
    if v.size_ = v.capacity_ then
      let new_capacity := if v.capacity_ = 0 then 1 else v.capacity_ * 2
      let new_items : ArrayPtr α := ArrayPtr.ofSize new_capacity
      let r1 := stdMove v.items_.Get new_items.Get 0 index 0
      let new_items1 := (ArrayPtr.mk r1.2).set index (value.get r1.1)
      let r2 := stdMove r1.1 new_items1.Get index v.size_ (index + 1)
      let sw := (ArrayPtr.mk r2.1).swap (ArrayPtr.mk r2.2)
      let w : SimpleVector α := { items_ := sw.1, size_ := v.size_ + 1, capacity_ := new_capacity }
      some (w, w.begin + (index : Int))
    else
      let shifted := stdMoveBackward v.items_.Get index v.size_ (v.size_ + 1)
      let w : SimpleVector α := { items_ := (ArrayPtr.mk shifted).set index (value.get shifted),
                                  size_ := v.size_ + 1, capacity_ := v.capacity_ }
      some (w, w.begin + (index : Int))
  else none

/-- Method `Insert(ConstIterator pos, Type&& value)`: the same body with
`= std::move(value)`, which also leaves the object `value` refers to in the moved-from
state; the last component is that state. -/
def InsertMove [Element α] (v : SimpleVector α) (pos : Int) (value : Ref α) :
    Option (SimpleVector α × Int × α) :=
  if pos ≥ v.begin ∧ pos ≤ v.end_ then
    let index := (pos - v.begin).toNat
    if v.size_ = v.capacity_ then
      let new_capacity := if v.capacity_ = 0 then 1 else v.capacity_ * 2
      let new_items : ArrayPtr α := ArrayPtr.ofSize new_capacity
      let r1 := stdMove v.items_.Get new_items.Get 0 index 0
      let x := value.get r1.1
      let y := Element.residue ((ArrayPtr.mk r1.2).get index) x
      let new_items1 := (ArrayPtr.mk r1.2).set index x
      let r2 := stdMove (value.leave r1.1 y) new_items1.Get index v.size_ (index + 1)
      let sw := (ArrayPtr.mk r2.1).swap (ArrayPtr.mk r2.2)
      let w : SimpleVector α := { items_ := sw.1, size_ := v.size_ + 1, capacity_ := new_capacity }
      some (w, w.begin + (index : Int), y)
    else
      let shifted := stdMoveBackward v.items_.Get index v.size_ (v.size_ + 1)
      let x := value.get shifted
      let y := Element.residue ((ArrayPtr.mk shifted).get index) x
      let w : SimpleVector α := { items_ := (ArrayPtr.mk (value.leave shifted y)).set index x,
                                  size_ := v.size_ + 1, capacity_ := v.capacity_ }
      some (w, w.begin + (index : Int), y)
  else none

/-- Method `Erase(ConstIterator pos)`. -/
def Erase [Element α] (v : SimpleVector α) (pos : Int) : Option (SimpleVector α × Int) :=
  if pos ≥ v.begin ∧ pos < v.end_ then
    let index := (pos - v.begin).toNat
    let shifted := stdMoveSelf v.items_.Get (index + 1) v.size_ index
    let w : SimpleVector α :=
      { items_ := ArrayPtr.mk shifted, size_ := v.size_ - 1, capacity_ := v.capacity_ }
    some (w, w.begin + (index : Int))
  else none

/-- Method `PopBack()`. -/
def PopBack (v : SimpleVector α) : Option (SimpleVector α) :=
  if v.size_ > 0 then some { v with size_ := v.size_ - 1 } else none

/-- Method `swap(SimpleVector& other)`: returns the new `(*this, other)`. -/
def swap (v other : SimpleVector α) : SimpleVector α × SimpleVector α :=
  let sw := v.items_.swap other.items_
  ({ items_ := sw.1, size_ := other.size_, capacity_ := other.capacity_ },
   { items_ := sw.2, size_ := v.size_, capacity_ := v.capacity_ })

/-- Copy assignment `operator=(const SimpleVector& rhs)` with `this != &rhs`:
`SimpleVector temp(rhs); swap(temp);`. -/
def copyAssign [Inhabited α] (v rhs : SimpleVector α) : SimpleVector α :=
  let temp := copy rhs
  (v.swap temp).1

/-- Move assignment `operator=(SimpleVector&& rhs)` with `this != &rhs`: returns
`(*this, rhs)`. -/
def moveAssign (v rhs : SimpleVector α) : SimpleVector α × SimpleVector α :=
  let mv := v.items_.moveAssign rhs.items_
  ({ items_ := mv.1, size_ := rhs.size_, capacity_ := rhs.capacity_ },
   { items_ := mv.2, size_ := 0, capacity_ := 0 })

/-- Unchecked access `operator[](size_t index)`: `assert(index < size_)`. -/
def index [Inhabited α] (v : SimpleVector α) (i : Nat) : Option α :=
  if i < v.size_ then some (v.items_.get i) else none

/-- Element write `v[index] = x` through the non-const `operator[](size_t index)`:
`assert(index < size_)`, then the assignment to `items_[index]`. -/
def assign (v : SimpleVector α) (i : Nat) (x : α) : Option (SimpleVector α) :=
  if i < v.size_ then some { v with items_ := v.items_.set i x } else none

/-- Checked access `At(size_t index)`: throws `std::out_of_range` when `index >= size_`. -/
def At [Inhabited α] (v : SimpleVector α) (i : Nat) : Except String α :=
  if i ≥ v.size_ then Except.error "Index is out of range" else Except.ok (v.items_.get i)

/-- Method `Clear()`. -/
def Clear (v : SimpleVector α) : SimpleVector α := { v with size_ := 0 }

/-- Method `Resize(size_t new_size)`. -/
def Resize [Element α] (v : SimpleVector α) (new_size : Nat) : SimpleVector α :=
  if new_size > v.capacity_ then
    let new_items : ArrayPtr α := ArrayPtr.ofSize new_size
    let r := stdMove v.items_.Get new_items.Get 0 v.size_ 0
    let g := stdGenerate r.2 v.size_ new_size
    let sw := (ArrayPtr.mk r.1).swap (ArrayPtr.mk g)
    { items_ := sw.1, size_ := new_size, capacity_ := new_size }
  else if new_size > v.size_ then
    { items_ := ArrayPtr.mk (stdGenerate v.items_.Get v.size_ new_size), size_ := new_size,
      capacity_ := v.capacity_ }
  else { v with size_ := new_size }

/-- Free function `operator==`:
`lhs.GetSize() == rhs.GetSize() && std::equal(lhs.begin(), lhs.end(), rhs.begin())`. -/
def opEq [Inhabited α] [BEq α] (lhs rhs : SimpleVector α) : Bool :=
  lhs.GetSize == rhs.GetSize && stdEqual lhs.items_.Get 0 lhs.size_ rhs.items_.Get 0

/-- Free function `operator!=`. -/
def opNe [Inhabited α] [BEq α] (lhs rhs : SimpleVector α) : Bool := !(opEq lhs rhs)

/-- Free function `operator<`. -/
def opLt [Inhabited α] [LT α] [DecidableRel (α := α) (· < ·)] (lhs rhs : SimpleVector α) :
    Bool :=
  stdLexicographicalCompare lhs.items_.Get 0 lhs.size_ rhs.items_.Get 0 rhs.size_

/-- Free function `operator<=`. -/
def opLe [Inhabited α] [LT α] [DecidableRel (α := α) (· < ·)] (lhs rhs : SimpleVector α) :
    Bool := !(opLt rhs lhs)

/-- Free function `operator>`. -/
def opGt [Inhabited α] [LT α] [DecidableRel (α := α) (· < ·)] (lhs rhs : SimpleVector α) :
    Bool := opLt rhs lhs

/-- Free function `operator>=`. -/
def opGe [Inhabited α] [LT α] [DecidableRel (α := α) (· < ·)] (lhs rhs : SimpleVector α) :
    Bool := !(opLt lhs rhs)

/-- The lexicographic order in the words of the specification: `s` is a proper prefix of
`t`, or at the first index where they differ the element of `s` is less than the element
of `t`. -/
def LexLess [LT α] (s t : List α) : Prop :=
  (s.length < t.length ∧ ∀ i, i < s.length → s[i]? = t[i]?) ∨
  (∃ (i : Nat) (x y : α), (∀ j, j < i → s[j]? = t[j]?) ∧
    s[i]? = some x ∧ t[i]? = some y ∧ x ≠ y ∧ x < y)

/-- Repeated `PushBack`, one call for each value of `items` in order, each value held by
an object outside the array. -/
def pushAll [Element α] (v : SimpleVector α) (items : List α) : Option (SimpleVector α) :=
  items.foldlM (fun w x => w.PushBack (Ref.obj x)) v

/-- The predicate `size <= capacity` of the data model. -/
def SizeLeCapacity (v : SimpleVector α) : Prop := v.GetSize ≤ v.GetCapacity

instance (v : SimpleVector α) : Decidable v.SizeLeCapacity := by
  unfold SizeLeCapacity; infer_instance

/-- An array holding `1, 2, 3` with no spare slot. -/
def sampleFull : SimpleVector Nat := ofInitList [1, 2, 3]

/-- An array holding `1, 2, 3` with two spare slots that still hold old values. -/
def sampleSpare : SimpleVector Nat := { items_ := ⟨[1, 2, 3, 8, 9]⟩, size_ := 3, capacity_ := 5 }

/-- An array holding `1, 2, 4` with one spare slot. -/
def sampleOther : SimpleVector Nat := { items_ := ⟨[1, 2, 4, 0]⟩, size_ := 3, capacity_ := 4 }

/-- An array of strings `a, b, c` with no spare slot. -/
def sampleStringsFull : SimpleVector String := ofInitList ["a", "b", "c"]

/-- An array of strings `a, b, c` with one spare slot. -/
def sampleStrings : SimpleVector String :=
  { items_ := ⟨["a", "b", "c", "old"]⟩, size_ := 3, capacity_ := 4 }

end SimpleVector

/-! ## The free store: arrays with storage identity

The definitions above treat the block of an array as a value.  To say that two arrays do
not share storage, the definitions below place the blocks in a free store and let an array
hold a pointer, and follow the same source lines with the allocations (`new Type[n]()` in
the constructor of `ArrayPtr`) and the deletions (`delete[]` in its destructor) written
out.  A reference parameter is then an object outside the free store or a slot of any
block of it. -/

/-- The free store: block `a` is the `a`-th array allocated by `new Type[n]()`; it is
`none` once `delete[]` has run on it.  A pointer is `none` for `nullptr`, or `some a`. -/
structure Heap (α : Type) where
  /-- The blocks in order of allocation. -/
  blocks : List (Option (List α))
deriving Repr, DecidableEq

namespace Heap

variable {α : Type}

/-- The block a pointer refers to, when there is one. -/
def live (h : Heap α) (p : Option Nat) : Option (List α) :=
  match p with
  | none => none
  | some a => (h.blocks[a]?).join

/-- The block a pointer refers to; no element can be read through `nullptr`. -/
def get (h : Heap α) (p : Option Nat) : List α := (h.live p).getD []

/-- The free store after the block `p` refers to was overwritten with `b`. -/
def put (h : Heap α) (p : Option Nat) (b : List α) : Heap α :=
  match p with
  | none => h
  | some a => if (h.live (some a)).isSome then Heap.mk (h.blocks.set a (some b)) else h

/-- Expression `new Type[size]()`: a block of value-initialised elements at a fresh
address. -/
def newArray [Inhabited α] (h : Heap α) (size : Nat) : Heap α × Nat :=
  (Heap.mk (h.blocks ++ [some (List.replicate size default)]), h.blocks.length)

/-- Statement `delete[] p`; nothing happens for `nullptr`. -/
def deleteArray (h : Heap α) (p : Option Nat) : Heap α :=
  match p with
  | none => h
  | some a => Heap.mk (h.blocks.set a none)

/-- Constructor `ArrayPtr(size_t size)`:
`raw_ptr_(size == 0 ? nullptr : new Type[size]())`. -/
def arrayPtr [Inhabited α] (h : Heap α) (size : Nat) : Heap α × Option Nat :=
  if size = 0 then (h, none) else ((h.newArray size).1, some (h.newArray size).2)

end Heap

/-- Block `q` is in `h2` what it was in `h1`, and `h2` has all the addresses of `h1`. -/
def Heap.Frame {α : Type} (q : Nat) (h1 h2 : Heap α) : Prop :=
  h2.blocks[q]? = h1.blocks[q]? ∧ h1.blocks.length ≤ h2.blocks.length

/-- Pointer `p` refers to the block `b` of `h`; `nullptr` refers to no element. -/
def Heap.Holds {α : Type} (h : Heap α) (p : Option Nat) (b : List α) : Prop :=
  match p with
  | none => b = []
  | some a => h.blocks[a]? = some (some b)

/-- What a reference parameter (`const Type&` or `Type&&`) is bound to, with storage
identity: an object outside the free store, given by its value, or slot `j` of block
`a`. -/
inductive HeapRef (α : Type) where
  /-- An object that is not an element of any array. -/
  | obj (x : α) : HeapRef α
  /-- The element in slot `j` of block `a`. -/
  | cell (a j : Nat) : HeapRef α
deriving Repr, DecidableEq

/-- Read through a reference; `none` when the slot is in a deleted block or in no block:
undefined behaviour. -/
def Heap.read {α : Type} (h : Heap α) (r : HeapRef α) : Option α :=
  match r with
  | HeapRef.obj x => some x
  | HeapRef.cell a j => (h.live (some a)).bind (fun b => b[j]?)

/-- The free store after the referenced object was moved from and left in state `y`. -/
def Heap.leave {α : Type} (h : Heap α) (r : HeapRef α) (y : α) : Heap α :=
  match r with
  | HeapRef.obj _ => h
  | HeapRef.cell a j => h.put (some a) ((h.get (some a)).set j y)

/-- A `SimpleVector<Type>` object in the free store: `items_` is the pointer its `ArrayPtr`
holds. -/
structure HeapVector where
  /-- The pointer `items_.raw_ptr_`. -/
  items_ : Option Nat
  /-- Number of live elements. -/
  size_ : Nat
  /-- Number of allocated slots. -/
  capacity_ : Nat
deriving Repr, DecidableEq

namespace HeapVector

variable {α : Type}

/-- Method `GetSize`. -/
def GetSize (v : HeapVector) : Nat := v.size_

/-- Method `GetCapacity`. -/
def GetCapacity (v : HeapVector) : Nat := v.capacity_

/-- Method `begin()`: the origin of all positions. -/
def begin (_v : HeapVector) : Int := 0

/-- Method `end()`: `items_.Get() + size_`. -/
def end_ (v : HeapVector) : Int := v.begin + (v.size_ : Int)

/-- The array as a value: its members, with the block read from the free store. -/
def view (v : HeapVector) (h : Heap α) : SimpleVector α :=
  { items_ := ArrayPtr.mk (h.get v.items_), size_ := v.size_, capacity_ := v.capacity_ }

/-- The array object is sound in the free store: `size_ <= capacity_`, and `items_` is
`nullptr` with capacity 0 or points to an existing block of `capacity_` slots. -/
def Valid (v : HeapVector) (h : Heap α) : Prop :=
  v.size_ ≤ v.capacity_ ∧
    ((v.items_ = none ∧ v.capacity_ = 0) ∨
      ∃ a b, v.items_ = some a ∧ h.blocks[a]? = some (some b) ∧ b.length = v.capacity_)

/-- Copy constructor `SimpleVector(const SimpleVector& other)`: `items_(other.size_)`
takes a block of its own, `std::copy` fills it from the block of `other`. -/
def copy [Inhabited α] (h : Heap α) (other : HeapVector) : Heap α × HeapVector :=
  let a := h.arrayPtr other.size_
  let b := stdCopy (a.1.get other.items_) (a.1.get a.2) 0 other.size_ 0
  (a.1.put a.2 b, { items_ := a.2, size_ := other.size_, capacity_ := other.size_ })

/-- Method `Reserve(size_t new_capacity)`: the local `new_items` takes a new block, the
elements are moved, the pointers are swapped, and the destructor of `new_items` deletes the
old block. -/
def Reserve [Element α] (h : Heap α) (v : HeapVector) (new_capacity : Nat) :
    Heap α × HeapVector :=
  if new_capacity > v.capacity_ then
    let a := h.arrayPtr new_capacity
    let r := stdMove (a.1.get v.items_) (a.1.get a.2) 0 v.size_ 0
    let h1 := (a.1.put v.items_ r.1).put a.2 r.2
    (h1.deleteArray v.items_, { items_ := a.2, size_ := v.size_, capacity_ := new_capacity })
  else (h, v)

/-- Method `PushBack(const Type& item)`; `none` when `item` cannot be read. -/
def PushBack [Element α] (h : Heap α) (v : HeapVector) (item : HeapRef α) :
    Option (Heap α × HeapVector) :=
  let r :=
    if v.size_ = v.capacity_ then
      Reserve h v (if v.capacity_ = 0 then 1 else v.capacity_ * 2)
    else (h, v)
  match r.1.read item with
  | none => none
  | some x =>
    some (r.1.put r.2.items_ ((r.1.get r.2.items_).set r.2.size_ x),
      { r.2 with size_ := r.2.size_ + 1 })

/-- Method `PushBack(Type&& item)`: `items_[size_++] = std::move(item)` also leaves the
object `item` refers to in the moved-from state. -/
def PushBackMove [Element α] (h : Heap α) (v : HeapVector) (item : HeapRef α) :
    Option (Heap α × HeapVector) :=
  let r :=
    if v.size_ = v.capacity_ then
      Reserve h v (if v.capacity_ = 0 then 1 else v.capacity_ * 2)
    else (h, v)
  match r.1.read item with
  | none => none
  | some x =>
    let y := Element.residue (deref (r.1.get r.2.items_) r.2.size_) x
    let h1 := r.1.leave item y
    some (h1.put r.2.items_ ((h1.get r.2.items_).set r.2.size_ x),
      { r.2 with size_ := r.2.size_ + 1 })

/-- Method `Insert(ConstIterator pos, const Type& value)`; `none` when the assertion fails
or `value` cannot be read. -/
def Insert [Element α] (h : Heap α) (v : HeapVector) (pos : Int) (value : HeapRef α) :
    Option (Heap α × HeapVector × Int) :=
  if pos ≥ v.begin ∧ pos ≤ v.end_ then
    let index := (pos - v.begin).toNat
    if v.size_ = v.capacity_ then
      let new_capacity := if v.capacity_ = 0 then 1 else v.capacity_ * 2
      let a := h.arrayPtr new_capacity
      let r1 := stdMove (a.1.get v.items_) (a.1.get a.2) 0 index 0
      let h1 := (a.1.put v.items_ r1.1).put a.2 r1.2
      match h1.read value with
      | none => none
      | some x =>
        let h2 := h1.put a.2 ((h1.get a.2).set index x)
        let r2 := stdMove (h2.get v.items_) (h2.get a.2) index v.size_ (index + 1)
        let h3 := (h2.put v.items_ r2.1).put a.2 r2.2
        let w : HeapVector := { items_ := a.2, size_ := v.size_ + 1, capacity_ := new_capacity }
        some (h3.deleteArray v.items_, w, w.begin + (index : Int))
    else
      let h1 := h.put v.items_ (stdMoveBackward (h.get v.items_) index v.size_ (v.size_ + 1))
      match h1.read value with
      | none => none
      | some x =>
        let w : HeapVector := { v with size_ := v.size_ + 1 }
        some (h1.put v.items_ ((h1.get v.items_).set index x), w, w.begin + (index : Int))
  else none

/-- Method `Insert(ConstIterator pos, Type&& value)`: the assignment `= std::move(value)`
also leaves the object `value` refers to in the moved-from state. -/
def InsertMove [Element α] (h : Heap α) (v : HeapVector) (pos : Int) (value : HeapRef α) :
    Option (Heap α × HeapVector × Int) :=
  if pos ≥ v.begin ∧ pos ≤ v.end_ then
    let index := (pos - v.begin).toNat
    if v.size_ = v.capacity_ then
      let new_capacity := if v.capacity_ = 0 then 1 else v.capacity_ * 2
      let a := h.arrayPtr new_capacity
      let r1 := stdMove (a.1.get v.items_) (a.1.get a.2) 0 index 0
      let h1 := (a.1.put v.items_ r1.1).put a.2 r1.2
      match h1.read value with
      | none => none
      | some x =>
        let y := Element.residue (deref (h1.get a.2) index) x
        let h2 := (h1.leave value y).put a.2 (((h1.leave value y).get a.2).set index x)
        let r2 := stdMove (h2.get v.items_) (h2.get a.2) index v.size_ (index + 1)
        let h3 := (h2.put v.items_ r2.1).put a.2 r2.2
        let w : HeapVector := { items_ := a.2, size_ := v.size_ + 1, capacity_ := new_capacity }
        some (h3.deleteArray v.items_, w, w.begin + (index : Int))
    else
      let h1 := h.put v.items_ (stdMoveBackward (h.get v.items_) index v.size_ (v.size_ + 1))
      match h1.read value with
      | none => none
      | some x =>
        let y := Element.residue (deref (h1.get v.items_) index) x
        let h2 := h1.leave value y
        let w : HeapVector := { v with size_ := v.size_ + 1 }
        some (h2.put v.items_ ((h2.get v.items_).set index x), w, w.begin + (index : Int))
  else none

/-- Method `Erase(ConstIterator pos)`. -/
def Erase [Element α] (h : Heap α) (v : HeapVector) (pos : Int) :
    Option (Heap α × HeapVector × Int) :=
  if pos ≥ v.begin ∧ pos < v.end_ then
    let index := (pos - v.begin).toNat
    let w : HeapVector := { v with size_ := v.size_ - 1 }
    some (h.put v.items_ (stdMoveSelf (h.get v.items_) (index + 1) v.size_ index), w,
      w.begin + (index : Int))
  else none

/-- Element write `v[index] = x` through the non-const `operator[](size_t index)`:
`assert(index < size_)`, then the assignment to `items_[index]`; `none` when the assertion
fails or `x` cannot be read. -/
def assign (h : Heap α) (v : HeapVector) (index : Nat) (x : HeapRef α) : Option (Heap α) :=
  if index < v.size_ then
    match h.read x with
    | none => none
    | some y => some (h.put v.items_ ((h.get v.items_).set index y))
  else none

end HeapVector

/-- One mutation of an array: a call of `PushBack`, `Insert`, `Erase` or an element
write. -/
inductive Mutation (α : Type) where
  /-- `PushBack(const Type&)`. -/
  | pushBack (item : HeapRef α) : Mutation α
  /-- `PushBack(Type&&)`. -/
  | pushBackMove (item : HeapRef α) : Mutation α
  /-- `Insert(ConstIterator, const Type&)`. -/
  | insert (pos : Int) (value : HeapRef α) : Mutation α
  /-- `Insert(ConstIterator, Type&&)`. -/
  | insertMove (pos : Int) (value : HeapRef α) : Mutation α
  /-- `Erase(ConstIterator)`. -/
  | erase (pos : Int) : Mutation α
  /-- `v[index] = x`. -/
  | assign (index : Nat) (x : HeapRef α) : Mutation α

/-- The mutation does not move from an element of the block `p` points to: the rvalue
overloads empty the object they are given, whose owner the caller is. -/
def Mutation.spares {α : Type} (m : Mutation α) (p : Option Nat) : Prop :=
  match m with
  | Mutation.pushBackMove (HeapRef.cell a _) => p ≠ some a
  | Mutation.insertMove _ (HeapRef.cell a _) => p ≠ some a
  | _ => True

/-- One mutation applied to the array `v`; `none` when it does not return. -/
def HeapVector.mutate {α : Type} [Element α] (h : Heap α) (v : HeapVector) (m : Mutation α) :
    Option (Heap α × HeapVector) :=
  match m with
  | Mutation.pushBack item => HeapVector.PushBack h v item
  | Mutation.pushBackMove item => HeapVector.PushBackMove h v item
  | Mutation.insert pos value => (HeapVector.Insert h v pos value).map (fun r => (r.1, r.2.1))
  | Mutation.insertMove pos value =>
    (HeapVector.InsertMove h v pos value).map (fun r => (r.1, r.2.1))
  | Mutation.erase pos => (HeapVector.Erase h v pos).map (fun r => (r.1, r.2.1))
  | Mutation.assign index x => (HeapVector.assign h v index x).map (fun r => (r, v))

/-- A sequence of mutations applied to the array `v`, one after the other. -/
def HeapVector.mutateAll {α : Type} [Element α] (h : Heap α) (v : HeapVector) :
    List (Mutation α) → Option (Heap α × HeapVector)
  | [] => some (h, v)
  | m :: ms =>
    match HeapVector.mutate h v m with
    | none => none
    | some r => HeapVector.mutateAll r.1 r.2 ms

/-- Four mutations: `PushBack` of element 1 of block 0, `Insert(begin(), 7)`,
`Erase(begin() + 1)` and the element write `v[0] = 42`. -/
def sampleMutations : List (Mutation Nat) :=
  [Mutation.pushBack (HeapRef.cell 0 1), Mutation.insert 0 (HeapRef.obj 7), Mutation.erase 1,
    Mutation.assign 0 (HeapRef.obj 42)]

/-- A free store with one block: `1, 2, 3` followed by two slots that hold old values. -/
def sampleHeap : Heap Nat := Heap.mk [some [1, 2, 3, 8, 9]]

/-- The array `1, 2, 3` with capacity 5 that owns block 0 of `sampleHeap`. -/
def sampleOwner : HeapVector := { items_ := some 0, size_ := 3, capacity_ := 5 }

/-! ## Facts about the algorithm loops -/

section AlgorithmLemmas

variable {α : Type}

theorem deref_eq_of_getElem? [Inhabited α] {b1 b2 : List α} {i j : Nat}
    (h : b1[i]? = b2[j]?) : deref b1 i = deref b2 j := by
  simp [deref, h]

theorem some_deref [Inhabited α] {buf : List α} {i : Nat} (h : i < buf.length) :
    some (deref buf i) = buf[i]? := by
  simp [deref, List.getElem?_eq_getElem h]

theorem stdMoveLoop_fst_length [Element α] (n : Nat) (src dst : List α) (f d : Nat) :
    (stdMoveLoop n src dst f d).1.length = src.length := by
  induction n generalizing src dst f d with
  | zero => rfl
  | succ n ih => simp [stdMoveLoop, ih]

theorem stdMoveLoop_snd_length [Element α] (n : Nat) (src dst : List α) (f d : Nat) :
    (stdMoveLoop n src dst f d).2.length = dst.length := by
  induction n generalizing src dst f d with
  | zero => rfl
  | succ n ih => simp [stdMoveLoop, ih]

/-- Slots of the source outside `[first, last)` are not touched. -/
theorem stdMoveLoop_fst_outside [Element α] (n : Nat) (src dst : List α) (f d j : Nat)
    (hj : j < f ∨ f + n ≤ j) : (stdMoveLoop n src dst f d).1[j]? = src[j]? := by
  induction n generalizing src dst f d with
  | zero => rfl
  | succ n ih =>
    simp only [stdMoveLoop]
    rw [ih _ _ _ _ (by omega), List.getElem?_set_ne (by omega)]

/-- Slots of the destination outside `[d_first, d_first + n)` are not touched. -/
theorem stdMoveLoop_snd_outside [Element α] (n : Nat) (src dst : List α) (f d j : Nat)
    (hj : j < d ∨ d + n ≤ j) : (stdMoveLoop n src dst f d).2[j]? = dst[j]? := by
  induction n generalizing src dst f d with
  | zero => rfl
  | succ n ih =>
    simp only [stdMoveLoop]
    rw [ih _ _ _ _ (by omega), List.getElem?_set_ne (by omega)]

/-- Slot `d_first + i` of the destination receives the element at `first + i`. -/
theorem stdMoveLoop_snd_inside [Element α] (n : Nat) (src dst : List α) (f d j : Nat)
    (hs : f + n ≤ src.length) (hd : d + n ≤ dst.length) (h1 : d ≤ j) (h2 : j < d + n) :
    (stdMoveLoop n src dst f d).2[j]? = src[f + (j - d)]? := by
  induction n generalizing src dst f d with
  | zero => omega
  | succ n ih =>
    simp only [stdMoveLoop]
    by_cases hjd : j = d
    · subst hjd
      rw [stdMoveLoop_snd_outside _ _ _ _ _ _ (by omega),
        List.getElem?_set_self (by omega), some_deref (by omega)]
      simp
    · rw [ih _ _ _ _ (by simp; omega) (by simp; omega) (by omega) (by omega),
        List.getElem?_set_ne (by omega)]
      congr 1
      omega

theorem stdMoveSelfLoop_length [Element α] (n : Nat) (buf : List α) (f d : Nat) :
    (stdMoveSelfLoop n buf f d).length = buf.length := by
  induction n generalizing buf f d with
  | zero => rfl
  | succ n ih => simp [stdMoveSelfLoop, ih]

/-- Slots outside both ranges are not touched by an in-block `std::move`. -/
theorem stdMoveSelfLoop_outside [Element α] (n : Nat) (buf : List α) (f d j : Nat)
    (hd : j < d ∨ d + n ≤ j) (hf : j < f ∨ f + n ≤ j) :
    (stdMoveSelfLoop n buf f d)[j]? = buf[j]? := by
  induction n generalizing buf f d with
  | zero => rfl
  | succ n ih =>
    simp only [stdMoveSelfLoop]
    rw [ih _ _ _ (by omega) (by omega), List.getElem?_set_ne (by omega),
      List.getElem?_set_ne (by omega)]

/-- A leftward in-block `std::move` puts the element at `first + i` into slot
`d_first + i`. -/
theorem stdMoveSelfLoop_inside [Element α] (n : Nat) (buf : List α) (f d j : Nat)
    (hlt : d < f) (hlen : f + n ≤ buf.length) (h1 : d ≤ j) (h2 : j < d + n) :
    (stdMoveSelfLoop n buf f d)[j]? = buf[j + (f - d)]? := by
  induction n generalizing buf f d with
  | zero => omega
  | succ n ih =>
    simp only [stdMoveSelfLoop]
    by_cases hjd : j = d
    · subst hjd
      rw [stdMoveSelfLoop_outside _ _ _ _ _ (by omega) (by omega),
        List.getElem?_set_self (by simp; omega), some_deref (by omega)]
      congr 1
      omega
    · rw [ih _ _ _ (by omega) (by simp; omega) (by omega) (by omega),
        List.getElem?_set_ne (by omega), List.getElem?_set_ne (by omega)]
      congr 1
      omega

theorem stdMoveBackwardLoop_length [Element α] (n : Nat) (buf : List α) (l d : Nat) :
    (stdMoveBackwardLoop n buf l d).length = buf.length := by
  induction n generalizing buf l d with
  | zero => rfl
  | succ n ih => simp [stdMoveBackwardLoop, ih]

/-- Slots outside both ranges are not touched by `std::move_backward`. -/
theorem stdMoveBackwardLoop_outside [Element α] (n : Nat) (buf : List α) (l d j : Nat)
    (hnl : n ≤ l) (hnd : n ≤ d) (hd : j < d - n ∨ d ≤ j) (hl : j < l - n ∨ l ≤ j) :
    (stdMoveBackwardLoop n buf l d)[j]? = buf[j]? := by
  induction n generalizing buf l d with
  | zero => rfl
  | succ n ih =>
    simp only [stdMoveBackwardLoop]
    rw [ih _ _ _ (by omega) (by omega) (by omega) (by omega),
      List.getElem?_set_ne (by omega), List.getElem?_set_ne (by omega)]

/-- A rightward `std::move_backward` puts the element at `last - i` into slot
`d_last - i`. -/
theorem stdMoveBackwardLoop_inside [Element α] (n : Nat) (buf : List α) (l d j : Nat)
    (hlt : l < d) (hnl : n ≤ l) (hlen : d ≤ buf.length) (h1 : d - n ≤ j) (h2 : j < d) :
    (stdMoveBackwardLoop n buf l d)[j]? = buf[j - (d - l)]? := by
  induction n generalizing buf l d with
  | zero => omega
  | succ n ih =>
    simp only [stdMoveBackwardLoop]
    by_cases hjd : j = d - 1
    · subst hjd
      rw [stdMoveBackwardLoop_outside _ _ _ _ _ (by omega) (by omega) (by omega) (by omega),
        List.getElem?_set_self (by simp; omega), some_deref (by omega)]
      congr 1
      omega
    · rw [ih _ _ _ (by omega) (by omega) (by simp; omega) (by omega) (by omega),
        List.getElem?_set_ne (by omega), List.getElem?_set_ne (by omega)]
      congr 1
      omega

theorem stdGenerateLoop_length [Inhabited α] (n : Nat) (buf : List α) (f : Nat) :
    (stdGenerateLoop n buf f).length = buf.length := by
  induction n generalizing buf f with
  | zero => rfl
  | succ n ih => simp [stdGenerateLoop, ih]

/-- Slots outside `[first, last)` are not touched by `std::generate`. -/
theorem stdGenerateLoop_outside [Inhabited α] (n : Nat) (buf : List α) (f j : Nat)
    (hj : j < f ∨ f + n ≤ j) : (stdGenerateLoop n buf f)[j]? = buf[j]? := by
  induction n generalizing buf f with
  | zero => rfl
  | succ n ih =>
    simp only [stdGenerateLoop]
    rw [ih _ _ (by omega), List.getElem?_set_ne (by omega)]

/-- Every slot of `[first, last)` holds `Type()` after `std::generate`. -/
theorem stdGenerateLoop_inside [Inhabited α] (n : Nat) (buf : List α) (f j : Nat)
    (hlen : f + n ≤ buf.length) (h1 : f ≤ j) (h2 : j < f + n) :
    (stdGenerateLoop n buf f)[j]? = some default := by
  induction n generalizing buf f with
  | zero => omega
  | succ n ih =>
    simp only [stdGenerateLoop]
    by_cases hjf : j = f
    · subst hjf
      rw [stdGenerateLoop_outside _ _ _ _ (by omega), List.getElem?_set_self (by omega)]
    · exact ih _ _ (by simp; omega) (by omega) (by omega)

/-- The loop of `std::equal` answers true exactly when all `n` pairs compare equal. -/
theorem stdEqualLoop_iff [Inhabited α] [BEq α] (n : Nat) (b1 b2 : List α) (f1 f2 : Nat) :
    stdEqualLoop n b1 f1 b2 f2 = true ↔
      ∀ i, i < n → (deref b1 (f1 + i) == deref b2 (f2 + i)) = true := by
  induction n generalizing f1 f2 with
  | zero => simp [stdEqualLoop]
  | succ n ih =>
    simp only [stdEqualLoop]
    constructor
    · intro h i hi
      split at h
      · rename_i h0
        rcases Nat.eq_zero_or_pos i with hz | hp
        · subst hz; simpa using h0
        · have := (ih (f1 + 1) (f2 + 1)).1 h (i - 1) (by omega)
          have e1 : f1 + 1 + (i - 1) = f1 + i := by omega
          have e2 : f2 + 1 + (i - 1) = f2 + i := by omega
          rwa [e1, e2] at this
      · cases h
    · intro h
      have h0 := h 0 (by omega)
      simp only [Nat.add_zero] at h0
      rw [if_pos h0]
      refine (ih (f1 + 1) (f2 + 1)).2 (fun i hi => ?_)
      have := h (i + 1) (by omega)
      have e1 : f1 + (i + 1) = f1 + 1 + i := by omega
      have e2 : f2 + (i + 1) = f2 + 1 + i := by omega
      rwa [e1, e2] at this

/-- Pointwise reading of a list with `x` put in front of position `k`. -/
theorem getElem?_insert_form (l : List α) (k j : Nat) (x : α) (hk : k ≤ l.length) :
    (l.take k ++ [x] ++ l.drop k)[j]? =
      if j < k then l[j]? else if j = k then some x else l[j - 1]? := by
  have hlen : (l.take k).length = k := by simp [List.length_take]; omega
  by_cases h1 : j < k
  · rw [if_pos h1, List.append_assoc, List.getElem?_append_left (by omega),
      List.getElem?_take_of_lt h1]
  · rw [if_neg h1, List.append_assoc, List.getElem?_append_right (by omega), hlen]
    by_cases h2 : j = k
    · subst h2; simp
    · rw [if_neg h2]
      obtain ⟨m, hm⟩ : ∃ m, j - k = m + 1 := ⟨j - k - 1, by omega⟩
      rw [hm, List.singleton_append, List.getElem?_cons_succ, List.getElem?_drop]
      congr 1; omega

/-- Pointwise reading of a list with position `k` removed. -/
theorem getElem?_erase_form (l : List α) (k j : Nat) (hk : k ≤ l.length) :
    (l.take k ++ l.drop (k + 1))[j]? = if j < k then l[j]? else l[j + 1]? := by
  have hlen : (l.take k).length = k := by simp [List.length_take]; omega
  by_cases h1 : j < k
  · rw [if_pos h1, List.getElem?_append_left (by omega), List.getElem?_take_of_lt h1]
  · rw [if_neg h1, List.getElem?_append_right (by omega), hlen, List.getElem?_drop]
    congr 1; omega

@[simp] theorem ArrayPtr.ofSize_raw [Inhabited α] (c : Nat) :
    (ArrayPtr.ofSize c : ArrayPtr α).raw_ptr_ = List.replicate c default := by
  unfold ArrayPtr.ofSize
  split
  · next h => subst h; rfl
  · rfl

/-- The block built by the reallocating branch of `Insert`: prefix, new value, suffix. -/
theorem realloc_insert_block [Element α] (src : List α) (n k c : Nat) (x : α)
    (hn : n ≤ src.length) (hk : k ≤ n) (hc : n + 1 ≤ c) (j : Nat) (hj : j < n + 1) :
    (stdMove (stdMove src (List.replicate c default) 0 k 0).1
        ((stdMove src (List.replicate c default) 0 k 0).2.set k x) k n (k + 1)).2[j]? =
      if j < k then src[j]? else if j = k then some x else src[j - 1]? := by
  unfold stdMove
  simp only [Nat.sub_zero]
  by_cases h1 : j < k
  · rw [if_pos h1, stdMoveLoop_snd_outside _ _ _ _ _ _ (by omega),
      List.getElem?_set_ne (by omega),
      stdMoveLoop_snd_inside _ _ _ _ _ _ (by omega) (by simp; omega) (by omega) (by omega)]
    congr 1; omega
  · rw [if_neg h1]
    by_cases h2 : j = k
    · subst h2
      rw [if_pos rfl, stdMoveLoop_snd_outside _ _ _ _ _ _ (by omega),
        List.getElem?_set_self (by rw [stdMoveLoop_snd_length]; simp; omega)]
    · rw [if_neg h2, stdMoveLoop_snd_inside _ _ _ _ _ _
          (by rw [stdMoveLoop_fst_length]; omega)
          (by rw [List.length_set, stdMoveLoop_snd_length]; simp; omega) (by omega) (by omega),
        stdMoveLoop_fst_outside _ _ _ _ _ _ (by omega)]
      congr 1; omega

/-- The block left by the in-place branch of `Insert`: the suffix moves one slot right. -/
theorem inplace_insert_block [Element α] (buf : List α) (n k : Nat) (x : α)
    (hn : n < buf.length) (hk : k ≤ n) (j : Nat) (hj : j < n + 1) :
    ((stdMoveBackward buf k n (n + 1)).set k x)[j]? =
      if j < k then buf[j]? else if j = k then some x else buf[j - 1]? := by
  unfold stdMoveBackward
  by_cases h1 : j < k
  · rw [if_pos h1, List.getElem?_set_ne (by omega),
      stdMoveBackwardLoop_outside _ _ _ _ _ (by omega) (by omega) (by omega) (by omega)]
  · rw [if_neg h1]
    by_cases h2 : j = k
    · subst h2
      rw [if_pos rfl, List.getElem?_set_self (by rw [stdMoveBackwardLoop_length]; omega)]
    · rw [if_neg h2, List.getElem?_set_ne (by omega),
        stdMoveBackwardLoop_inside _ _ _ _ _ (by omega) (by omega) (by omega) (by omega)
          (by omega)]
      congr 1; omega

/-- The block left by `Erase`: the suffix moves one slot left. -/
theorem erase_block [Element α] (buf : List α) (n k : Nat)
    (hn : n ≤ buf.length) (hk : k < n) (j : Nat) (hj : j < n - 1) :
    (stdMoveSelf buf (k + 1) n k)[j]? = if j < k then buf[j]? else buf[j + 1]? := by
  unfold stdMoveSelf
  by_cases h1 : j < k
  · rw [if_pos h1, stdMoveSelfLoop_outside _ _ _ _ _ (by omega) (by omega)]
  · rw [if_neg h1, stdMoveSelfLoop_inside _ _ _ _ _ (by omega) (by omega) (by omega) (by omega)]
    congr 1; omega

theorem stdCopyLoop_length [Inhabited α] (n : Nat) (src dst : List α) (f d : Nat) :
    (stdCopyLoop n src dst f d).length = dst.length := by
  induction n generalizing dst f d with
  | zero => rfl
  | succ n ih => simp [stdCopyLoop, ih]

/-- Slots of the destination outside `[d_first, d_first + n)` are not touched by
`std::copy`. -/
theorem stdCopyLoop_outside [Inhabited α] (n : Nat) (src dst : List α) (f d j : Nat)
    (hj : j < d ∨ d + n ≤ j) : (stdCopyLoop n src dst f d)[j]? = dst[j]? := by
  induction n generalizing dst f d with
  | zero => rfl
  | succ n ih =>
    simp only [stdCopyLoop]
    rw [ih _ _ _ (by omega), List.getElem?_set_ne (by omega)]

/-- Slot `d_first + i` of the destination receives a copy of the element at `first + i`. -/
theorem stdCopyLoop_inside [Inhabited α] (n : Nat) (src dst : List α) (f d j : Nat)
    (hs : f + n ≤ src.length) (hd : d + n ≤ dst.length) (h1 : d ≤ j) (h2 : j < d + n) :
    (stdCopyLoop n src dst f d)[j]? = src[f + (j - d)]? := by
  induction n generalizing dst f d with
  | zero => omega
  | succ n ih =>
    simp only [stdCopyLoop]
    by_cases hjd : j = d
    · subst hjd
      rw [stdCopyLoop_outside _ _ _ _ _ _ (by omega),
        List.getElem?_set_self (by omega), some_deref (by omega)]
      simp
    · rw [ih _ _ _ (by omega) (by simp; omega) (by omega) (by omega)]
      congr 1
      omega

theorem stdFillLoop_length (n : Nat) (buf : List α) (f : Nat) (x : α) :
    (stdFillLoop n buf f x).length = buf.length := by
  induction n generalizing buf f with
  | zero => rfl
  | succ n ih => simp [stdFillLoop, ih]

/-- Slots outside `[first, last)` are not touched by `std::fill`. -/
theorem stdFillLoop_outside (n : Nat) (buf : List α) (f j : Nat) (x : α)
    (hj : j < f ∨ f + n ≤ j) : (stdFillLoop n buf f x)[j]? = buf[j]? := by
  induction n generalizing buf f with
  | zero => rfl
  | succ n ih =>
    simp only [stdFillLoop]
    rw [ih _ _ (by omega), List.getElem?_set_ne (by omega)]

/-- Every slot of `[first, last)` holds the value after `std::fill`. -/
theorem stdFillLoop_inside (n : Nat) (buf : List α) (f j : Nat) (x : α)
    (hlen : f + n ≤ buf.length) (h1 : f ≤ j) (h2 : j < f + n) :
    (stdFillLoop n buf f x)[j]? = some x := by
  induction n generalizing buf f with
  | zero => omega
  | succ n ih =>
    simp only [stdFillLoop]
    by_cases hjf : j = f
    · subst hjf
      rw [stdFillLoop_outside _ _ _ _ _ (by omega), List.getElem?_set_self (by omega)]
    · exact ih _ _ (by simp; omega) (by omega) (by omega)

/-- What the loop of `std::lexicographical_compare` computes when the two ranges hold the
lists `s` and `t`: the order `List.lt`, which skips a pair when neither element is less
than the other. -/
theorem stdLexicographicalCompareLoop_iff [Inhabited α] [LT α]
    [DecidableRel (α := α) (· < ·)] (b1 b2 : List α) (s t : List α) (f1 f2 : Nat)
    (h1 : ∀ i, i < s.length → b1[f1 + i]? = s[i]?)
    (h2 : ∀ i, i < t.length → b2[f2 + i]? = t[i]?) :
    stdLexicographicalCompareLoop s.length t.length b1 f1 b2 f2 = true ↔ List.lt s t := by
  induction s generalizing t f1 f2 with
  | nil =>
    cases t with
    | nil =>
      simp only [List.length_nil, stdLexicographicalCompareLoop]
      constructor
      · intro h; simp at h
      · intro h; cases h
    | cons b t =>
      simp only [List.length_nil, List.length_cons, stdLexicographicalCompareLoop]
      constructor
      · intro _; exact List.lt.nil _ _
      · intro _; simp
  | cons a s ih =>
    cases t with
    | nil =>
      simp only [List.length_nil, List.length_cons, stdLexicographicalCompareLoop]
      constructor
      · intro h; cases h
      · intro h; cases h
    | cons b t =>
      have ha : deref b1 f1 = a := by
        have := h1 0 (by simp)
        simp only [Nat.add_zero, List.getElem?_cons_zero] at this
        simp [deref, this]
      have hb : deref b2 f2 = b := by
        have := h2 0 (by simp)
        simp only [Nat.add_zero, List.getElem?_cons_zero] at this
        simp [deref, this]
      have h1s : ∀ i, i < s.length → b1[f1 + 1 + i]? = s[i]? := by
        intro i hi
        have := h1 (i + 1) (by simp; omega)
        rw [List.getElem?_cons_succ] at this
        rw [← this]
        congr 1
        omega
      have h2s : ∀ i, i < t.length → b2[f2 + 1 + i]? = t[i]? := by
        intro i hi
        have := h2 (i + 1) (by simp; omega)
        rw [List.getElem?_cons_succ] at this
        rw [← this]
        congr 1
        omega
      simp only [List.length_cons, stdLexicographicalCompareLoop, ha, hb]
      by_cases hab : a < b
      · rw [if_pos hab]
        exact ⟨fun _ => List.lt.head _ _ hab, fun _ => rfl⟩
      · rw [if_neg hab]
        by_cases hba : b < a
        · rw [if_pos hba]
          constructor
          · intro h; cases h
          · intro h
            cases h with
            | head _ _ h => exact absurd h hab
            | tail _ h _ => exact absurd hba h
        · rw [if_neg hba, ih t (f1 + 1) (f2 + 1) h1s h2s]
          constructor
          · intro h; exact List.lt.tail hab hba h
          · intro h
            cases h with
            | head _ _ h => exact absurd h hab
            | tail _ _ h => exact h

/-! ## Facts about the lexicographic order of lists -/

theorem list_lt_cons_cons_iff [LT α] (a b : α) (s t : List α) :
    List.lt (a :: s) (b :: t) ↔ a < b ∨ (¬ a < b ∧ ¬ b < a ∧ List.lt s t) := by
  constructor
  · intro h
    cases h with
    | head _ _ h => exact Or.inl h
    | tail h1 h2 h3 => exact Or.inr ⟨h1, h2, h3⟩
  · rintro (h | ⟨h1, h2, h3⟩)
    · exact List.lt.head _ _ h
    · exact List.lt.tail h1 h2 h3

theorem list_lt_nil_iff [LT α] (s : List α) : ¬ List.lt s [] := by
  intro h
  cases h

/-- A list is below each of its one-element extensions, when no element is below itself. -/
theorem list_lt_append_singleton [LT α] (hirr : ∀ a : α, ¬ a < a) (l : List α) (x : α) :
    List.lt l (l ++ [x]) := by
  induction l with
  | nil => exact List.lt.nil _ _
  | cons a l ih => exact List.lt.tail (hirr a) (hirr a) ih

/-- A one-element extension of a list is not below the list. -/
theorem list_not_append_singleton_lt [LT α] (hirr : ∀ a : α, ¬ a < a) (l : List α) (x : α) :
    ¬ List.lt (l ++ [x]) l := by
  induction l with
  | nil => exact list_lt_nil_iff _
  | cons a l ih =>
    intro h
    rw [List.cons_append, list_lt_cons_cons_iff] at h
    rcases h with h | ⟨_, _, h⟩
    · exact hirr a h
    · exact ih h

/-- Over a linear order two lists are comparable: `t` is not below `s` exactly when `s` is
below `t` or equal to it. -/
theorem list_not_lt_iff [LinearOrder α] (s t : List α) :
    ¬ List.lt t s ↔ List.lt s t ∨ s = t := by
  induction s generalizing t with
  | nil =>
    cases t with
    | nil => exact ⟨fun _ => Or.inr rfl, fun _ => list_lt_nil_iff _⟩
    | cons b t => exact ⟨fun _ => Or.inl (List.lt.nil _ _), fun _ => list_lt_nil_iff _⟩
  | cons a s ih =>
    cases t with
    | nil =>
      constructor
      · intro h; exact absurd (List.lt.nil _ _) h
      · rintro (h | h)
        · exact absurd h (list_lt_nil_iff _)
        · cases h
    | cons b t =>
      rw [list_lt_cons_cons_iff, list_lt_cons_cons_iff]
      rcases lt_trichotomy a b with hab | hab | hab
      · have hba : ¬ b < a := lt_asymm hab
        constructor
        · intro _; exact Or.inl (Or.inl hab)
        · rintro _ (h | ⟨_, h, _⟩)
          · exact hba h
          · exact h hab
      · subst hab
        have hirr : ¬ a < a := lt_irrefl a
        constructor
        · intro h
          have h2 : ¬ List.lt t s := fun h3 => h (Or.inr ⟨hirr, hirr, h3⟩)
          rcases (ih t).1 h2 with h4 | h4
          · exact Or.inl (Or.inr ⟨hirr, hirr, h4⟩)
          · exact Or.inr (by rw [h4])
        · rintro h (h5 | ⟨_, _, h5⟩)
          · exact hirr h5
          · rcases h with (h6 | ⟨_, _, h6⟩) | h6
            · exact hirr h6
            · exact (ih t).2 (Or.inl h6) h5
            · have h7 : s = t := by injection h6
              exact (ih t).2 (Or.inr h7) h5
      · have hba : ¬ a < b := lt_asymm hab
        constructor
        · intro h; exact absurd (Or.inl hab) h
        · rintro (h | h) _
          · rcases h with h | ⟨_, h, _⟩
            · exact hba h
            · exact h hab
          · have h7 : a = b := by injection h
            rw [h7] at hab
            exact lt_irrefl b hab

end AlgorithmLemmas

/-! ## Facts about the operations of `SimpleVector` -/

namespace SimpleVector

variable {α : Type}

theorem toList_getElem? (v : SimpleVector α) (j : Nat) :
    v.toList[j]? = if j < v.size_ then v.items_.raw_ptr_[j]? else none := by
  simp [toList, ArrayPtr.Get, List.getElem?_take]

theorem toList_length (v : SimpleVector α) (h : v.WF) : v.toList.length = v.size_ := by
  obtain ⟨h1, h2⟩ := h
  simp [toList, ArrayPtr.Get, List.length_take]
  omega

/-- Everything `Insert` does on a well-formed array, slot by slot: the value `y` it reads
through its reference parameter lands in slot `k`; `y` is the argument itself when that is
an object outside the array. -/
theorem Insert_result [Element α] (v : SimpleVector α) (hwf : v.WF) (k : Nat)
    (hk : k ≤ v.size_) (value : Ref α) :
    ∃ w y, v.Insert (k : Int) value = some (w, (k : Int)) ∧
      (∀ x, value = Ref.obj x → y = x) ∧
      (∀ j, j < v.size_ + 1 → w.items_.raw_ptr_[j]? =
        if j < k then v.items_.raw_ptr_[j]? else if j = k then some y
        else v.items_.raw_ptr_[j - 1]?) ∧
      w.size_ = v.size_ + 1 ∧
      w.capacity_ = (if v.size_ = v.capacity_ then (if v.capacity_ = 0 then 1
        else v.capacity_ * 2) else v.capacity_) ∧
      w.items_.raw_ptr_.length = w.capacity_ := by
  obtain ⟨hlen, hle⟩ := hwf
  have hpos : (k : Int) ≥ 0 ∧ (k : Int) ≤ 0 + (v.size_ : Int) := ⟨by omega, by omega⟩
  unfold Insert
  simp only [SimpleVector.begin, end_]
  rw [if_pos hpos]
  simp only [Int.toNat_ofNat, sub_zero, zero_add]
  by_cases hfull : v.size_ = v.capacity_
  · rw [if_pos hfull, if_pos hfull]
    refine ⟨_, value.get (stdMove v.items_.Get
      (ArrayPtr.ofSize (if v.capacity_ = 0 then 1 else v.capacity_ * 2)).Get 0 k 0).1,
      rfl, ?_, ?_, rfl, rfl, ?_⟩
    · intro x hx
      subst hx
      rfl
    · intro j hj
      simp only [ArrayPtr.swap, ArrayPtr.set, ArrayPtr.Get, ArrayPtr.ofSize_raw]
      exact realloc_insert_block _ v.size_ k _ _ (by omega) hk (by split <;> omega) j hj
    · simp only [ArrayPtr.swap, ArrayPtr.set, ArrayPtr.Get, ArrayPtr.ofSize_raw, stdMove,
        stdMoveLoop_snd_length, List.length_set, List.length_replicate]
  · rw [if_neg hfull, if_neg hfull]
    refine ⟨_, value.get (stdMoveBackward v.items_.Get k v.size_ (v.size_ + 1)),
      rfl, ?_, ?_, rfl, rfl, ?_⟩
    · intro x hx
      subst hx
      rfl
    · intro j hj
      simp only [ArrayPtr.set, ArrayPtr.Get]
      exact inplace_insert_block _ v.size_ k _ (by omega) hk j hj
    · simp only [ArrayPtr.set, ArrayPtr.Get, stdMoveBackward, stdMoveBackwardLoop_length,
        List.length_set]
      exact hlen

/-- For an object outside the array the rvalue overload of `Insert` builds the array the
lvalue overload builds. -/
theorem InsertMove_obj [Element α] (v : SimpleVector α) (pos : Int) (x : α) :
    (v.InsertMove pos (Ref.obj x)).map (fun r => (r.1, r.2.1)) = v.Insert pos (Ref.obj x) := by
  unfold InsertMove Insert
  split
  · split <;> rfl
  · rfl

theorem InsertMove_obj_of_Insert [Element α] (v w : SimpleVector α) (pos it : Int) (x : α)
    (h : v.Insert pos (Ref.obj x) = some (w, it)) :
    ∃ r, v.InsertMove pos (Ref.obj x) = some (w, it, r) := by
  have hm := InsertMove_obj v pos x
  rw [h] at hm
  cases hv : v.InsertMove pos (Ref.obj x) with
  | none => rw [hv] at hm; cases hm
  | some r =>
    rw [hv] at hm
    simp only [Option.map_some', Option.some.injEq, Prod.mk.injEq] at hm
    obtain ⟨w2, it2, r2⟩ := r
    simp only at hm
    exact ⟨r2, by rw [hm.1, hm.2]⟩

/-- The live sequence after `Insert`. -/
theorem Insert_toList [Element α] (v w : SimpleVector α) (hwf : v.WF) (k : Nat)
    (hk : k ≤ v.size_) (x : α) (hsz : w.size_ = v.size_ + 1)
    (hw : ∀ j, j < v.size_ + 1 → w.items_.raw_ptr_[j]? =
        if j < k then v.items_.raw_ptr_[j]? else if j = k then some x
        else v.items_.raw_ptr_[j - 1]?) :
    w.toList = v.toList.take k ++ [x] ++ v.toList.drop k := by
  apply List.ext_getElem?
  intro j
  rw [getElem?_insert_form _ _ _ _ (by rw [toList_length v hwf]; exact hk), toList_getElem?,
    toList_getElem?, toList_getElem?, hsz]
  by_cases hj : j < v.size_ + 1
  · rw [if_pos hj, hw j hj]
    by_cases h1 : j < k
    · rw [if_pos h1, if_pos h1, if_pos (by omega)]
    · rw [if_neg h1, if_neg h1]
      by_cases h2 : j = k
      · rw [if_pos h2, if_pos h2]
      · rw [if_neg h2, if_neg h2, if_pos (by omega)]
  · rw [if_neg hj, if_neg (by omega), if_neg (by omega), if_neg (by omega)]

/-- Everything `Erase` does on a well-formed array, slot by slot. -/
theorem Erase_result [Element α] (v : SimpleVector α) (hwf : v.WF) (k : Nat)
    (hk : k < v.size_) :
    ∃ w, v.Erase (k : Int) = some (w, (k : Int)) ∧
      (∀ j, j < v.size_ - 1 → w.items_.raw_ptr_[j]? =
        if j < k then v.items_.raw_ptr_[j]? else v.items_.raw_ptr_[j + 1]?) ∧
      w.size_ = v.size_ - 1 ∧ w.capacity_ = v.capacity_ ∧
      w.items_.raw_ptr_.length = w.capacity_ := by
  obtain ⟨hlen, hle⟩ := hwf
  have hpos : (k : Int) ≥ 0 ∧ (k : Int) < 0 + (v.size_ : Int) := ⟨by omega, by omega⟩
  unfold Erase
  simp only [SimpleVector.begin, end_]
  rw [if_pos hpos]
  simp only [Int.toNat_ofNat, sub_zero, zero_add]
  refine ⟨_, rfl, ?_, rfl, rfl, ?_⟩
  · intro j hj
    simp only [ArrayPtr.Get]
    exact erase_block _ v.size_ k (by omega) hk j hj
  · simp only [ArrayPtr.Get, stdMoveSelf, stdMoveSelfLoop_length]
    exact hlen

/-- The live sequence after `Erase`. -/
theorem Erase_toList (v w : SimpleVector α) (hwf : v.WF) (k : Nat)
    (hk : k < v.size_) (hsz : w.size_ = v.size_ - 1)
    (hw : ∀ j, j < v.size_ - 1 → w.items_.raw_ptr_[j]? =
        if j < k then v.items_.raw_ptr_[j]? else v.items_.raw_ptr_[j + 1]?) :
    w.toList = v.toList.take k ++ v.toList.drop (k + 1) := by
  apply List.ext_getElem?
  intro j
  rw [getElem?_erase_form _ _ _ (by rw [toList_length v hwf]; omega), toList_getElem?,
    toList_getElem?, toList_getElem?, hsz]
  by_cases hj : j < v.size_ - 1
  · rw [if_pos hj, hw j hj]
    by_cases h1 : j < k
    · rw [if_pos h1, if_pos h1, if_pos (by omega)]
    · rw [if_neg h1, if_neg h1, if_pos (by omega)]
  · rw [if_neg hj]
    by_cases h1 : j < k
    · omega
    · rw [if_neg h1, if_neg (by omega)]

/-- Two arrays with the same size and the same slots below the size have the same live
sequence. -/
theorem toList_congr (v w : SimpleVector α) (hsz : w.size_ = v.size_)
    (hw : ∀ j, j < v.size_ → w.items_.raw_ptr_[j]? = v.items_.raw_ptr_[j]?) :
    w.toList = v.toList := by
  apply List.ext_getElem?
  intro j
  rw [toList_getElem?, toList_getElem?, hsz]
  by_cases hj : j < v.size_
  · rw [if_pos hj, if_pos hj, hw j hj]
  · rw [if_neg hj, if_neg hj]

/-- Everything `Reserve` does on a well-formed array. -/
theorem Reserve_result [Element α] (v : SimpleVector α) (hwf : v.WF) (c : Nat) :
    (v.Reserve c).size_ = v.size_ ∧
      (v.Reserve c).capacity_ = max v.capacity_ c ∧
      (∀ j, j < v.size_ → (v.Reserve c).items_.raw_ptr_[j]? = v.items_.raw_ptr_[j]?) ∧
      (v.Reserve c).items_.raw_ptr_.length = (v.Reserve c).capacity_ ∧
      (c ≤ v.capacity_ → v.Reserve c = v) := by
  obtain ⟨hlen, hle⟩ := hwf
  unfold Reserve
  by_cases hc : c > v.capacity_
  · rw [if_pos hc]
    refine ⟨rfl, ?_, ?_, ?_, ?_⟩
    · show c = max v.capacity_ c
      omega
    · intro j hj
      simp only [ArrayPtr.swap, ArrayPtr.Get, ArrayPtr.ofSize_raw, stdMove, Nat.sub_zero]
      rw [stdMoveLoop_snd_inside _ _ _ _ _ _ (by omega) (by simp; omega) (by omega) (by omega)]
      congr 1
      omega
    · simp only [ArrayPtr.swap, ArrayPtr.Get, ArrayPtr.ofSize_raw, stdMove,
        stdMoveLoop_snd_length, List.length_replicate]
    · intro h; omega
  · rw [if_neg hc]
    refine ⟨rfl, ?_, fun _ _ => rfl, hlen, fun _ => rfl⟩
    omega

/-- A reserved array is well formed. -/
theorem Reserve_WF [Element α] (v : SimpleVector α) (hwf : v.WF) (c : Nat) :
    (v.Reserve c).WF := by
  obtain ⟨h1, h2, _, h4, _⟩ := Reserve_result v hwf c
  refine ⟨h4, ?_⟩
  rw [h1, h2]
  have := hwf.2
  omega

/-- The capacity `PushBack` and `Insert` ask for when the array is full. -/
theorem grow_gt (c : Nat) : c < (if c = 0 then 1 else c * 2) := by
  split <;> omega

/-- Everything `PushBack` does on a well-formed array when its argument is an object
outside the array, slot by slot; the rvalue overload builds the same array. -/
theorem PushBack_result [Element α] (v : SimpleVector α) (hwf : v.WF) (x : α) :
    ∃ w r, v.PushBack (Ref.obj x) = some w ∧ v.PushBackMove (Ref.obj x) = some (w, r) ∧
      w.size_ = v.size_ + 1 ∧
      w.capacity_ = (if v.size_ = v.capacity_ then (if v.capacity_ = 0 then 1
        else v.capacity_ * 2) else v.capacity_) ∧
      (∀ j, j < v.size_ → w.items_.raw_ptr_[j]? = v.items_.raw_ptr_[j]?) ∧
      w.items_.raw_ptr_[v.size_]? = some x ∧
      w.items_.raw_ptr_.length = w.capacity_ := by
  have hwf0 := hwf
  obtain ⟨hlen, hle⟩ := hwf
  unfold PushBack PushBackMove
  simp only [Ref.read, Ref.leave]
  refine ⟨_, _, rfl, rfl, ?_⟩
  by_cases hfull : v.size_ = v.capacity_
  · simp only [if_pos hfull]
    obtain ⟨h1, h2, h3, h4, _⟩ :=
      Reserve_result v hwf0 (if v.capacity_ = 0 then 1 else v.capacity_ * 2)
    have hg := grow_gt v.capacity_
    have h2b : (v.Reserve (if v.capacity_ = 0 then 1 else v.capacity_ * 2)).capacity_ =
        (if v.capacity_ = 0 then 1 else v.capacity_ * 2) := by rw [h2]; omega
    refine ⟨by rw [h1, hfull], h2b, ?_, ?_, ?_⟩
    · intro j hj
      simp only [ArrayPtr.set]
      rw [List.getElem?_set_ne (by rw [h1]; omega), h3 j (by omega)]
    · simp only [ArrayPtr.set]
      rw [h1, List.getElem?_set_self (by rw [h4, h2b]; omega)]
    · simp only [ArrayPtr.set, List.length_set]
      exact h4
  · simp only [if_neg hfull]
    refine ⟨trivial, trivial, ?_, ?_, ?_⟩
    · intro j hj
      simp only [ArrayPtr.set]
      rw [List.getElem?_set_ne (by omega)]
    · simp only [ArrayPtr.set]
      rw [List.getElem?_set_self (by omega)]
    · simp only [ArrayPtr.set, List.length_set]
      exact hlen

/-- The live sequence after `PushBack`, given the slots of the result. -/
theorem PushBack_toList (v w : SimpleVector α) (hwf : v.WF) (x : α)
    (hsz : w.size_ = v.size_ + 1)
    (hpre : ∀ j, j < v.size_ → w.items_.raw_ptr_[j]? = v.items_.raw_ptr_[j]?)
    (hlast : w.items_.raw_ptr_[v.size_]? = some x) :
    w.toList = v.toList ++ [x] := by
  apply List.ext_getElem?
  intro j
  rw [toList_getElem?, hsz]
  by_cases hj : j < v.size_
  · rw [if_pos (by omega), hpre j hj,
      List.getElem?_append_left (by rw [toList_length v hwf]; exact hj), toList_getElem?,
      if_pos hj]
  · rw [List.getElem?_append_right (by rw [toList_length v hwf]; omega), toList_length v hwf]
    by_cases hj2 : j = v.size_
    · subst hj2
      rw [if_pos (by omega), hlast]
      simp
    · rw [if_neg (by omega)]
      obtain ⟨m, hm⟩ : ∃ m, j - v.size_ = m + 1 := ⟨j - v.size_ - 1, by omega⟩
      rw [hm]
      rfl

/-- `PushBack` of an object outside the array: the array it returns, its live sequence,
its well-formedness and its capacity. -/
theorem PushBack_obj [Element α] (v : SimpleVector α) (hwf : v.WF) (x : α) :
    ∃ w r, v.PushBack (Ref.obj x) = some w ∧ v.PushBackMove (Ref.obj x) = some (w, r) ∧
      w.toList = v.toList ++ [x] ∧ w.WF ∧ w.size_ = v.size_ + 1 ∧
      v.capacity_ ≤ w.capacity_ ∧
      w.capacity_ = (if v.size_ = v.capacity_ then (if v.capacity_ = 0 then 1
        else v.capacity_ * 2) else v.capacity_) := by
  obtain ⟨w, r, h1, h2, hsz, hcap, hpre, hlast, hlen⟩ := PushBack_result v hwf x
  have hle := hwf.2
  have hc : v.capacity_ ≤ w.capacity_ ∧ w.size_ ≤ w.capacity_ := by
    rw [hsz, hcap]
    split
    · split <;> omega
    · omega
  exact ⟨w, r, h1, h2, PushBack_toList v w hwf x hsz hpre hlast, ⟨hlen, hc.2⟩, hsz, hc.1, hcap⟩

/-- An element of a full array cannot be pushed: `Reserve` deletes the block the reference
points into before it is read. -/
theorem PushBack_elem_full [Element α] (v : SimpleVector α) (j : Nat)
    (hfull : v.size_ = v.capacity_) :
    v.PushBack (Ref.elem j) = none ∧ v.PushBackMove (Ref.elem j) = none := by
  have hg := grow_gt v.capacity_
  unfold PushBack PushBackMove
  simp only [Ref.read]
  have hd : decide (v.size_ = v.capacity_ ∧
      (if v.capacity_ = 0 then 1 else v.capacity_ * 2) > v.capacity_) = true := by
    simp only [decide_eq_true_eq]
    exact ⟨hfull, hg⟩
  rw [hd]
  exact ⟨rfl, rfl⟩

/-- An element of an array with a spare slot is pushed as it should be. -/
theorem PushBack_elem_spare [Element α] (v : SimpleVector α) (hwf : v.WF) (j : Nat)
    (hj : j < v.size_) (hspare : v.size_ < v.capacity_) :
    ∃ w x, v.PushBack (Ref.elem j) = some w ∧ v.index j = some x ∧
      w.toList = v.toList ++ [x] := by
  obtain ⟨hlen, hle⟩ := hwf
  have hd : decide (v.size_ = v.capacity_ ∧
      (if v.capacity_ = 0 then 1 else v.capacity_ * 2) > v.capacity_) = false := by
    simp only [decide_eq_false_iff_not]
    omega
  refine ⟨SimpleVector.mk (v.items_.set v.size_ (deref v.items_.raw_ptr_ j)) (v.size_ + 1)
    v.capacity_, deref v.items_.raw_ptr_ j, ?_, ?_, ?_⟩
  · unfold PushBack
    simp only [Ref.read, hd, if_neg (show ¬ v.size_ = v.capacity_ by omega), ArrayPtr.Get]
    rfl
  · unfold index ArrayPtr.get deref
    rw [if_pos hj]
  · apply PushBack_toList v _ ⟨hlen, hle⟩ _ rfl
    · intro i hi
      simp only [ArrayPtr.set]
      rw [List.getElem?_set_ne (by omega)]
    · simp only [ArrayPtr.set]
      rw [List.getElem?_set_self (by omega)]

/-- Everything `Resize` does on a well-formed array, slot by slot. -/
theorem Resize_result [Element α] (v : SimpleVector α) (hwf : v.WF) (n : Nat) :
    (v.Resize n).size_ = n ∧
      (v.Resize n).capacity_ = (if n > v.capacity_ then n else v.capacity_) ∧
      (∀ j, j < v.size_ → j < n → (v.Resize n).items_.raw_ptr_[j]? = v.items_.raw_ptr_[j]?) ∧
      (∀ j, v.size_ ≤ j → j < n → (v.Resize n).items_.raw_ptr_[j]? = some default) ∧
      (v.Resize n).items_.raw_ptr_.length = (v.Resize n).capacity_ := by
  obtain ⟨hlen, hle⟩ := hwf
  unfold Resize
  by_cases h1 : n > v.capacity_
  · simp only [if_pos h1]
    refine ⟨trivial, trivial, ?_, ?_, ?_⟩
    · intro j hj hjn
      simp only [ArrayPtr.swap, ArrayPtr.Get, ArrayPtr.ofSize_raw, stdMove, stdGenerate,
        Nat.sub_zero]
      rw [stdGenerateLoop_outside _ _ _ _ (by omega),
        stdMoveLoop_snd_inside _ _ _ _ _ _ (by omega) (by simp; omega) (by omega) (by omega)]
      congr 1
      omega
    · intro j hj hjn
      simp only [ArrayPtr.swap, ArrayPtr.Get, ArrayPtr.ofSize_raw, stdMove, stdGenerate,
        Nat.sub_zero]
      exact stdGenerateLoop_inside _ _ _ _
        (by rw [stdMoveLoop_snd_length]; simp; omega) hj (by omega)
    · simp only [ArrayPtr.swap, ArrayPtr.Get, ArrayPtr.ofSize_raw, stdMove, stdGenerate,
        stdGenerateLoop_length, stdMoveLoop_snd_length, List.length_replicate]
  · simp only [if_neg h1]
    by_cases h2 : n > v.size_
    · simp only [if_pos h2]
      refine ⟨trivial, trivial, ?_, ?_, ?_⟩
      · intro j hj hjn
        simp only [ArrayPtr.Get, stdGenerate]
        exact stdGenerateLoop_outside _ _ _ _ (by omega)
      · intro j hj hjn
        simp only [ArrayPtr.Get, stdGenerate]
        exact stdGenerateLoop_inside _ _ _ _ (by omega) hj (by omega)
      · simp only [ArrayPtr.Get, stdGenerate, stdGenerateLoop_length]
        exact hlen
    · simp only [if_neg h2]
      refine ⟨trivial, trivial, fun _ _ _ => trivial, ?_, hlen⟩
      intro j hj hjn
      omega

/-- The live sequence after `Resize`: a prefix of the old one, then default values. -/
theorem Resize_toList [Element α] (v : SimpleVector α) (hwf : v.WF) (n : Nat) :
    (v.Resize n).toList = v.toList.take n ++ List.replicate (n - v.size_) default := by
  obtain ⟨hsz, _, hpre, hnew, _⟩ := Resize_result v hwf n
  have hlen : (v.toList.take n).length = min n v.size_ := by
    rw [List.length_take, toList_length v hwf]
  apply List.ext_getElem?
  intro j
  rw [toList_getElem?, hsz]
  by_cases hj : j < n
  · rw [if_pos hj]
    by_cases hjs : j < v.size_
    · rw [hpre j hjs hj, List.getElem?_append_left (by rw [hlen]; omega),
        List.getElem?_take_of_lt hj, toList_getElem?, if_pos hjs]
    · rw [hnew j (by omega) hj, List.getElem?_append_right (by rw [hlen]; omega),
        List.getElem?_replicate, if_pos (by rw [hlen]; omega)]
  · rw [if_neg hj, List.getElem?_eq_none]
    rw [List.length_append, hlen, List.length_replicate]
    omega

/-- A resized array is well formed. -/
theorem Resize_WF [Element α] (v : SimpleVector α) (hwf : v.WF) (n : Nat) :
    (v.Resize n).WF := by
  obtain ⟨hsz, hcap, _, _, hlen⟩ := Resize_result v hwf n
  refine ⟨hlen, ?_⟩
  rw [hsz, hcap]
  split <;> omega

/-- What `operator==` computes, slot by slot. -/
theorem opEq_iff [Inhabited α] [BEq α] (a b : SimpleVector α) :
    opEq a b = true ↔ a.size_ = b.size_ ∧
      ∀ i, i < a.size_ → (deref a.items_.raw_ptr_ i == deref b.items_.raw_ptr_ i) = true := by
  unfold opEq stdEqual GetSize ArrayPtr.Get
  rw [Bool.and_eq_true, stdEqualLoop_iff]
  simp

/-- With a lawful element equality, `operator==` on well-formed arrays is equality of the
live sequences. -/
theorem opEq_iff_toList [Inhabited α] [BEq α] [LawfulBEq α] (a b : SimpleVector α)
    (ha : a.WF) (hb : b.WF) : opEq a b = true ↔ a.toList = b.toList := by
  rw [opEq_iff]
  constructor
  · rintro ⟨hsz, hall⟩
    apply List.ext_getElem?
    intro j
    rw [toList_getElem?, toList_getElem?, ← hsz]
    by_cases hj : j < a.size_
    · rw [if_pos hj, if_pos hj, ← some_deref (by have := ha.1; have := ha.2; omega),
        ← some_deref (by have := hb.1; have := hb.2; omega)]
      have := hall j hj
      rw [beq_iff_eq] at this
      rw [this]
    · rw [if_neg hj, if_neg hj]
  · intro h
    have hsz : a.size_ = b.size_ := by
      rw [← toList_length a ha, ← toList_length b hb, h]
    refine ⟨hsz, fun i hi => ?_⟩
    rw [beq_iff_eq]
    apply deref_eq_of_getElem?
    have h1 := toList_getElem? a i
    have h2 := toList_getElem? b i
    rw [if_pos hi] at h1
    rw [if_pos (by omega)] at h2
    rw [← h1, ← h2, h]

/-- A live slot read through `operator[]`. -/
theorem index_of_getElem? [Inhabited α] (v : SimpleVector α) (i : Nat) (a : α)
    (hi : i < v.size_) (h : v.items_.raw_ptr_[i]? = some a) : v.index i = some a := by
  unfold index ArrayPtr.get
  rw [if_pos hi, h]
  rfl

/-- Reading a live slot through `operator[]` is reading the live sequence. -/
theorem index_eq_toList [Inhabited α] (v : SimpleVector α) (hwf : v.WF) (i : Nat)
    (hi : i < v.size_) : v.index i = v.toList[i]? := by
  rw [toList_getElem?, if_pos hi, ← some_deref (by have := hwf.1; have := hwf.2; omega)]
  unfold index ArrayPtr.get deref
  rw [if_pos hi]

/-- The array built by `Insert` is well formed. -/
theorem Insert_WF (v w : SimpleVector α) (hwf : v.WF) (hsz : w.size_ = v.size_ + 1)
    (hcap : w.capacity_ = (if v.size_ = v.capacity_ then (if v.capacity_ = 0 then 1
        else v.capacity_ * 2) else v.capacity_))
    (hlen : w.items_.raw_ptr_.length = w.capacity_) : w.WF := by
  refine ⟨hlen, ?_⟩
  rw [hsz, hcap]
  have := hwf.2
  split
  · split <;> omega
  · omega

theorem empty_WF : (empty : SimpleVector α).WF := ⟨rfl, Nat.le_refl 0⟩

theorem pushAll_snoc [Element α] (v : SimpleVector α) (items : List α) (x : α) :
    pushAll v (items ++ [x]) = (pushAll v items).bind (fun w => w.PushBack (Ref.obj x)) := by
  simp [pushAll, List.foldlM_append]

/-- The state after a run of `PushBack` calls on a default-constructed array: the size is
the number of calls and the capacity is a power of two below twice that number. -/
theorem pushAll_inv [Element α] (items : List α) :
    ∃ w, pushAll (empty : SimpleVector α) items = some w ∧ w.WF ∧
      w.size_ = items.length ∧
      (items.length = 0 → w.capacity_ = 0) ∧
      (1 ≤ items.length → ∃ e, w.capacity_ = 2 ^ e ∧
        items.length ≤ 2 ^ e ∧ 2 ^ e < 2 * items.length) := by
  induction items using List.reverseRecOn with
  | nil => exact ⟨empty, rfl, empty_WF, rfl, fun _ => rfl, fun h => absurd h (by simp)⟩
  | append_singleton xs x ih =>
    obtain ⟨w, hw, hwf, hsz, hzero, hpow⟩ := ih
    obtain ⟨w2, _, h2, _, _, hwf2, hsz2, _, hcap⟩ := PushBack_obj w hwf x
    have hlen : (xs ++ [x]).length = xs.length + 1 := by simp
    refine ⟨w2, by rw [pushAll_snoc, hw]; exact h2, hwf2, by rw [hsz2, hsz, hlen],
      fun h => by omega, fun _ => ?_⟩
    rw [hcap, hlen]
    rcases Nat.eq_zero_or_pos xs.length with h0 | hp
    · have hc := hzero h0
      rw [hsz, h0, hc]
      exact ⟨0, by simp, by simp, by simp⟩
    · obtain ⟨e, he, hle, hlt⟩ := hpow hp
      rw [hsz, he]
      have hpos : 0 < 2 ^ e := Nat.two_pow_pos e
      by_cases hfull : xs.length = 2 ^ e
      · rw [if_pos hfull, if_neg (by omega)]
        exact ⟨e + 1, by rw [pow_succ], by rw [pow_succ]; omega, by rw [pow_succ]; omega⟩
      · rw [if_neg hfull]
        exact ⟨e, rfl, by omega, by omega⟩

/-! ### The order of the specification and the order computed by the code -/

theorem LexLess_cons_cons [LT α] (a b : α) (s t : List α) :
    LexLess (a :: s) (b :: t) ↔ (a ≠ b ∧ a < b) ∨ (a = b ∧ LexLess s t) := by
  constructor
  · rintro (⟨hlen, hpre⟩ | ⟨i, x, y, hpre, hx, hy, hne, hlt⟩)
    · have h0 := hpre 0 (by simp)
      simp only [List.getElem?_cons_zero, Option.some.injEq] at h0
      refine Or.inr ⟨h0, Or.inl ⟨by simpa using hlen, fun i hi => ?_⟩⟩
      have := hpre (i + 1) (by simp; omega)
      simpa using this
    · cases i with
      | zero =>
        simp only [List.getElem?_cons_zero, Option.some.injEq] at hx hy
        subst hx hy
        exact Or.inl ⟨hne, hlt⟩
      | succ i =>
        have h0 := hpre 0 (by omega)
        simp only [List.getElem?_cons_zero, Option.some.injEq] at h0
        refine Or.inr ⟨h0, Or.inr ⟨i, x, y, fun j hj => ?_, by simpa using hx,
          by simpa using hy, hne, hlt⟩⟩
        have := hpre (j + 1) (by omega)
        simpa using this
  · rintro (⟨hne, hlt⟩ | ⟨hab, hpre⟩)
    · exact Or.inr ⟨0, a, b, fun j hj => absurd hj (by omega), List.getElem?_cons_zero,
        List.getElem?_cons_zero, hne, hlt⟩
    · subst hab
      rcases hpre with ⟨hlen, hpre⟩ | ⟨i, x, y, hpre, hx, hy, hne, hlt⟩
      · refine Or.inl ⟨by simpa using hlen, fun i hi => ?_⟩
        cases i with
        | zero => simp only [List.getElem?_cons_zero]
        | succ i =>
          simp only [List.getElem?_cons_succ]
          exact hpre i (by simp at hi; omega)
      · refine Or.inr ⟨i + 1, x, y, fun j hj => ?_, by simpa using hx, by simpa using hy,
          hne, hlt⟩
        cases j with
        | zero => simp only [List.getElem?_cons_zero]
        | succ j =>
          simp only [List.getElem?_cons_succ]
          exact hpre j (by omega)

/-- Over a linear order the order computed by `std::lexicographical_compare` is the
lexicographic order as the specification words it. -/
theorem list_lt_iff_LexLess [LinearOrder α] (s t : List α) : List.lt s t ↔ LexLess s t := by
  induction s generalizing t with
  | nil =>
    cases t with
    | nil =>
      constructor
      · intro h; cases h
      · rintro (⟨h, _⟩ | ⟨i, x, y, _, hx, _⟩)
        · simp at h
        · simp at hx
    | cons b t =>
      constructor
      · intro _
        exact Or.inl ⟨by simp, fun i hi => absurd hi (by simp)⟩
      · intro _
        exact List.lt.nil _ _
  | cons a s ih =>
    cases t with
    | nil =>
      constructor
      · intro h; cases h
      · rintro (⟨h, _⟩ | ⟨i, x, y, _, _, hy, _⟩)
        · simp at h
        · simp at hy
    | cons b t =>
      rw [list_lt_cons_cons_iff, LexLess_cons_cons, ih t]
      constructor
      · rintro (h | ⟨h1, h2, h3⟩)
        · exact Or.inl ⟨ne_of_lt h, h⟩
        · exact Or.inr ⟨le_antisymm (not_lt.1 h2) (not_lt.1 h1), h3⟩
      · rintro (⟨_, h⟩ | ⟨h1, h2⟩)
        · exact Or.inl h
        · subst h1
          exact Or.inr ⟨lt_irrefl a, lt_irrefl a, h2⟩

/-- What `operator<` computes on well-formed arrays: the order `List.lt` of the live
sequences. -/
theorem opLt_iff_lt [Inhabited α] [LT α] [DecidableRel (α := α) (· < ·)]
    (a b : SimpleVector α) (ha : a.WF) (hb : b.WF) :
    opLt a b = true ↔ List.lt a.toList b.toList := by
  unfold opLt stdLexicographicalCompare
  have hla := toList_length a ha
  have hlb := toList_length b hb
  have h := stdLexicographicalCompareLoop_iff a.items_.Get b.items_.Get a.toList b.toList 0 0
    (by
      intro i hi
      rw [toList_getElem?, if_pos (by omega), Nat.zero_add]
      rfl)
    (by
      intro i hi
      rw [toList_getElem?, if_pos (by omega), Nat.zero_add]
      rfl)
  rw [hla, hlb] at h
  simpa using h

/-! ### The constructors -/

/-- Everything the constructor `SimpleVector(size_t size)` builds. -/
theorem ofSize_result [Inhabited α] (n : Nat) :
    (ofSize n : SimpleVector α).size_ = n ∧ (ofSize n : SimpleVector α).capacity_ = n ∧
      (ofSize n : SimpleVector α).items_.raw_ptr_.length = n ∧
      (∀ j, j < n → (ofSize n : SimpleVector α).items_.raw_ptr_[j]? = some default) := by
  unfold ofSize
  refine ⟨rfl, rfl, ?_, ?_⟩
  · simp only [ArrayPtr.Get, ArrayPtr.ofSize_raw, stdGenerate, stdGenerateLoop_length,
      List.length_replicate]
  · intro j hj
    simp only [ArrayPtr.Get, ArrayPtr.ofSize_raw, stdGenerate, Nat.sub_zero]
    exact stdGenerateLoop_inside _ _ _ _ (by simp) (by omega) (by omega)

/-- Everything the constructor `SimpleVector(size_t size, const Type& value)` builds. -/
theorem ofSizeValue_result [Inhabited α] (n : Nat) (x : α) :
    (ofSizeValue n x).size_ = n ∧ (ofSizeValue n x).capacity_ = n ∧
      (ofSizeValue n x).items_.raw_ptr_.length = n ∧
      (∀ j, j < n → (ofSizeValue n x).items_.raw_ptr_[j]? = some x) := by
  unfold ofSizeValue
  refine ⟨rfl, rfl, ?_, ?_⟩
  · simp only [ArrayPtr.Get, ArrayPtr.ofSize_raw, stdFill, stdFillLoop_length,
      List.length_replicate]
  · intro j hj
    simp only [ArrayPtr.Get, ArrayPtr.ofSize_raw, stdFill, Nat.sub_zero]
    exact stdFillLoop_inside _ _ _ _ _ (by simp) (by omega) (by omega)

/-- Everything the constructor `SimpleVector(std::initializer_list<Type>)` builds. -/
theorem ofInitList_result [Inhabited α] (l : List α) :
    (ofInitList l).size_ = l.length ∧ (ofInitList l).capacity_ = l.length ∧
      (ofInitList l).items_.raw_ptr_.length = l.length ∧
      (∀ j, j < l.length → (ofInitList l).items_.raw_ptr_[j]? = l[j]?) := by
  unfold ofInitList
  refine ⟨rfl, rfl, ?_, ?_⟩
  · simp only [ArrayPtr.Get, ArrayPtr.ofSize_raw, stdCopy, stdCopyLoop_length,
      List.length_replicate]
  · intro j hj
    simp only [ArrayPtr.Get, ArrayPtr.ofSize_raw, stdCopy, Nat.sub_zero]
    rw [stdCopyLoop_inside _ _ _ _ _ _ (by omega) (by simp) (by omega) (by omega)]
    congr 1
    omega

theorem ofInitList_WF [Inhabited α] (l : List α) : (ofInitList l).WF := by
  obtain ⟨h1, h2, h3, _⟩ := ofInitList_result l
  exact ⟨by rw [h3, h2], by rw [h1, h2]⟩

/-- The live sequence of an array built from a sequence is that sequence. -/
theorem ofInitList_toList [Inhabited α] (l : List α) : (ofInitList l).toList = l := by
  obtain ⟨h1, _, _, h4⟩ := ofInitList_result l
  apply List.ext_getElem?
  intro j
  rw [toList_getElem?, h1]
  by_cases hj : j < l.length
  · rw [if_pos hj, h4 j hj]
  · rw [if_neg hj, List.getElem?_eq_none (by omega)]

/-- Everything the copy constructor builds from a well-formed array. -/
theorem copy_result [Inhabited α] (a : SimpleVector α) (ha : a.WF) :
    (copy a).size_ = a.size_ ∧ (copy a).capacity_ = a.size_ ∧
      (copy a).items_.raw_ptr_.length = a.size_ ∧
      (∀ j, j < a.size_ → (copy a).items_.raw_ptr_[j]? = a.items_.raw_ptr_[j]?) := by
  obtain ⟨hlen, hle⟩ := ha
  unfold copy
  refine ⟨rfl, rfl, ?_, ?_⟩
  · simp only [ArrayPtr.Get, ArrayPtr.ofSize_raw, stdCopy, stdCopyLoop_length,
      List.length_replicate]
  · intro j hj
    simp only [ArrayPtr.Get, ArrayPtr.ofSize_raw, stdCopy, Nat.sub_zero]
    rw [stdCopyLoop_inside _ _ _ _ _ _ (by omega) (by simp) (by omega) (by omega)]
    congr 1
    omega

theorem copy_WF [Inhabited α] (a : SimpleVector α) (ha : a.WF) : (copy a).WF := by
  obtain ⟨h1, h2, h3, _⟩ := copy_result a ha
  exact ⟨by rw [h3, h2], by rw [h1, h2]⟩

theorem copy_toList [Inhabited α] (a : SimpleVector α) (ha : a.WF) :
    (copy a).toList = a.toList := by
  obtain ⟨h1, _, _, h4⟩ := copy_result a ha
  exact toList_congr a (copy a) h1 h4

/-- With a reflexive element equality, `operator==` answers true on well-formed arrays
with the same live sequence. -/
theorem opEq_of_toList_eq [Inhabited α] [BEq α] (hrefl : ∀ x : α, (x == x) = true)
    (a b : SimpleVector α) (ha : a.WF) (hb : b.WF) (h : a.toList = b.toList) :
    opEq a b = true := by
  rw [opEq_iff]
  have hsz : a.size_ = b.size_ := by
    rw [← toList_length a ha, ← toList_length b hb, h]
  refine ⟨hsz, fun i hi => ?_⟩
  have e : deref a.items_.raw_ptr_ i = deref b.items_.raw_ptr_ i := by
    apply deref_eq_of_getElem?
    have h1 := toList_getElem? a i
    have h2 := toList_getElem? b i
    rw [if_pos hi] at h1
    rw [if_pos (by omega)] at h2
    rw [← h1, ← h2, h]
  rw [e]
  exact hrefl _

/-- Reading slot `i` through `operator[]` on both sides of `operator==`. -/
theorem opEq_iff_index [Inhabited α] [BEq α] (a b : SimpleVector α) :
    opEq a b = true ↔ a.GetSize = b.GetSize ∧
      ∀ i, i < a.GetSize → ∃ x y, a.index i = some x ∧ b.index i = some y ∧
        (x == y) = true := by
  rw [opEq_iff]
  unfold GetSize index ArrayPtr.get deref
  constructor
  · rintro ⟨hsz, h⟩
    refine ⟨hsz, fun i hi => ⟨_, _, if_pos hi, if_pos (by omega), h i hi⟩⟩
  · rintro ⟨hsz, h⟩
    refine ⟨hsz, fun i hi => ?_⟩
    obtain ⟨x, y, hx, hy, hxy⟩ := h i hi
    rw [if_pos hi] at hx
    rw [if_pos (by omega)] at hy
    simp only [Option.some.injEq] at hx hy
    rw [hx, hy]
    exact hxy

/-- After `Resize(n)` with `size < n <= capacity` the newly exposed elements are `Type()`,
whatever the slots held before. -/
theorem Resize_exposes_default [Element α] (v : SimpleVector α) (hwf : v.WF) (n : Nat)
    (j : Nat) (h1 : v.size_ ≤ j) (h2 : j < n) : (v.Resize n).index j = some default := by
  obtain ⟨hsz, _, _, hnew, _⟩ := Resize_result v hwf n
  exact index_of_getElem? _ j default (by rw [hsz]; exact h2) (hnew j h1 h2)

/-- A successful `PopBack` only lowers the size by one. -/
theorem PopBack_result (v w : SimpleVector α) (h : v.PopBack = some w) :
    0 < v.size_ ∧ w = { v with size_ := v.size_ - 1 } := by
  unfold PopBack at h
  split at h
  · next hpos =>
    simp only [Option.some.injEq] at h
    exact ⟨hpos, h.symm⟩
  · cases h

/-- A successful `Erase` was called at an index below the size. -/
theorem Erase_some_index [Element α] (v w : SimpleVector α) (pos it : Int)
    (h : v.Erase pos = some (w, it)) : ∃ k : Nat, k < v.size_ ∧ pos = (k : Int) := by
  unfold Erase at h
  simp only [SimpleVector.begin, end_] at h
  split at h
  · next hpos =>
    exact ⟨pos.toNat, by omega, by omega⟩
  · cases h

/-- A successful `Insert` was called at an index not above the size. -/
theorem Insert_some_index [Element α] (v w : SimpleVector α) (pos it : Int) (x : Ref α)
    (h : v.Insert pos x = some (w, it)) : ∃ k : Nat, k ≤ v.size_ ∧ pos = (k : Int) := by
  unfold Insert at h
  simp only [SimpleVector.begin, end_] at h
  split at h
  · next hpos =>
    exact ⟨pos.toNat, by omega, by omega⟩
  · cases h

/-- Size and capacity after a `PushBack` that returns, whatever its argument refers to. -/
theorem PushBack_some_sizes [Element α] (v w : SimpleVector α) (item : Ref α)
    (h : v.PushBack item = some w) :
    w.size_ = v.size_ + 1 ∧
      w.capacity_ = (if v.size_ = v.capacity_ then (if v.capacity_ = 0 then 1
        else v.capacity_ * 2) else v.capacity_) := by
  have hg := grow_gt v.capacity_
  unfold PushBack at h
  simp only at h
  split at h
  · cases h
  · simp only [Option.some.injEq] at h
    subst h
    by_cases hfull : v.size_ = v.capacity_
    · simp only [if_pos hfull]
      unfold Reserve
      rw [if_pos hg]
      exact ⟨by simp only [hfull], rfl⟩
    · simp only [if_neg hfull]
      exact ⟨trivial, trivial⟩

/-- Size and capacity after a `PushBack(Type&&)` that returns. -/
theorem PushBackMove_some_sizes [Element α] (v w : SimpleVector α) (item : Ref α) (r : α)
    (h : v.PushBackMove item = some (w, r)) :
    w.size_ = v.size_ + 1 ∧
      w.capacity_ = (if v.size_ = v.capacity_ then (if v.capacity_ = 0 then 1
        else v.capacity_ * 2) else v.capacity_) := by
  have hg := grow_gt v.capacity_
  unfold PushBackMove at h
  simp only at h
  split at h
  · cases h
  · simp only [Option.some.injEq, Prod.mk.injEq] at h
    obtain ⟨h, _⟩ := h
    subst h
    by_cases hfull : v.size_ = v.capacity_
    · simp only [if_pos hfull]
      unfold Reserve
      rw [if_pos hg]
      exact ⟨by simp only [hfull], rfl⟩
    · simp only [if_neg hfull]
      exact ⟨trivial, trivial⟩

/-- `PushBack` of an object outside the array always returns. -/
theorem PushBack_obj_isSome [Element α] (v : SimpleVector α) (x : α) :
    ∃ w r, v.PushBack (Ref.obj x) = some w ∧ v.PushBackMove (Ref.obj x) = some (w, r) := by
  unfold PushBack PushBackMove
  simp only [Ref.read, Ref.leave]
  exact ⟨_, _, rfl, rfl⟩

/-! ### `Insert` and `PushBack` of an object that is not an element of the array -/

/-- For every well-formed array with live sequence `s` of size `n`, every `k <= n` and
every object `x` outside the array, `Insert(begin() + k, x)` (lvalue and rvalue overload
alike) passes its assertion, leaves the live sequence `s[0..k) ++ [x] ++ s[k..n)`, sets the
size to `n + 1` and returns `begin() + k`, where `x` now is, in the reallocating branch and
in the in-place branch. -/
theorem Insert_obj_correct [Element α] (v : SimpleVector α) (hwf : v.WF) (k : Nat)
    (hk : k ≤ v.size_) (x : α) :
    ∃ w r, v.Insert (v.begin + (k : Int)) (Ref.obj x) = some (w, w.begin + (k : Int)) ∧
      v.InsertMove (v.begin + (k : Int)) (Ref.obj x) = some (w, w.begin + (k : Int), r) ∧
      w.toList = v.toList.take k ++ [x] ++ v.toList.drop k ∧
      w.GetSize = v.GetSize + 1 ∧
      w.index k = some x := by
  obtain ⟨w, y, h1, hy, hw, hsz, _, _⟩ := Insert_result v hwf k hk (Ref.obj x)
  have hyx := hy x rfl
  subst hyx
  obtain ⟨r, h2⟩ := InsertMove_obj_of_Insert v w _ _ y h1
  refine ⟨w, r, ?_, ?_, Insert_toList v w hwf k hk y hsz hw, hsz, ?_⟩
  · simpa [SimpleVector.begin] using h1
  · simpa [SimpleVector.begin] using h2
  · apply index_of_getElem? w k y (by omega)
    rw [hw k (by omega), if_neg (by omega), if_pos rfl]

/-- For every well-formed array with live sequence `s` of size `n` and every object `x`
outside the array, `PushBack(x)` (lvalue and rvalue overload alike) leaves the live
sequence `s ++ [x]` and the size `n + 1`, with or without reallocation. -/
theorem PushBack_obj_correct [Element α] (v : SimpleVector α) (hwf : v.WF) (x : α) :
    ∃ w r, v.PushBack (Ref.obj x) = some w ∧ v.PushBackMove (Ref.obj x) = some (w, r) ∧
      w.toList = v.toList ++ [x] ∧
      w.GetSize = v.GetSize + 1 ∧
      (∀ i, i < v.size_ → w.index i = v.index i) ∧
      w.index v.size_ = some x := by
  obtain ⟨w, r, h1, h2, hsz, _, hpre, hlast, hlen⟩ := PushBack_result v hwf x
  obtain ⟨w2, _, h3, _, hl, hwf2, _⟩ := PushBack_obj v hwf x
  have hw : w2 = w := by rw [h1] at h3; injection h3 with h3; exact h3.symm
  subst hw
  refine ⟨w2, r, h1, h2, hl, hsz, ?_, ?_⟩
  · intro i hi
    rw [index_eq_toList _ hwf2 i (by rw [hsz]; omega),
      index_eq_toList v hwf i hi, toList_getElem?, toList_getElem?, hsz, if_pos (by omega),
      if_pos hi, hpre i hi]
  · exact index_of_getElem? _ _ _ (by rw [hsz]; omega) hlast

end SimpleVector

/-! ## Facts about the free store -/

namespace Heap

variable {α : Type}

theorem Frame.refl (q : Nat) (h : Heap α) : Frame q h h := ⟨rfl, Nat.le_refl _⟩

theorem Frame.trans {q : Nat} {h1 h2 h3 : Heap α} (a : Frame q h1 h2) (b : Frame q h2 h3) :
    Frame q h1 h3 := ⟨b.1.trans a.1, Nat.le_trans a.2 b.2⟩

/-- Overwriting a block leaves the other blocks alone. -/
theorem put_frame (h : Heap α) (p : Option Nat) (b : List α) (q : Nat) (hp : p ≠ some q) :
    Frame q h (h.put p b) := by
  unfold put
  cases p with
  | none => exact Frame.refl q h
  | some a =>
    have hne : a ≠ q := fun e => hp (by rw [e])
    simp only
    split
    · exact ⟨by simp only [List.getElem?_set_ne hne], by simp⟩
    · exact Frame.refl q h

/-- Deleting a block leaves the other blocks alone. -/
theorem deleteArray_frame (h : Heap α) (p : Option Nat) (q : Nat) (hp : p ≠ some q) :
    Frame q h (h.deleteArray p) := by
  unfold deleteArray
  cases p with
  | none => exact Frame.refl q h
  | some a =>
    have hne : a ≠ q := fun e => hp (by rw [e])
    exact ⟨by simp only [List.getElem?_set_ne hne], by simp⟩

/-- A new array leaves the existing blocks alone and has an address none of them has. -/
theorem arrayPtr_frame [Inhabited α] (h : Heap α) (n q : Nat) (hq : q < h.blocks.length) :
    Frame q h (h.arrayPtr n).1 ∧ (h.arrayPtr n).2 ≠ some q := by
  unfold arrayPtr newArray
  split
  · exact ⟨Frame.refl q h, by simp⟩
  · refine ⟨⟨?_, by simp⟩, ?_⟩
    · simp only [List.getElem?_append_left hq]
    · simp only [ne_eq, Option.some.injEq]
      omega

/-- Moving from an object leaves the blocks alone that the object is not in. -/
theorem leave_frame (h : Heap α) (r : HeapRef α) (y : α) (q : Nat)
    (hr : ∀ j, r ≠ HeapRef.cell q j) : Frame q h (h.leave r y) := by
  unfold leave
  cases r with
  | obj x => exact Frame.refl q h
  | cell a j =>
    apply put_frame
    intro e
    simp only [Option.some.injEq] at e
    exact hr j (by rw [e])

/-- A block that was overwritten holds what was written. -/
theorem get_put_self (h : Heap α) (a : Nat) (b : List α)
    (hl : (h.live (some a)).isSome = true) : (h.put (some a) b).get (some a) = b := by
  have hlt : a < h.blocks.length := by
    by_contra hge
    simp [live, List.getElem?_eq_none (Nat.le_of_not_lt hge)] at hl
  unfold put
  simp only [hl, if_true]
  simp [get, live, List.getElem?_set_self hlt]

/-- The block a pointer refers to depends on that block alone. -/
theorem get_eq_of_blocks (h1 h2 : Heap α) (q : Nat) (e : h2.blocks[q]? = h1.blocks[q]?) :
    h2.get (some q) = h1.get (some q) := by
  unfold get live
  simp only [e]

theorem Holds.get {h : Heap α} {p : Option Nat} {b : List α} (hb : h.Holds p b) :
    h.get p = b := by
  cases p with
  | none =>
    simp only [Holds] at hb
    subst hb
    rfl
  | some a =>
    simp only [Holds] at hb
    simp [Heap.get, Heap.live, hb]

theorem Holds.address_lt {h : Heap α} {a : Nat} {b : List α} (hb : h.Holds (some a) b) :
    a < h.blocks.length := by
  simp only [Holds] at hb
  by_contra hge
  rw [List.getElem?_eq_none (by omega)] at hb
  cases hb

/-- A block that is overwritten by one of the same length is held by the same pointer. -/
theorem Holds.put {h : Heap α} {p : Option Nat} {b : List α} (hb : h.Holds p b)
    (b2 : List α) (hl : b2.length = b.length) : (h.put p b2).Holds p b2 := by
  cases p with
  | none =>
    simp only [Holds] at hb ⊢
    subst hb
    exact List.length_eq_zero.1 hl
  | some a =>
    have hlt := hb.address_lt
    simp only [Holds] at hb ⊢
    simp [Heap.put, Heap.live, hb, List.getElem?_set_self hlt]

theorem Holds.frame {h h2 : Heap α} {q : Option Nat} {b : List α} (hb : h.Holds q b)
    (hf : ∀ a, q = some a → Frame a h h2) : h2.Holds q b := by
  cases q with
  | none => exact hb
  | some a =>
    simp only [Holds] at hb ⊢
    rw [(hf a rfl).1, hb]

theorem Holds.put_ne {h : Heap α} {q : Option Nat} {b : List α} (hb : h.Holds q b)
    (p : Option Nat) (b2 : List α) (hne : p ≠ q) : (h.put p b2).Holds q b :=
  hb.frame (fun a ha => put_frame h p b2 a (by rw [← ha]; exact hne))

theorem Holds.deleteArray_ne {h : Heap α} {q : Option Nat} {b : List α} (hb : h.Holds q b)
    (p : Option Nat) (hne : p ≠ q) : (h.deleteArray p).Holds q b :=
  hb.frame (fun a ha => deleteArray_frame h p a (by rw [← ha]; exact hne))

theorem Holds.arrayPtr_old [Inhabited α] {h : Heap α} {q : Option Nat} {b : List α}
    (hb : h.Holds q b) (n : Nat) : (h.arrayPtr n).1.Holds q b :=
  hb.frame (fun a ha => (arrayPtr_frame h n a (by subst ha; exact hb.address_lt)).1)

theorem Holds.arrayPtr_ne [Inhabited α] {h : Heap α} {q : Option Nat} {b : List α}
    (hb : h.Holds q b) (n : Nat) (hn : n ≠ 0) : (h.arrayPtr n).2 ≠ q := by
  cases q with
  | none => simp [arrayPtr, hn]
  | some a => exact (arrayPtr_frame h n a hb.address_lt).2

/-- The pointer of a new `ArrayPtr(size)` holds the value-initialised block. -/
theorem arrayPtr_holds [Inhabited α] (h : Heap α) (n : Nat) :
    (h.arrayPtr n).1.Holds (h.arrayPtr n).2 (ArrayPtr.ofSize n : ArrayPtr α).raw_ptr_ := by
  by_cases hn : n = 0
  · subst hn
    simp [arrayPtr, Holds, ArrayPtr.ofSize]
  · simp [arrayPtr, hn, newArray, Holds, ArrayPtr.ofSize]

end Heap

namespace HeapVector

variable {α : Type}

theorem Reserve_frame [Element α] (h : Heap α) (v : HeapVector) (c q : Nat)
    (hq : q < h.blocks.length) (hv : v.items_ ≠ some q) :
    Heap.Frame q h (Reserve h v c).1 ∧ (Reserve h v c).2.items_ ≠ some q := by
  unfold Reserve
  split
  · obtain ⟨f1, hne⟩ := Heap.arrayPtr_frame h c q hq
    exact ⟨((f1.trans (Heap.put_frame _ _ _ q hv)).trans (Heap.put_frame _ _ _ q hne)).trans
      (Heap.deleteArray_frame _ _ q hv), hne⟩
  · exact ⟨Heap.Frame.refl q h, hv⟩

theorem PushBack_frame [Element α] (h h2 : Heap α) (v v2 : HeapVector) (item : HeapRef α)
    (q : Nat) (hq : q < h.blocks.length) (hv : v.items_ ≠ some q)
    (hop : PushBack h v item = some (h2, v2)) :
    Heap.Frame q h h2 ∧ v2.items_ ≠ some q := by
  unfold PushBack at hop
  simp only at hop
  have hr : Heap.Frame q h (if v.size_ = v.capacity_ then
      Reserve h v (if v.capacity_ = 0 then 1 else v.capacity_ * 2) else (h, v)).1 ∧
      (if v.size_ = v.capacity_ then
      Reserve h v (if v.capacity_ = 0 then 1 else v.capacity_ * 2) else (h, v)).2.items_
        ≠ some q := by
    split
    · exact Reserve_frame h v _ q hq hv
    · exact ⟨Heap.Frame.refl q h, hv⟩
  split at hop
  · cases hop
  · simp only [Option.some.injEq, Prod.mk.injEq] at hop
    obtain ⟨e1, e2⟩ := hop
    subst e1 e2
    exact ⟨hr.1.trans (Heap.put_frame _ _ _ q hr.2), hr.2⟩

theorem PushBackMove_frame [Element α] (h h2 : Heap α) (v v2 : HeapVector)
    (item : HeapRef α) (q : Nat) (hq : q < h.blocks.length) (hv : v.items_ ≠ some q)
    (hitem : ∀ j, item ≠ HeapRef.cell q j)
    (hop : PushBackMove h v item = some (h2, v2)) :
    Heap.Frame q h h2 ∧ v2.items_ ≠ some q := by
  unfold PushBackMove at hop
  simp only at hop
  have hr : Heap.Frame q h (if v.size_ = v.capacity_ then
      Reserve h v (if v.capacity_ = 0 then 1 else v.capacity_ * 2) else (h, v)).1 ∧
      (if v.size_ = v.capacity_ then
      Reserve h v (if v.capacity_ = 0 then 1 else v.capacity_ * 2) else (h, v)).2.items_
        ≠ some q := by
    split
    · exact Reserve_frame h v _ q hq hv
    · exact ⟨Heap.Frame.refl q h, hv⟩
  split at hop
  · cases hop
  · simp only [Option.some.injEq, Prod.mk.injEq] at hop
    obtain ⟨e1, e2⟩ := hop
    subst e1 e2
    exact ⟨(hr.1.trans (Heap.leave_frame _ _ _ q hitem)).trans (Heap.put_frame _ _ _ q hr.2),
      hr.2⟩

theorem Erase_frame [Element α] (h h2 : Heap α) (v v2 : HeapVector) (pos it : Int)
    (q : Nat) (hv : v.items_ ≠ some q)
    (hop : Erase h v pos = some (h2, v2, it)) :
    Heap.Frame q h h2 ∧ v2.items_ ≠ some q := by
  unfold Erase at hop
  split at hop
  · simp only [Option.some.injEq, Prod.mk.injEq] at hop
    obtain ⟨e1, e2, _⟩ := hop
    subst e1 e2
    exact ⟨Heap.put_frame _ _ _ q hv, hv⟩
  · cases hop

theorem assign_frame (h h2 : Heap α) (v : HeapVector) (i : Nat) (x : HeapRef α)
    (q : Nat) (hv : v.items_ ≠ some q) (hop : assign h v i x = some h2) :
    Heap.Frame q h h2 := by
  unfold assign at hop
  split at hop
  · split at hop
    · cases hop
    · simp only [Option.some.injEq] at hop
      subst hop
      exact Heap.put_frame _ _ _ q hv
  · cases hop

theorem Insert_frame [Element α] (h h2 : Heap α) (v v2 : HeapVector) (pos it : Int)
    (value : HeapRef α) (q : Nat) (hq : q < h.blocks.length) (hv : v.items_ ≠ some q)
    (hop : Insert h v pos value = some (h2, v2, it)) :
    Heap.Frame q h h2 ∧ v2.items_ ≠ some q := by
  unfold Insert at hop
  split at hop
  · split at hop
    · obtain ⟨f1, hne⟩ :=
        Heap.arrayPtr_frame h (if v.capacity_ = 0 then 1 else v.capacity_ * 2) q hq
      simp only at hop
      split at hop
      · cases hop
      · simp only [Option.some.injEq, Prod.mk.injEq] at hop
        obtain ⟨e1, e2, _⟩ := hop
        subst e1 e2
        exact ⟨((((((f1.trans (Heap.put_frame _ _ _ q hv)).trans
          (Heap.put_frame _ _ _ q hne)).trans (Heap.put_frame _ _ _ q hne)).trans
          (Heap.put_frame _ _ _ q hv)).trans (Heap.put_frame _ _ _ q hne)).trans
          (Heap.deleteArray_frame _ _ q hv)), hne⟩
    · simp only at hop
      split at hop
      · cases hop
      · simp only [Option.some.injEq, Prod.mk.injEq] at hop
        obtain ⟨e1, e2, _⟩ := hop
        subst e1 e2
        exact ⟨(Heap.put_frame _ _ _ q hv).trans (Heap.put_frame _ _ _ q hv), hv⟩
  · cases hop

theorem InsertMove_frame [Element α] (h h2 : Heap α) (v v2 : HeapVector) (pos it : Int)
    (value : HeapRef α) (q : Nat) (hq : q < h.blocks.length) (hv : v.items_ ≠ some q)
    (hvalue : ∀ j, value ≠ HeapRef.cell q j)
    (hop : InsertMove h v pos value = some (h2, v2, it)) :
    Heap.Frame q h h2 ∧ v2.items_ ≠ some q := by
  unfold InsertMove at hop
  split at hop
  · split at hop
    · obtain ⟨f1, hne⟩ :=
        Heap.arrayPtr_frame h (if v.capacity_ = 0 then 1 else v.capacity_ * 2) q hq
      simp only at hop
      split at hop
      · cases hop
      · simp only [Option.some.injEq, Prod.mk.injEq] at hop
        obtain ⟨e1, e2, _⟩ := hop
        subst e1 e2
        exact ⟨(((((((f1.trans (Heap.put_frame _ _ _ q hv)).trans
          (Heap.put_frame _ _ _ q hne)).trans (Heap.leave_frame _ _ _ q hvalue)).trans
          (Heap.put_frame _ _ _ q hne)).trans
          (Heap.put_frame _ _ _ q hv)).trans (Heap.put_frame _ _ _ q hne)).trans
          (Heap.deleteArray_frame _ _ q hv)), hne⟩
    · simp only at hop
      split at hop
      · cases hop
      · simp only [Option.some.injEq, Prod.mk.injEq] at hop
        obtain ⟨e1, e2, _⟩ := hop
        subst e1 e2
        exact ⟨((Heap.put_frame _ _ _ q hv).trans (Heap.leave_frame _ _ _ q hvalue)).trans
          (Heap.put_frame _ _ _ q hv), hv⟩
  · cases hop

/-- One mutation of an array leaves alone every block the array does not own, provided an
rvalue argument is not an element of that block. -/
theorem mutate_frame [Element α] (h h2 : Heap α) (v v2 : HeapVector) (m : Mutation α)
    (q : Nat) (hq : q < h.blocks.length) (hv : v.items_ ≠ some q)
    (hm : m.spares (some q)) (hop : mutate h v m = some (h2, v2)) :
    Heap.Frame q h h2 ∧ v2.items_ ≠ some q := by
  cases m with
  | pushBack item => exact PushBack_frame h h2 v v2 item q hq hv hop
  | pushBackMove item =>
    refine PushBackMove_frame h h2 v v2 item q hq hv ?_ hop
    intro j e
    subst e
    exact hm rfl
  | insert pos value =>
    simp only [mutate] at hop
    cases hi : Insert h v pos value with
    | none => rw [hi] at hop; cases hop
    | some r =>
      obtain ⟨r1, r2, r3⟩ := r
      rw [hi] at hop
      simp only [Option.map_some', Option.some.injEq, Prod.mk.injEq] at hop
      obtain ⟨e1, e2⟩ := hop
      subst e1 e2
      exact Insert_frame h _ v _ pos r3 value q hq hv hi
  | insertMove pos value =>
    simp only [mutate] at hop
    cases hi : InsertMove h v pos value with
    | none => rw [hi] at hop; cases hop
    | some r =>
      obtain ⟨r1, r2, r3⟩ := r
      rw [hi] at hop
      simp only [Option.map_some', Option.some.injEq, Prod.mk.injEq] at hop
      obtain ⟨e1, e2⟩ := hop
      subst e1 e2
      refine InsertMove_frame h _ v _ pos r3 value q hq hv ?_ hi
      intro j e
      subst e
      exact hm rfl
  | erase pos =>
    simp only [mutate] at hop
    cases hi : Erase h v pos with
    | none => rw [hi] at hop; cases hop
    | some r =>
      obtain ⟨r1, r2, r3⟩ := r
      rw [hi] at hop
      simp only [Option.map_some', Option.some.injEq, Prod.mk.injEq] at hop
      obtain ⟨e1, e2⟩ := hop
      subst e1 e2
      exact Erase_frame h _ v _ pos r3 q hv hi
  | assign index x =>
    simp only [mutate] at hop
    cases hi : assign h v index x with
    | none => rw [hi] at hop; cases hop
    | some r =>
      rw [hi] at hop
      simp only [Option.map_some', Option.some.injEq, Prod.mk.injEq] at hop
      obtain ⟨e1, e2⟩ := hop
      subst e1 e2
      exact ⟨assign_frame h _ v index x q hv hi, hv⟩

/-- A sequence of mutations of an array leaves alone every block the array does not own. -/
theorem mutateAll_frame [Element α] (ms : List (Mutation α)) (h h2 : Heap α)
    (v v2 : HeapVector) (q : Nat) (hq : q < h.blocks.length) (hv : v.items_ ≠ some q)
    (hm : ∀ m, m ∈ ms → m.spares (some q)) (hop : mutateAll h v ms = some (h2, v2)) :
    Heap.Frame q h h2 ∧ v2.items_ ≠ some q := by
  induction ms generalizing h v with
  | nil =>
    simp only [mutateAll, Option.some.injEq, Prod.mk.injEq] at hop
    obtain ⟨e1, e2⟩ := hop
    subst e1 e2
    exact ⟨Heap.Frame.refl q h, hv⟩
  | cons m ms ih =>
    simp only [mutateAll] at hop
    cases hi : mutate h v m with
    | none => rw [hi] at hop; cases hop
    | some r =>
      obtain ⟨r1, r2⟩ := r
      rw [hi] at hop
      simp only at hop
      obtain ⟨f1, hv1⟩ := mutate_frame h r1 v r2 m q hq hv (hm m (by simp)) hi
      obtain ⟨f2, hv2⟩ := ih r1 r2 (Nat.lt_of_lt_of_le hq f1.2) hv1
        (fun m2 hm2 => hm m2 (by simp [hm2])) hop
      exact ⟨f1.trans f2, hv2⟩

/-- A block that stays the same holds the same array. -/
theorem view_eq_of_frame (a : HeapVector) (h h2 : Heap α)
    (hf : ∀ q, a.items_ = some q → Heap.Frame q h h2) : a.view h2 = a.view h := by
  unfold view
  cases ha : a.items_ with
  | none => rfl
  | some q => rw [Heap.get_eq_of_blocks h h2 q (hf q ha).1]

/-- The array a sound array object stands for is well formed. -/
theorem Valid.view_WF (a : HeapVector) (h : Heap α) (hv : a.Valid h) : (a.view h).WF := by
  obtain ⟨hle, hb⟩ := hv
  refine ⟨?_, hle⟩
  rcases hb with ⟨hn, hc⟩ | ⟨q, b, hq, hb, hlen⟩
  · simp only [view, hn, Heap.get, Heap.live, Option.getD_none, List.length_nil, hc]
  · simp [view, hq, Heap.get, Heap.live, hb, hlen]

/-- The address of the block of a sound array object is an address of the free store. -/
theorem Valid.lt_length (a : HeapVector) (h : Heap α) (hv : a.Valid h) (q : Nat)
    (hq : a.items_ = some q) : q < h.blocks.length := by
  obtain ⟨_, hb⟩ := hv
  rcases hb with ⟨hn, _⟩ | ⟨q2, b, hq2, hb, _⟩
  · rw [hn] at hq; cases hq
  · rw [hq2] at hq
    simp only [Option.some.injEq] at hq
    subst hq
    by_contra hge
    rw [List.getElem?_eq_none (by omega)] at hb
    cases hb

/-- The copy constructor leaves every existing block alone and gives the copy a block no
existing array owns. -/
theorem copy_frame [Inhabited α] (h : Heap α) (a : HeapVector) (q : Nat)
    (hq : q < h.blocks.length) :
    Heap.Frame q h (copy h a).1 ∧ (copy h a).2.items_ ≠ some q := by
  unfold copy
  obtain ⟨f1, hne⟩ := Heap.arrayPtr_frame h a.size_ q hq
  exact ⟨f1.trans (Heap.put_frame _ _ _ q hne), hne⟩

/-- The copy constructor in the free store builds the array the copy constructor on
values builds. -/
theorem copy_view [Inhabited α] (h : Heap α) (a : HeapVector) (hv : a.Valid h) :
    (copy h a).2.view (copy h a).1 = SimpleVector.copy (a.view h) := by
  have hget : ∀ n, ((h.arrayPtr n).1).get a.items_ = h.get a.items_ := by
    intro n
    cases ha : a.items_ with
    | none => rfl
    | some q =>
      exact Heap.get_eq_of_blocks h _ q
        (Heap.arrayPtr_frame h n q (Valid.lt_length a h hv q ha)).1.1
  unfold copy SimpleVector.copy view
  simp only [hget, ArrayPtr.Get, ArrayPtr.ofSize_raw]
  by_cases h0 : a.size_ = 0
  · simp only [Heap.arrayPtr, h0, if_pos, Heap.put, Heap.get, Heap.live, Option.getD_none,
      stdCopy, Nat.sub_zero, stdCopyLoop, List.replicate_zero]
  · have hnew : ((h.arrayPtr a.size_).1).get (h.arrayPtr a.size_).2
        = List.replicate a.size_ default := by
      simp [Heap.arrayPtr, h0, Heap.newArray, Heap.get, Heap.live]
    have hlive : (((h.arrayPtr a.size_).1).live (h.arrayPtr a.size_).2).isSome = true := by
      simp [Heap.arrayPtr, h0, Heap.newArray, Heap.live]
    have hp : (h.arrayPtr a.size_).2 = some h.blocks.length := by
      simp [Heap.arrayPtr, h0, Heap.newArray]
    rw [hnew]
    rw [hp] at hlive ⊢
    rw [Heap.get_put_self _ _ _ hlive]

/-- An element write into a copy runs, is the element write on values, and puts the value
into the slot of the copy. -/
theorem assign_copy [Inhabited α] (h : Heap α) (a : HeapVector) (hv : a.Valid h) (i : Nat)
    (x : α) (hi : i < a.size_) :
    ∃ h2, assign (copy h a).1 (copy h a).2 i (HeapRef.obj x) = some h2 ∧
      (SimpleVector.copy (a.view h)).assign i x = some ((copy h a).2.view h2) ∧
      ((copy h a).2.view h2).index i = some x := by
  have hview := copy_view h a hv
  have hwf := SimpleVector.copy_WF (a.view h) (Valid.view_WF a h hv)
  rw [← hview] at hwf
  have hsz : (copy h a).2.size_ = a.size_ := rfl
  have hcap : (copy h a).2.capacity_ = a.size_ := rfl
  have hlen : ((copy h a).1.get (copy h a).2.items_).length = a.size_ := hwf.1
  obtain ⟨q, hq⟩ : ∃ q, (copy h a).2.items_ = some q := by
    cases hp : (copy h a).2.items_ with
    | none =>
      rw [hp] at hlen
      simp only [Heap.get, Heap.live, Option.getD_none, List.length_nil] at hlen
      omega
    | some q => exact ⟨q, rfl⟩
  have hlive : ((copy h a).1.live (some q)).isSome = true := by
    cases hl : (copy h a).1.live (some q) with
    | none =>
      rw [hq] at hlen
      simp only [Heap.get, hl, Option.getD_none, List.length_nil] at hlen
      omega
    | some b => rfl
  have hput := Heap.get_put_self (copy h a).1 q
    (((copy h a).1.get (copy h a).2.items_).set i x) hlive
  refine ⟨(copy h a).1.put (copy h a).2.items_
    (((copy h a).1.get (copy h a).2.items_).set i x), ?_, ?_, ?_⟩
  · unfold assign
    rw [if_pos (by rw [hsz]; exact hi)]
    rfl
  · rw [← hview]
    unfold SimpleVector.assign
    rw [if_pos (show i < ((copy h a).2.view (copy h a).1).size_ from hi)]
    unfold view
    simp only [ArrayPtr.set]
    rw [hq] at hput ⊢
    rw [hput]
  · unfold view SimpleVector.index
    simp only
    rw [if_pos (by rw [hsz]; exact hi)]
    rw [hq] at hput hlen ⊢
    rw [hput]
    simp [ArrayPtr.get, List.getElem?_set_self (show i < _ by rw [hlen]; exact hi)]

theorem Valid.holds {v : HeapVector} {h : Heap α} (hv : v.Valid h) :
    ∃ b, h.Holds v.items_ b ∧ b.length = v.capacity_ := by
  obtain ⟨_, hb⟩ := hv
  rcases hb with ⟨hn, hc⟩ | ⟨q, b, hq, hb, hlen⟩
  · exact ⟨[], by rw [hn]; rfl, by rw [hc]; rfl⟩
  · exact ⟨b, by rw [hq]; exact hb, hlen⟩

theorem valid_of_holds {v : HeapVector} {h : Heap α} {b : List α} (hb : h.Holds v.items_ b)
    (hl : b.length = v.capacity_) (hs : v.size_ ≤ v.capacity_) : v.Valid h := by
  refine ⟨hs, ?_⟩
  cases hp : v.items_ with
  | none =>
    rw [hp] at hb
    simp only [Heap.Holds] at hb
    subst hb
    exact Or.inl ⟨rfl, hl.symm⟩
  | some a =>
    rw [hp] at hb
    exact Or.inr ⟨a, b, rfl, hb, hl⟩

theorem view_of_holds {v : HeapVector} {h : Heap α} {b : List α} (hb : h.Holds v.items_ b) :
    v.view h = SimpleVector.mk (ArrayPtr.mk b) v.size_ v.capacity_ := by
  unfold view
  rw [hb.get]

/-- The copy is a sound array object. -/
theorem copy_valid [Inhabited α] (h : Heap α) (a : HeapVector) :
    (copy h a).2.Valid (copy h a).1 := by
  have hnew := Heap.arrayPtr_holds h a.size_
  refine valid_of_holds (hnew.put _ ?_) ?_ (Nat.le_refl _)
  · simp [stdCopy, stdCopyLoop_length, hnew.get]
  · simp [stdCopy, stdCopyLoop_length, hnew.get]
    rfl

/-- Method `Reserve` in the free store builds the array `Reserve` on values builds. -/
theorem Reserve_holds [Element α] (h : Heap α) (v : HeapVector) (c : Nat) (b : List α)
    (hb : h.Holds v.items_ b) :
    (Reserve h v c).1.Holds (Reserve h v c).2.items_
        ((SimpleVector.mk (ArrayPtr.mk b) v.size_ v.capacity_).Reserve c).items_.raw_ptr_ ∧
      (Reserve h v c).2.size_ = v.size_ ∧
      (Reserve h v c).2.capacity_
        = ((SimpleVector.mk (ArrayPtr.mk b) v.size_ v.capacity_).Reserve c).capacity_ := by
  unfold Reserve SimpleVector.Reserve
  by_cases hc : c > v.capacity_
  · have hc0 : c ≠ 0 := by omega
    have hold := hb.arrayPtr_old c
    have hnew := Heap.arrayPtr_holds h c
    have hne := hb.arrayPtr_ne c hc0
    simp only [if_pos hc, hold.get, hnew.get, ArrayPtr.Get, ArrayPtr.swap]
    refine ⟨?_, trivial, trivial⟩
    refine Heap.Holds.deleteArray_ne ?_ _ (Ne.symm hne)
    refine Heap.Holds.put (hnew.put_ne _ _ (Ne.symm hne)) _ ?_
    simp [stdMove, stdMoveLoop_snd_length]
  · simp only [if_neg hc]
    exact ⟨hb, trivial, trivial⟩

theorem Reserve_size_eq [Element α] (w : SimpleVector α) (c : Nat) :
    (w.Reserve c).size_ = w.size_ := by
  unfold SimpleVector.Reserve
  split <;> rfl

/-- An array whose block was overwritten, seen as a value. -/
theorem view_put {h : Heap α} {v : HeapVector} {b : List α} (hb : h.Holds v.items_ b)
    (b2 : List α) (hl : b2.length = b.length) (sz : Nat) :
    (HeapVector.mk v.items_ sz v.capacity_).view (h.put v.items_ b2)
      = SimpleVector.mk (ArrayPtr.mk b2) sz v.capacity_ :=
  view_of_holds (v := HeapVector.mk v.items_ sz v.capacity_) (hb.put b2 hl)

/-- Method `PushBack` in the free store, called with an object outside the free store,
returns and builds the array `PushBack` on values builds. -/
theorem PushBack_obj_view [Element α] (h : Heap α) (v : HeapVector) (x : α)
    (hv : v.Valid h) :
    ∃ h2 v2, PushBack h v (HeapRef.obj x) = some (h2, v2) ∧
      (v.view h).PushBack (Ref.obj x) = some (v2.view h2) := by
  obtain ⟨b, hb, hlen⟩ := hv.holds
  rw [view_of_holds hb]
  unfold PushBack SimpleVector.PushBack
  simp only [Heap.read, Ref.read]
  by_cases hfull : v.size_ = v.capacity_
  · obtain ⟨h1, h2, h3⟩ :=
      Reserve_holds h v (if v.capacity_ = 0 then 1 else v.capacity_ * 2) b hb
    simp only [if_pos hfull]
    refine ⟨_, _, rfl, ?_⟩
    have hp := view_put h1 (((Reserve h v (if v.capacity_ = 0 then 1
      else v.capacity_ * 2)).1.get (Reserve h v (if v.capacity_ = 0 then 1
      else v.capacity_ * 2)).2.items_).set (Reserve h v (if v.capacity_ = 0 then 1
      else v.capacity_ * 2)).2.size_ x) (by rw [h1.get, List.length_set])
      ((Reserve h v (if v.capacity_ = 0 then 1 else v.capacity_ * 2)).2.size_ + 1)
    rw [hp, h1.get, h2, h3, Reserve_size_eq]
    rfl
  · simp only [if_neg hfull]
    refine ⟨_, _, rfl, ?_⟩
    have hp := view_put hb ((h.get v.items_).set v.size_ x)
      (by rw [hb.get, List.length_set]) (v.size_ + 1)
    rw [hp, hb.get]
    rfl

/-- Method `Erase` in the free store builds the array `Erase` on values builds, and its
assertion fails on the same positions. -/
theorem Erase_view [Element α] (h : Heap α) (v : HeapVector) (pos : Int) (hv : v.Valid h) :
    (v.view h).Erase pos = (Erase h v pos).map (fun r => (r.2.1.view r.1, r.2.2)) := by
  obtain ⟨b, hb, hlen⟩ := hv.holds
  rw [view_of_holds hb]
  unfold Erase SimpleVector.Erase
  simp only [begin, end_, SimpleVector.begin, SimpleVector.end_]
  by_cases hpos : pos ≥ 0 ∧ pos < 0 + (v.size_ : Int)
  · rw [if_pos hpos, if_pos hpos]
    simp only [Option.map, hb.get, ArrayPtr.Get]
    rw [view_put hb _ (by simp [stdMoveSelf, stdMoveSelfLoop_length]) (v.size_ - 1)]
  · rw [if_neg hpos, if_neg hpos]
    rfl

/-- Two distinct blocks that are overwritten by blocks of the same lengths. -/
theorem move_step {g : Heap α} {p n : Option Nat} {bo bn : List α} (ho : g.Holds p bo)
    (hn : g.Holds n bn) (hne : n ≠ p) (ro rn : List α) (lo : ro.length = bo.length)
    (ln : rn.length = bn.length) :
    ((g.put p ro).put n rn).Holds p ro ∧ ((g.put p ro).put n rn).Holds n rn :=
  ⟨(ho.put ro lo).put_ne n rn hne, (hn.put_ne p ro hne.symm).put rn ln⟩

/-- Method `Insert` in the free store, called with an object outside the free store, builds
the array `Insert` on values builds, and its assertion fails on the same positions. -/
theorem Insert_obj_view [Element α] (h : Heap α) (v : HeapVector) (pos : Int) (x : α)
    (hv : v.Valid h) :
    (v.view h).Insert pos (Ref.obj x)
      = (Insert h v pos (HeapRef.obj x)).map (fun r => (r.2.1.view r.1, r.2.2)) := by
  obtain ⟨b, hb, hlen⟩ := hv.holds
  rw [view_of_holds hb]
  unfold Insert SimpleVector.Insert
  simp only [begin, end_, SimpleVector.begin, SimpleVector.end_, Heap.read, Ref.get]
  by_cases hpos : pos ≥ 0 ∧ pos ≤ 0 + (v.size_ : Int)
  · rw [if_pos hpos, if_pos hpos]
    by_cases hfull : v.size_ = v.capacity_
    · rw [if_pos hfull, if_pos hfull]
      have hc0 : (if v.capacity_ = 0 then 1 else v.capacity_ * 2) ≠ 0 := by
        split <;> omega
      have hold := hb.arrayPtr_old (if v.capacity_ = 0 then 1 else v.capacity_ * 2)
      have hnew := Heap.arrayPtr_holds (α := α) h (if v.capacity_ = 0 then 1 else v.capacity_ * 2)
      have hne := hb.arrayPtr_ne (if v.capacity_ = 0 then 1 else v.capacity_ * 2) hc0
      generalize h.arrayPtr (if v.capacity_ = 0 then 1 else v.capacity_ * 2) = a at hold hnew hne ⊢
      obtain ⟨g, n⟩ := a
      simp only at hold hnew hne ⊢
      simp only [hold.get, hnew.get, ArrayPtr.Get, ArrayPtr.set, ArrayPtr.swap]
      generalize (ArrayPtr.ofSize (if v.capacity_ = 0 then 1
        else v.capacity_ * 2) : ArrayPtr α).raw_ptr_ = raw at hnew ⊢
      generalize (pos - 0).toNat = k
      have l1 : (stdMove b raw 0 k 0).1.length = b.length := stdMoveLoop_fst_length _ _ _ _ _
      have l2 : (stdMove b raw 0 k 0).2.length = raw.length := stdMoveLoop_snd_length _ _ _ _ _
      generalize stdMove b raw 0 k 0 = r1 at l1 l2 ⊢
      obtain ⟨k1, k2⟩ := move_step hold hnew hne r1.1 r1.2 l1 l2
      generalize (g.put v.items_ r1.1).put n r1.2 = g1 at k1 k2 ⊢
      simp only [k2.get]
      have k3 := k2.put (r1.2.set k x) (by simp)
      have k4 := k1.put_ne n (r1.2.set k x) hne
      generalize g1.put n (r1.2.set k x) = g2 at k3 k4 ⊢
      simp only [k3.get, k4.get]
      have m1 : (stdMove r1.1 (r1.2.set k x) k v.size_ (k + 1)).1.length = r1.1.length :=
        stdMoveLoop_fst_length _ _ _ _ _
      have m2 : (stdMove r1.1 (r1.2.set k x) k v.size_ (k + 1)).2.length
          = (r1.2.set k x).length := stdMoveLoop_snd_length _ _ _ _ _
      generalize stdMove r1.1 (r1.2.set k x) k v.size_ (k + 1) = r2 at m1 m2 ⊢
      obtain ⟨_, k6⟩ := move_step k4 k3 hne r2.1 r2.2 m1 m2
      have k7 := k6.deleteArray_ne v.items_ hne.symm
      simp only [Option.map]
      rw [view_of_holds (v := HeapVector.mk n (v.size_ + 1)
        (if v.capacity_ = 0 then 1 else v.capacity_ * 2)) k7]
    · rw [if_neg hfull, if_neg hfull]
      simp only [hb.get, ArrayPtr.Get, ArrayPtr.set]
      generalize (pos - 0).toNat = k
      have k1 := hb.put (stdMoveBackward b k v.size_ (v.size_ + 1))
        (stdMoveBackwardLoop_length _ _ _ _)
      generalize h.put v.items_ (stdMoveBackward b k v.size_ (v.size_ + 1)) = g1 at k1 ⊢
      simp only [k1.get, Option.map]
      rw [view_put k1 _ (by simp) (v.size_ + 1)]
  · rw [if_neg hpos, if_neg hpos]
    rfl

/-- What `PushBack` with an outside object does to a sound array in the free store. -/
theorem PushBack_obj_toList [Element α] (h : Heap α) (v : HeapVector) (x : α)
    (hv : v.Valid h) :
    ∃ h2 v2, PushBack h v (HeapRef.obj x) = some (h2, v2) ∧
      (v2.view h2).toList = (v.view h).toList ++ [x] ∧ v2.GetSize = v.GetSize + 1 := by
  obtain ⟨h2, v2, hrun, hval⟩ := PushBack_obj_view h v x hv
  obtain ⟨w, _, hw, _, hl, _, hsz, _⟩ := SimpleVector.PushBack_obj (v.view h) (Valid.view_WF v h hv) x
  rw [hval] at hw
  injection hw with hw
  subst hw
  exact ⟨h2, v2, hrun, hl, hsz⟩

/-- What `Insert` with an outside object does to a sound array in the free store. -/
theorem Insert_obj_toList [Element α] (h : Heap α) (v : HeapVector) (k : Nat) (x : α)
    (hv : v.Valid h) (hk : k ≤ v.size_) :
    ∃ h2 v2, Insert h v (v.begin + (k : Int)) (HeapRef.obj x)
        = some (h2, v2, v2.begin + (k : Int)) ∧
      (v2.view h2).toList = (v.view h).toList.take k ++ [x] ++ (v.view h).toList.drop k ∧
      v2.GetSize = v.GetSize + 1 := by
  have hwf := Valid.view_WF v h hv
  obtain ⟨w, y, hw, hy, hslots, hsz, _, _⟩ :=
    SimpleVector.Insert_result (v.view h) hwf k hk (Ref.obj x)
  have hyx := hy x rfl
  subst hyx
  have hl := SimpleVector.Insert_toList (v.view h) w hwf k hk y hsz hslots
  rw [Insert_obj_view h v (k : Int) y hv] at hw
  simp only [begin, zero_add]
  cases hI : Insert h v (k : Int) (HeapRef.obj y) with
  | none => rw [hI] at hw; cases hw
  | some r =>
    obtain ⟨h2, v2, it⟩ := r
    rw [hI] at hw
    simp only [Option.map, Option.some.injEq, Prod.mk.injEq] at hw
    obtain ⟨hw1, hw2⟩ := hw
    subst hw1
    subst hw2
    exact ⟨h2, v2, rfl, hl, hsz⟩

/-- What `Erase` does to a sound array in the free store. -/
theorem Erase_obj_toList [Element α] (h : Heap α) (v : HeapVector) (k : Nat)
    (hv : v.Valid h) (hk : k < v.size_) :
    ∃ h2 v2, Erase h v (v.begin + (k : Int)) = some (h2, v2, v2.begin + (k : Int)) ∧
      (v2.view h2).toList = (v.view h).toList.take k ++ (v.view h).toList.drop (k + 1) ∧
      v2.GetSize = v.GetSize - 1 := by
  have hwf := Valid.view_WF v h hv
  obtain ⟨w, hw, hslots, hsz, _, _⟩ := SimpleVector.Erase_result (v.view h) hwf k hk
  have hl := SimpleVector.Erase_toList (v.view h) w hwf k hk hsz hslots
  rw [Erase_view h v (k : Int) hv] at hw
  simp only [begin, zero_add]
  cases hI : Erase h v (k : Int) with
  | none => rw [hI] at hw; cases hw
  | some r =>
    obtain ⟨h2, v2, it⟩ := r
    rw [hI] at hw
    simp only [Option.map, Option.some.injEq, Prod.mk.injEq] at hw
    obtain ⟨hw1, hw2⟩ := hw
    subst hw1
    subst hw2
    exact ⟨h2, v2, rfl, hl, hsz⟩

end HeapVector

/-! ## The properties of the specification -/

section Claims

open SimpleVector

variable {α : Type}

/-- C1: `Insert` with an element of the array itself as its value fails the property
`s[0..k) ++ [v] ++ s[k..n)`.  On `1, 2, 3` with capacity 5, `Insert(begin(), v[2])` has to
leave `3, 1, 2, 3` and leaves `2, 1, 2, 3`: the reference is read after
`std::move_backward` has shifted the elements (in-place branch).  On the full array of
strings `a, b, c`, `Insert(begin() + 1, v[0])` has to leave `a, a, b, c` and leaves
`a, "", b, c`: the reference is read after the prefix was moved into the new block
(reallocating branch).  With the same values held by objects outside the array both calls
give what they have to. -/
theorem insert_of_own_element :
    (sampleSpare.WF ∧ sampleSpare.index 2 = some 3 ∧
      sampleSpare.Insert (sampleSpare.begin + 0) (Ref.elem 2)
        = some (SimpleVector.mk (ArrayPtr.mk [2, 1, 2, 3, 9]) 4 5, 0) ∧
      (SimpleVector.mk (ArrayPtr.mk [2, 1, 2, 3, 9]) 4 5).toList = [2, 1, 2, 3] ∧
      sampleSpare.toList.take 0 ++ [3] ++ sampleSpare.toList.drop 0 = [3, 1, 2, 3] ∧
      (sampleSpare.Insert (sampleSpare.begin + 0) (Ref.obj 3)).map (fun r => r.1.toList)
        = some [3, 1, 2, 3]) ∧
    (sampleStringsFull.WF ∧ sampleStringsFull.index 0 = some "a" ∧
      (sampleStringsFull.Insert (sampleStringsFull.begin + 1) (Ref.elem 0)).map
        (fun r => (r.1.toList, r.2)) = some (["a", "", "b", "c"], 1) ∧
      sampleStringsFull.toList.take 1 ++ ["a"] ++ sampleStringsFull.toList.drop 1
        = ["a", "a", "b", "c"] ∧
      (sampleStringsFull.Insert (sampleStringsFull.begin + 1) (Ref.obj "a")).map
        (fun r => r.1.toList) = some ["a", "a", "b", "c"]) :=
  ⟨⟨by decide, by decide, by decide, by decide, by decide, by decide⟩,
   ⟨by decide, by decide, by decide, by decide, by decide⟩⟩

/-- C2: for every well-formed array with live sequence `s` of size `n` and every `k < n`,
`Erase(begin() + k)` passes its assertion, leaves the live sequence
`s[0..k) ++ s[k+1..n)`, sets the size to `n - 1`, keeps the capacity and returns
`begin() + k`; that position now holds the element that followed the erased one, and it is
`end()` when `k` was the last index. -/
theorem erase_correct [Element α] (v : SimpleVector α) (hwf : v.WF) (k : Nat)
    (hk : k < v.size_) :
    ∃ w, v.Erase (v.begin + (k : Int)) = some (w, w.begin + (k : Int)) ∧
      w.toList = v.toList.take k ++ v.toList.drop (k + 1) ∧
      w.GetSize = v.GetSize - 1 ∧
      w.GetCapacity = v.GetCapacity ∧
      (k + 1 < v.size_ → w.index k = v.index (k + 1)) ∧
      (k + 1 = v.size_ → w.begin + (k : Int) = w.end_) := by
  obtain ⟨w, h1, hw, hsz, hcap, hlen⟩ := Erase_result v hwf k hk
  have hwwf : w.WF := ⟨hlen, by rw [hsz, hcap]; have := hwf.2; omega⟩
  have hlist := Erase_toList v w hwf k hk hsz hw
  refine ⟨w, ?_, hlist, hsz, hcap, ?_, ?_⟩
  · simpa [SimpleVector.begin] using h1
  · intro hlt
    rw [index_eq_toList w hwwf k (by omega), index_eq_toList v hwf (k + 1) hlt, hlist,
      getElem?_erase_form _ _ _ (by rw [toList_length v hwf]; omega), if_neg (by omega)]
  · intro hlast
    unfold end_
    rw [hsz]
    congr 1
    omega

/-- Instance of C2: erasing index 1 of `1, 2, 3`. -/
theorem erase_correct_witness :
    sampleSpare.WF ∧ 1 < sampleSpare.size_ ∧
      ∃ w, sampleSpare.Erase (sampleSpare.begin + ((1 : Nat) : Int))
          = some (w, w.begin + ((1 : Nat) : Int)) ∧
        w.toList = sampleSpare.toList.take 1 ++ sampleSpare.toList.drop (1 + 1) ∧
        w.GetSize = sampleSpare.GetSize - 1 ∧
        w.GetCapacity = sampleSpare.GetCapacity ∧
        (1 + 1 < sampleSpare.size_ → w.index 1 = sampleSpare.index (1 + 1)) ∧
        (1 + 1 = sampleSpare.size_ → w.begin + ((1 : Nat) : Int) = w.end_) :=
  ⟨by decide, by decide, erase_correct sampleSpare (by decide) 1 (by decide)⟩

/-- C3: for every well-formed array, every `k <= size` and every value, held by an object
outside the array or by an element of the array itself, `Insert(begin() + k, value)`
followed by `Erase(begin() + k)` on the result gives back the original live sequence and
size, and the result compares equal to the original array with `operator==`; the array may
have been full or not before the `Insert`. -/
theorem insert_erase_roundtrip [Element α] [DecidableEq α] (v : SimpleVector α) (hwf : v.WF)
    (k : Nat) (hk : k ≤ v.size_) (value : Ref α) :
    ∃ w u, v.Insert (v.begin + (k : Int)) value = some (w, w.begin + (k : Int)) ∧
      w.Erase (w.begin + (k : Int)) = some (u, u.begin + (k : Int)) ∧
      u.toList = v.toList ∧ u.GetSize = v.GetSize ∧ opEq u v = true := by
  obtain ⟨w, y, h1, _, hw, hsz, hcap, hlen⟩ := Insert_result v hwf k hk value
  have hwwf : w.WF := Insert_WF v w hwf hsz hcap hlen
  obtain ⟨u, h2, hu, husz, hucap, hulen⟩ := Erase_result w hwwf k (by omega)
  have huwf : u.WF := ⟨hulen, by rw [husz, hucap]; have := hwwf.2; omega⟩
  have husz2 : u.size_ = v.size_ := by rw [husz, hsz]; omega
  have hlist : u.toList = v.toList := by
    apply toList_congr v u husz2
    intro j hj
    rw [hu j (by omega)]
    by_cases hjk : j < k
    · rw [if_pos hjk, hw j (by omega), if_pos hjk]
    · rw [if_neg hjk, hw (j + 1) (by omega), if_neg (by omega), if_neg (by omega)]
      rfl
  refine ⟨w, u, ?_, ?_, hlist, husz2, (opEq_iff_toList u v huwf hwf).2 hlist⟩
  · simpa [SimpleVector.begin] using h1
  · simpa [SimpleVector.begin] using h2

/-- Instance of C3 on a full array, `Insert(begin() + 1, 9)` then `Erase(begin() + 1)`. -/
theorem insert_erase_roundtrip_witness :
    sampleFull.WF ∧ 1 ≤ sampleFull.size_ ∧
      ∃ w u, sampleFull.Insert (sampleFull.begin + ((1 : Nat) : Int)) (Ref.obj 9)
          = some (w, w.begin + ((1 : Nat) : Int)) ∧
        w.Erase (w.begin + ((1 : Nat) : Int)) = some (u, u.begin + ((1 : Nat) : Int)) ∧
        u.toList = sampleFull.toList ∧ u.GetSize = sampleFull.GetSize ∧
        opEq u sampleFull = true :=
  ⟨by decide, by decide,
    insert_erase_roundtrip sampleFull (by decide) 1 (by decide) (Ref.obj 9)⟩

/-- C4: `PushBack` with an element of the array itself as its item fails the property
`s ++ [v]` when it reallocates.  On the full array `1, 2, 3`, `PushBack(v[0])` has to leave
`1, 2, 3, 1`; the call of `Reserve` deletes the old block before `items_[size_++] = item`
reads the reference, so the call reads a deleted block and has no defined result, in both
overloads.  On `1, 2, 3` with capacity 5 the same call does not reallocate and leaves
`1, 2, 3, 1`, as does the call on the full array with the value held by an object outside
the array. -/
theorem pushBack_of_own_element :
    sampleFull.WF ∧ sampleFull.index 0 = some 1 ∧
      sampleFull.GetSize = sampleFull.GetCapacity ∧
      sampleFull.PushBack (Ref.elem 0) = none ∧
      sampleFull.PushBackMove (Ref.elem 0) = none ∧
      sampleFull.toList ++ [1] = [1, 2, 3, 1] ∧
      (sampleFull.PushBack (Ref.obj 1)).map toList = some [1, 2, 3, 1] ∧
      (sampleSpare.PushBack (Ref.elem 0)).map toList = some [1, 2, 3, 1] :=
  ⟨by decide, by decide, by decide, by decide, by decide, by decide, by decide, by decide⟩

/-- C5: for every sequence of `N` values, `N` calls of `PushBack` on a default-constructed
array give `GetSize() == N`; no call lowers the capacity; the capacity is 0 before the
first call, and after `i >= 1` calls it is the smallest power of two that is `>= i`. -/
theorem pushBack_doubling [Element α] (items : List α) :
    ∃ w, pushAll (empty : SimpleVector α) items = some w ∧
      w.GetSize = items.length ∧
      (∀ x, ∃ w2, pushAll (empty : SimpleVector α) (items ++ [x]) = some w2 ∧
        w.GetCapacity ≤ w2.GetCapacity) ∧
      (empty : SimpleVector α).GetCapacity = 0 ∧
      (1 ≤ items.length → ∃ e, w.GetCapacity = 2 ^ e ∧
        items.length ≤ 2 ^ e ∧ ∀ e2, items.length ≤ 2 ^ e2 → 2 ^ e ≤ 2 ^ e2) := by
  obtain ⟨w, hw, hwf, hsz, _, hpow⟩ := pushAll_inv (α := α) items
  refine ⟨w, hw, hsz, ?_, rfl, ?_⟩
  · intro x
    obtain ⟨w2, _, h2, _, _, _, _, hle, _⟩ := PushBack_obj w hwf x
    exact ⟨w2, by rw [pushAll_snoc, hw]; exact h2, hle⟩
  · intro h1
    obtain ⟨e, he, hle, hlt⟩ := hpow h1
    refine ⟨e, he, hle, fun e2 h2 => ?_⟩
    by_contra hcon
    have hlt2 : e2 < e := by
      by_contra hge
      exact hcon (Nat.pow_le_pow_right (by omega) (by omega))
    have h3 : 2 ^ (e2 + 1) ≤ 2 ^ e := Nat.pow_le_pow_right (by omega) (by omega)
    rw [pow_succ] at h3
    omega

/-- Instance of C5: five calls of `PushBack` give size 5 and capacity 8. -/
theorem pushBack_doubling_witness :
    (pushAll (empty : SimpleVector Nat) [10, 20, 30, 40, 50]).map GetSize = some 5 ∧
      (pushAll (empty : SimpleVector Nat) [10, 20, 30, 40, 50]).map GetCapacity = some 8 ∧
      ∃ w, pushAll (empty : SimpleVector Nat) [10, 20, 30, 40, 50] = some w ∧
        w.GetSize = [10, 20, 30, 40, 50].length ∧
        (∀ x, ∃ w2, pushAll (empty : SimpleVector Nat) ([10, 20, 30, 40, 50] ++ [x]) = some w2 ∧
          w.GetCapacity ≤ w2.GetCapacity) ∧
        (empty : SimpleVector Nat).GetCapacity = 0 ∧
        (1 ≤ [10, 20, 30, 40, 50].length → ∃ e, w.GetCapacity = 2 ^ e ∧
          [10, 20, 30, 40, 50].length ≤ 2 ^ e ∧
          ∀ e2, [10, 20, 30, 40, 50].length ≤ 2 ^ e2 → 2 ^ e ≤ 2 ^ e2) :=
  ⟨by decide, by decide, pushBack_doubling [10, 20, 30, 40, 50]⟩

/-- C6: for every well-formed array and one call of `PushBack` or of `Insert` at a valid
position (either overload): when `size == capacity` before the call the capacity afterwards
is `max(1, 2 * capacity)`, and when `size < capacity` it is the old capacity. -/
theorem growth_policy [Element α] (v : SimpleVector α) (hwf : v.WF) (k : Nat)
    (hk : k ≤ v.size_) (x : α) :
    ∃ w it r p pr, v.Insert (v.begin + (k : Int)) (Ref.obj x) = some (w, it) ∧
      v.InsertMove (v.begin + (k : Int)) (Ref.obj x) = some (w, it, r) ∧
      v.PushBack (Ref.obj x) = some p ∧ v.PushBackMove (Ref.obj x) = some (p, pr) ∧
      (v.GetSize = v.GetCapacity →
        p.GetCapacity = max 1 (2 * v.GetCapacity) ∧
        w.GetCapacity = max 1 (2 * v.GetCapacity)) ∧
      (v.GetSize < v.GetCapacity →
        p.GetCapacity = v.GetCapacity ∧
        w.GetCapacity = v.GetCapacity) := by
  obtain ⟨w, _, h1, _, _, _, hcap, _⟩ := Insert_result v hwf k hk (Ref.obj x)
  obtain ⟨r, h2⟩ := InsertMove_obj_of_Insert v w _ _ x h1
  obtain ⟨p, pr, hp1, hp2, _, hpcap, _⟩ := PushBack_result v hwf x
  have hgrow : (if v.capacity_ = 0 then 1 else v.capacity_ * 2) = max 1 (2 * v.capacity_) := by
    split <;> omega
  refine ⟨w, (k : Int), r, p, pr, ?_, ?_, hp1, hp2, ?_, ?_⟩
  · simpa [SimpleVector.begin] using h1
  · simpa [SimpleVector.begin] using h2
  · intro hfull
    unfold GetSize GetCapacity at *
    rw [hpcap, hcap, if_pos hfull, hgrow]
    exact ⟨rfl, rfl⟩
  · intro hlt
    unfold GetSize GetCapacity at *
    rw [hpcap, hcap, if_neg (by omega)]
    exact ⟨rfl, rfl⟩

/-- Instance of C6: a full array of capacity 3 grows to capacity 6. -/
theorem growth_policy_witness :
    sampleFull.WF ∧ 2 ≤ sampleFull.size_ ∧
      (sampleFull.PushBack (Ref.obj 5)).map GetCapacity = some 6 ∧
      ∃ w it r p pr, sampleFull.Insert (sampleFull.begin + ((2 : Nat) : Int)) (Ref.obj 5)
          = some (w, it) ∧
        sampleFull.InsertMove (sampleFull.begin + ((2 : Nat) : Int)) (Ref.obj 5)
          = some (w, it, r) ∧
        sampleFull.PushBack (Ref.obj 5) = some p ∧
        sampleFull.PushBackMove (Ref.obj 5) = some (p, pr) ∧
        (sampleFull.GetSize = sampleFull.GetCapacity →
          p.GetCapacity = max 1 (2 * sampleFull.GetCapacity) ∧
          w.GetCapacity = max 1 (2 * sampleFull.GetCapacity)) ∧
        (sampleFull.GetSize < sampleFull.GetCapacity →
          p.GetCapacity = sampleFull.GetCapacity ∧
          w.GetCapacity = sampleFull.GetCapacity) :=
  ⟨by decide, by decide, by decide, growth_policy sampleFull (by decide) 2 (by decide) 5⟩

/-- C7: for every well-formed array and every `newCap`, `Reserve(newCap)` keeps the size
and the live sequence and sets the capacity to `max(capacity, newCap)`: exactly `newCap`
when `newCap > capacity`, nothing changes at all when `newCap <= capacity`, and the
capacity never shrinks. -/
theorem reserve_correct [Element α] (v : SimpleVector α) (hwf : v.WF) (newCap : Nat) :
    (v.Reserve newCap).GetSize = v.GetSize ∧
      (v.Reserve newCap).toList = v.toList ∧
      (v.Reserve newCap).GetCapacity = max v.GetCapacity newCap ∧
      (newCap > v.GetCapacity → (v.Reserve newCap).GetCapacity = newCap) ∧
      (newCap ≤ v.GetCapacity → v.Reserve newCap = v) ∧
      v.GetCapacity ≤ (v.Reserve newCap).GetCapacity := by
  obtain ⟨hsz, hcap, hpre, _, hsame⟩ := Reserve_result v hwf newCap
  unfold GetSize GetCapacity
  refine ⟨hsz, toList_congr v _ hsz hpre, hcap, ?_, hsame, ?_⟩
  · intro h
    rw [hcap]
    omega
  · rw [hcap]
    omega

/-- Instance of C7: reserving 10 slots in an array of capacity 5. -/
theorem reserve_correct_witness :
    sampleSpare.WF ∧
      ((sampleSpare.Reserve 10).GetSize = sampleSpare.GetSize ∧
      (sampleSpare.Reserve 10).toList = sampleSpare.toList ∧
      (sampleSpare.Reserve 10).GetCapacity = max sampleSpare.GetCapacity 10 ∧
      (10 > sampleSpare.GetCapacity → (sampleSpare.Reserve 10).GetCapacity = 10) ∧
      (10 ≤ sampleSpare.GetCapacity → sampleSpare.Reserve 10 = sampleSpare) ∧
      sampleSpare.GetCapacity ≤ (sampleSpare.Reserve 10).GetCapacity) :=
  ⟨by decide, reserve_correct sampleSpare (by decide) 10⟩

/-- C8: for every well-formed array with live sequence `s` of size `m` and every `n`,
`Resize(n)` sets the size to `n`; when `n <= m` the live sequence is the first `n`
elements of `s`; when `n > m` it is `s` followed by `n - m` values `Type()`, whether `n`
exceeds the capacity or not. -/
theorem resize_correct [Element α] (v : SimpleVector α) (hwf : v.WF) (n : Nat) :
    (v.Resize n).GetSize = n ∧
      (n ≤ v.GetSize → (v.Resize n).toList = v.toList.take n) ∧
      (n > v.GetSize →
        (v.Resize n).toList = v.toList ++ List.replicate (n - v.GetSize) default) := by
  have hlist := Resize_toList v hwf n
  unfold GetSize
  refine ⟨(Resize_result v hwf n).1, ?_, ?_⟩
  · intro h
    rw [hlist, Nat.sub_eq_zero_of_le h]
    simp
  · intro h
    rw [hlist, List.take_of_length_le (by rw [toList_length v hwf]; omega)]

/-- Instance of C8: growing `1, 2, 3` to four elements inside the capacity; the stale 8 in
slot 3 is replaced by the default value. -/
theorem resize_correct_witness :
    sampleSpare.WF ∧
      ((sampleSpare.Resize 4).GetSize = 4 ∧
      (4 ≤ sampleSpare.GetSize → (sampleSpare.Resize 4).toList = sampleSpare.toList.take 4) ∧
      (4 > sampleSpare.GetSize → (sampleSpare.Resize 4).toList =
        sampleSpare.toList ++ List.replicate (4 - sampleSpare.GetSize) default)) :=
  ⟨by decide, resize_correct sampleSpare (by decide) 4⟩

/-- C9: for every array and every `n`, `Resize(n)` sets the capacity to exactly `n` when
`n > capacity` and keeps the capacity when `n <= capacity`; `Reserve(10)` on a
default-constructed array gives capacity 10 and size 0, and `Resize(5)` after it gives
size 5 with the capacity still 10. -/
theorem resize_capacity [Element α] (v : SimpleVector α) (n : Nat) :
    (n > v.GetCapacity → (v.Resize n).GetCapacity = n) ∧
      (n ≤ v.GetCapacity → (v.Resize n).GetCapacity = v.GetCapacity) ∧
      ((empty : SimpleVector α).Reserve 10).GetCapacity = 10 ∧
      ((empty : SimpleVector α).Reserve 10).GetSize = 0 ∧
      (((empty : SimpleVector α).Reserve 10).Resize 5).GetSize = 5 ∧
      (((empty : SimpleVector α).Reserve 10).Resize 5).GetCapacity = 10 := by
  unfold GetCapacity GetSize
  refine ⟨?_, ?_, ?_, ?_, ?_, ?_⟩
  · intro h
    unfold Resize
    rw [if_pos h]
  · intro h
    unfold Resize
    rw [if_neg (by omega)]
    split <;> rfl
  · simp [Reserve, empty]
  · simp [Reserve, empty]
  · simp [Reserve, Resize, empty]
  · simp [Reserve, Resize, empty]

/-- Instance of C9: growing past the capacity 5 reserves exactly 7 slots. -/
theorem resize_capacity_witness :
    (sampleSpare.Resize 7).GetCapacity = 7 ∧
      (((empty : SimpleVector String).Reserve 10).Resize 5).toList = ["", "", "", "", ""] :=
  ⟨(resize_capacity sampleSpare 7).1 (by decide), by decide⟩

/-- C10: for every array and every index `i`, `At(i)` throws `std::out_of_range` exactly
when `i >= size` (so also for `size <= i < capacity`), and for `i < size` it returns the
element that `operator[](i)` returns.  `At` assigns to no member: it is a function of the
array that yields no new array. -/
theorem at_correct [Inhabited α] (v : SimpleVector α) (i : Nat) :
    ((∃ msg, v.At i = Except.error msg) ↔ i ≥ v.GetSize) ∧
      (i < v.GetSize → ∃ a, v.At i = Except.ok a ∧ v.index i = some a) ∧
      (i ≥ v.GetSize → v.At i = Except.error "Index is out of range") := by
  unfold GetSize SimpleVector.At index
  refine ⟨?_, ?_, ?_⟩
  · constructor
    · rintro ⟨msg, h⟩
      by_contra hlt
      rw [if_neg hlt] at h
      cases h
    · intro h
      exact ⟨_, if_pos h⟩
  · intro h
    exact ⟨_, if_neg (by omega), if_pos h⟩
  · intro h
    exact if_pos h

/-- Instance of C10: index 3 lies below the capacity 5 but is not live, index 2 is live. -/
theorem at_correct_witness :
    sampleSpare.At 3 = Except.error "Index is out of range" ∧
      ∃ a, sampleSpare.At 2 = Except.ok a ∧ sampleSpare.index 2 = some a :=
  ⟨(at_correct sampleSpare 3).2.2 (by decide), (at_correct sampleSpare 2).2.1 (by decide)⟩

/-- C11: for every two arrays, `a == b` holds exactly when the sizes are equal and
`a[i] == b[i]` for every `i < size`; the answer depends on neither capacity nor on slots at
indices `>= size` (two pairs of arrays with the same sizes and the same live elements get
the same answer; with a reflexive element `==`, an array enlarged by `Reserve` or reduced
by `PopBack` equals a freshly built array with the same live elements); and `a != b` is
the negation of `a == b`. -/
theorem equality_correct [Element α] [BEq α] (a b : SimpleVector α) :
    (opEq a b = true ↔ a.GetSize = b.GetSize ∧
      ∀ i, i < a.GetSize → ∃ x y, a.index i = some x ∧ b.index i = some y ∧
        (x == y) = true) ∧
    opNe a b = !(opEq a b) ∧
    (∀ a2 b2 : SimpleVector α, a2.GetSize = a.GetSize → b2.GetSize = b.GetSize →
      (∀ i, i < a.GetSize → a2.index i = a.index i) →
      (∀ i, i < b.GetSize → b2.index i = b.index i) → opEq a2 b2 = opEq a b) ∧
    ((∀ x : α, (x == x) = true) → a.WF →
      (∀ c, opEq (a.Reserve c) (ofInitList a.toList) = true) ∧
      (∀ w, a.PopBack = some w → opEq w (ofInitList w.toList) = true)) := by
  refine ⟨opEq_iff_index a b, rfl, ?_, ?_⟩
  · intro a2 b2 hsa hsb hia hib
    rw [Bool.eq_iff_iff, opEq_iff_index, opEq_iff_index, hsa, hsb]
    constructor
    · rintro ⟨hsz, h⟩
      refine ⟨hsz, fun i hi => ?_⟩
      obtain ⟨x, y, hx, hy, hxy⟩ := h i hi
      exact ⟨x, y, by rw [← hia i hi]; exact hx, by rw [← hib i (by omega)]; exact hy, hxy⟩
    · rintro ⟨hsz, h⟩
      refine ⟨hsz, fun i hi => ?_⟩
      obtain ⟨x, y, hx, hy, hxy⟩ := h i hi
      exact ⟨x, y, by rw [hia i hi]; exact hx, by rw [hib i (by omega)]; exact hy, hxy⟩
  · intro hrefl ha
    constructor
    · intro c
      obtain ⟨hsz, _, hpre, _⟩ := Reserve_result a ha c
      apply opEq_of_toList_eq hrefl _ _ (Reserve_WF a ha c) (ofInitList_WF _)
      rw [ofInitList_toList]
      exact toList_congr a _ hsz hpre
    · intro w hw
      unfold PopBack at hw
      split at hw
      · simp only [Option.some.injEq] at hw
        subst hw
        apply opEq_of_toList_eq hrefl _ _ ?_ (ofInitList_WF _)
        · rw [ofInitList_toList]
        · exact ⟨ha.1, by have := ha.2; show a.size_ - 1 ≤ a.capacity_; omega⟩
      · cases hw

/-- Instance of C11: `1, 2, 3` with stale slots behind it equals the freshly built
`1, 2, 3`, to which it is related by the third part of the theorem. -/
theorem equality_correct_witness :
    opEq sampleSpare sampleFull = opEq sampleFull sampleFull ∧
      opEq sampleSpare sampleFull = true ∧ opNe sampleSpare sampleOther = true :=
  ⟨(equality_correct sampleFull sampleFull).2.2.1 sampleSpare sampleFull (by decide)
      (by decide) (by decide) (by decide),
    by decide, by decide⟩

/-- C12: for every two well-formed arrays over a linearly ordered element type, `a < b`
holds exactly when the live sequence of `a` is lexicographically smaller than that of
`b`: `a` is a proper prefix of `b`, or at the first index where they differ the element of
`a` is less than the element of `b`. -/
theorem less_correct [Inhabited α] [LinearOrder α] (a b : SimpleVector α) (ha : a.WF)
    (hb : b.WF) : opLt a b = true ↔ LexLess a.toList b.toList := by
  rw [opLt_iff_lt a b ha hb, list_lt_iff_LexLess]

/-- Instance of C12: `1, 2, 3` is below `1, 2, 4`, the first difference being at
index 2. -/
theorem less_correct_witness :
    sampleSpare.WF ∧ sampleOther.WF ∧
      (opLt sampleSpare sampleOther = true ↔ LexLess sampleSpare.toList sampleOther.toList) ∧
      opLt sampleSpare sampleOther = true :=
  ⟨by decide, by decide, less_correct sampleSpare sampleOther (by decide) (by decide),
    by decide⟩

/-- C13: for every sequence `l` and value `x` (element `<` irreflexive, element `==`
reflexive), two arrays built from `l` compare equal, and after `PushBack(x)` on one of them
`longer > shorter` and `shorter < longer` are true while `longer == shorter` and
`longer < shorter` are false. -/
theorem append_strictly_greater [Element α] [Preorder α] [DecidableRel (α := α) (· < ·)]
    [DecidableEq α] (l : List α) (x : α) :
    ∃ longer, (ofInitList l).PushBack (Ref.obj x) = some longer ∧
      opEq (ofInitList l) (ofInitList l) = true ∧
      opGt longer (ofInitList l) = true ∧
      opLt (ofInitList l) longer = true ∧
      opEq longer (ofInitList l) = false ∧
      opLt longer (ofInitList l) = false := by
  have hwf := ofInitList_WF l
  have hl := ofInitList_toList l
  obtain ⟨w, _, hw, _, hl2, hwf2, _⟩ := PushBack_obj (ofInitList l) hwf x
  rw [hl] at hl2
  have hlt : opLt (ofInitList l) w = true := by
    rw [opLt_iff_lt _ _ hwf hwf2, hl, hl2]
    exact list_lt_append_singleton (fun a => lt_irrefl a) l x
  refine ⟨w, hw, (opEq_iff_toList _ _ hwf hwf).2 rfl, hlt, hlt, ?_, ?_⟩
  · rw [Bool.eq_false_iff]
    intro h
    have := (opEq_iff_toList _ _ hwf2 hwf).1 h
    rw [hl, hl2] at this
    have hlen := congrArg List.length this
    simp at hlen
  · rw [Bool.eq_false_iff]
    intro h
    rw [opLt_iff_lt _ _ hwf2 hwf, hl, hl2] at h
    exact list_not_append_singleton_lt (fun a => lt_irrefl a) l x h

/-- Instance of C13: `1, 2, 3` against `1, 2, 3, 0`, the pushed value being the least
one. -/
theorem append_strictly_greater_witness :
    ((ofInitList [1, 2, 3]).PushBack (Ref.obj 0)).map toList = some [1, 2, 3, 0] ∧
      ∃ longer, (ofInitList [1, 2, 3]).PushBack (Ref.obj 0) = some longer ∧
        opEq (ofInitList [1, 2, 3]) (ofInitList [1, 2, 3]) = true ∧
        opGt longer (ofInitList [1, 2, 3]) = true ∧
        opLt (ofInitList [1, 2, 3]) longer = true ∧
        opEq longer (ofInitList [1, 2, 3]) = false ∧
        opLt longer (ofInitList [1, 2, 3]) = false :=
  ⟨by decide, append_strictly_greater [1, 2, 3] 0⟩

/-- C14: for every two well-formed arrays over a linearly ordered element type,
`a <= b` holds exactly when `a < b` or `a == b`, `a > b` exactly when `b < a`, and
`a >= b` exactly when `b < a` or `a == b`. -/
theorem derived_operators [Inhabited α] [LinearOrder α] (a b : SimpleVector α) (ha : a.WF)
    (hb : b.WF) :
    (opLe a b = true ↔ (opLt a b = true ∨ opEq a b = true)) ∧
      (opGt a b = true ↔ opLt b a = true) ∧
      (opGe a b = true ↔ (opLt b a = true ∨ opEq a b = true)) := by
  refine ⟨?_, Iff.rfl, ?_⟩
  · unfold opLe
    rw [Bool.not_eq_true', ← Bool.not_eq_true, opLt_iff_lt b a hb ha, opLt_iff_lt a b ha hb,
      opEq_iff_toList a b ha hb]
    exact list_not_lt_iff a.toList b.toList
  · unfold opGe
    rw [Bool.not_eq_true', ← Bool.not_eq_true, opLt_iff_lt b a hb ha, opLt_iff_lt a b ha hb,
      opEq_iff_toList a b ha hb, list_not_lt_iff b.toList a.toList]
    constructor
    · rintro (h | h)
      · exact Or.inl h
      · exact Or.inr h.symm
    · rintro (h | h)
      · exact Or.inl h
      · exact Or.inr h.symm

/-- Instance of C14 on `1, 2, 3` and `1, 2, 4`. -/
theorem derived_operators_witness :
    sampleSpare.WF ∧ sampleOther.WF ∧
      ((opLe sampleSpare sampleOther = true ↔
          (opLt sampleSpare sampleOther = true ∨ opEq sampleSpare sampleOther = true)) ∧
        (opGt sampleSpare sampleOther = true ↔ opLt sampleOther sampleSpare = true) ∧
        (opGe sampleSpare sampleOther = true ↔
          (opLt sampleOther sampleSpare = true ∨ opEq sampleSpare sampleOther = true))) :=
  ⟨by decide, by decide, derived_operators sampleSpare sampleOther (by decide) (by decide)⟩

/-- C15: for every array `A` in the free store, the copy constructor yields `B` with
`B == A` (same size, same elements in order) and `B.GetCapacity() == A.GetSize()`, in a
block of its own, and leaves the size, capacity and elements of `A` unchanged; after any
later sequence of mutations of `B` that runs (`PushBack`, `Insert`, both overloads, `Erase`,
element write, with arguments that are objects outside the free store or elements of any
array, those of `A` included) the size, capacity and every slot of `A` are still what they
were, and `B` is still in a block of its own.  An rvalue argument must not be an element of
`A`: moving from it is a change of `A` the caller asks for.  In particular each single
mutation of `B` with an outside object runs and changes `B` while `A` stays: `PushBack(x)`
leaves `B` as `s ++ [x]`, `Insert(begin() + k, x)` as `s[0..k) ++ [x] ++ s[k..n)`,
`Erase(begin() + k)` as `s[0..k) ++ s[k+1..n)`, and the element write `B[i] = x` makes
`B[i]` equal to `x`, where `s` is the live sequence of `A`, which `A` still has. -/
theorem copy_correct [Element α] [DecidableEq α] (h : Heap α) (A : HeapVector)
    (hA : A.Valid h) :
    (HeapVector.copy h A).2.view (HeapVector.copy h A).1 = SimpleVector.copy (A.view h) ∧
      opEq ((HeapVector.copy h A).2.view (HeapVector.copy h A).1)
        (A.view (HeapVector.copy h A).1) = true ∧
      (HeapVector.copy h A).2.GetSize = A.GetSize ∧
      ((HeapVector.copy h A).2.view (HeapVector.copy h A).1).toList = (A.view h).toList ∧
      (∀ i, i < A.GetSize →
        ((HeapVector.copy h A).2.view (HeapVector.copy h A).1).index i = (A.view h).index i) ∧
      (HeapVector.copy h A).2.GetCapacity = A.GetSize ∧
      A.view (HeapVector.copy h A).1 = A.view h ∧
      ((HeapVector.copy h A).2.items_ = none ∨ (HeapVector.copy h A).2.items_ ≠ A.items_) ∧
      (∀ (ms : List (Mutation α)) (h2 : Heap α) (B2 : HeapVector),
        HeapVector.mutateAll (HeapVector.copy h A).1 (HeapVector.copy h A).2 ms = some (h2, B2) →
        (∀ m, m ∈ ms → m.spares A.items_) →
        A.view h2 = A.view h ∧ (A.view h2).toList = (A.view h).toList ∧
          (B2.items_ = none ∨ B2.items_ ≠ A.items_)) ∧
      (∀ x : α, ∃ h2 B2,
        HeapVector.PushBack (HeapVector.copy h A).1 (HeapVector.copy h A).2 (HeapRef.obj x)
            = some (h2, B2) ∧
          (B2.view h2).toList = (A.view h).toList ++ [x] ∧
          (A.view h2).toList = (A.view h).toList ∧ A.view h2 = A.view h) ∧
      (∀ (k : Nat) (x : α), k ≤ A.GetSize → ∃ h2 B2,
        HeapVector.Insert (HeapVector.copy h A).1 (HeapVector.copy h A).2
            ((HeapVector.copy h A).2.begin + (k : Int)) (HeapRef.obj x)
            = some (h2, B2, B2.begin + (k : Int)) ∧
          (B2.view h2).toList
            = (A.view h).toList.take k ++ [x] ++ (A.view h).toList.drop k ∧
          (A.view h2).toList = (A.view h).toList ∧ A.view h2 = A.view h) ∧
      (∀ k : Nat, k < A.GetSize → ∃ h2 B2,
        HeapVector.Erase (HeapVector.copy h A).1 (HeapVector.copy h A).2
            ((HeapVector.copy h A).2.begin + (k : Int)) = some (h2, B2, B2.begin + (k : Int)) ∧
          (B2.view h2).toList = (A.view h).toList.take k ++ (A.view h).toList.drop (k + 1) ∧
          (A.view h2).toList = (A.view h).toList ∧ A.view h2 = A.view h) ∧
      (∀ (i : Nat) (x : α), i < A.GetSize →
        ∃ h2, HeapVector.assign (HeapVector.copy h A).1 (HeapVector.copy h A).2 i
            (HeapRef.obj x) = some h2 ∧
          (SimpleVector.copy (A.view h)).assign i x
            = some ((HeapVector.copy h A).2.view h2) ∧
          ((HeapVector.copy h A).2.view h2).index i = some x ∧
          (A.view h2).index i = (A.view h).index i ∧ A.view h2 = A.view h) := by
  have hwf := HeapVector.Valid.view_WF A h hA
  have hview := HeapVector.copy_view h A hA
  have hAview : A.view (HeapVector.copy h A).1 = A.view h :=
    HeapVector.view_eq_of_frame A h _ (fun q hq =>
      (HeapVector.copy_frame h A q (HeapVector.Valid.lt_length A h hA q hq)).1)
  have hcwf := SimpleVector.copy_WF (A.view h) hwf
  have hl := SimpleVector.copy_toList (A.view h) hwf
  obtain ⟨hsz, _, _, _⟩ := SimpleVector.copy_result (A.view h) hwf
  have hsep : ∀ (v : HeapVector), (∀ q, A.items_ = some q → v.items_ ≠ some q) →
      (v.items_ = none ∨ v.items_ ≠ A.items_) := by
    intro v hv
    cases hv2 : v.items_ with
    | none => exact Or.inl rfl
    | some a =>
      refine Or.inr ?_
      intro e
      exact hv a e.symm hv2
  have hBvalid := HeapVector.copy_valid h A
  have hBl : ((HeapVector.copy h A).2.view (HeapVector.copy h A).1).toList
      = (A.view h).toList := by rw [hview, hl]
  have hfr : ∀ q, A.items_ = some q →
      q < (HeapVector.copy h A).1.blocks.length ∧ (HeapVector.copy h A).2.items_ ≠ some q := by
    intro q hq
    have hlt := HeapVector.Valid.lt_length A h hA q hq
    obtain ⟨f1, hne⟩ := HeapVector.copy_frame h A q hlt
    exact ⟨Nat.lt_of_lt_of_le hlt f1.2, hne⟩
  refine ⟨hview, ?_, rfl, ?_, ?_, rfl, hAview, ?_, ?_, ?_, ?_, ?_, ?_⟩
  · rw [hview, hAview]
    exact (opEq_iff_toList _ _ hcwf hwf).2 hl
  · rw [hview, hl]
  · intro i hi
    rw [hview, index_eq_toList _ hcwf i (by rw [hsz]; exact hi),
      index_eq_toList _ hwf i hi, hl]
  · exact hsep _ (fun q hq =>
      (HeapVector.copy_frame h A q (HeapVector.Valid.lt_length A h hA q hq)).2)
  · intro ms h2 B2 hrun hsp
    have hframe : ∀ q, A.items_ = some q → Heap.Frame q h h2 ∧ B2.items_ ≠ some q := by
      intro q hq
      have hlt := HeapVector.Valid.lt_length A h hA q hq
      obtain ⟨f1, hne⟩ := HeapVector.copy_frame h A q hlt
      obtain ⟨f2, hne2⟩ := HeapVector.mutateAll_frame ms _ h2 _ B2 q
        (Nat.lt_of_lt_of_le hlt f1.2) hne (fun m hm => by rw [← hq]; exact hsp m hm) hrun
      exact ⟨f1.trans f2, hne2⟩
    have hv2 : A.view h2 = A.view h :=
      HeapVector.view_eq_of_frame A h h2 (fun q hq => (hframe q hq).1)
    exact ⟨hv2, by rw [hv2], hsep B2 (fun q hq => (hframe q hq).2)⟩
  · intro x
    obtain ⟨h2, B2, hrun, hB, _⟩ := HeapVector.PushBack_obj_toList _ _ x hBvalid
    have hv2 : A.view h2 = A.view h := by
      rw [← hAview]
      exact HeapVector.view_eq_of_frame A _ h2 (fun q hq =>
        (HeapVector.PushBack_frame _ h2 _ B2 _ q (hfr q hq).1 (hfr q hq).2 hrun).1)
    exact ⟨h2, B2, hrun, by rw [hB, hBl], by rw [hv2], hv2⟩
  · intro k x hk
    obtain ⟨h2, B2, hrun, hB, _⟩ := HeapVector.Insert_obj_toList _ _ k x hBvalid hk
    have hv2 : A.view h2 = A.view h := by
      rw [← hAview]
      exact HeapVector.view_eq_of_frame A _ h2 (fun q hq =>
        (HeapVector.Insert_frame _ h2 _ B2 _ _ _ q (hfr q hq).1 (hfr q hq).2 hrun).1)
    exact ⟨h2, B2, hrun, by rw [hB, hBl], by rw [hv2], hv2⟩
  · intro k hk
    obtain ⟨h2, B2, hrun, hB, _⟩ := HeapVector.Erase_obj_toList _ _ k hBvalid hk
    have hv2 : A.view h2 = A.view h := by
      rw [← hAview]
      exact HeapVector.view_eq_of_frame A _ h2 (fun q hq =>
        (HeapVector.Erase_frame _ h2 _ B2 _ _ q (hfr q hq).2 hrun).1)
    exact ⟨h2, B2, hrun, by rw [hB, hBl], by rw [hv2], hv2⟩
  · intro i x hi
    obtain ⟨h2, hrun, hval, hix⟩ := HeapVector.assign_copy h A hA i x hi
    have hv2 : A.view h2 = A.view h := by
      rw [← hAview]
      exact HeapVector.view_eq_of_frame A _ h2 (fun q hq =>
        HeapVector.assign_frame _ h2 _ i (HeapRef.obj x) q
          (HeapVector.copy_frame h A q (HeapVector.Valid.lt_length A h hA q hq)).2 hrun)
    exact ⟨h2, hrun, hval, hix, by rw [hv2], hv2⟩

/-- Instance of C15: the copy of `1, 2, 3` (capacity 5, block 0) gets block 1 and
capacity 3; four mutations of the copy, one of them reading an element of the original,
move the copy to block 2 and leave block 0 as it was. -/
theorem copy_correct_witness :
    sampleOwner.Valid sampleHeap ∧
      HeapVector.copy sampleHeap sampleOwner
        = (Heap.mk [some [1, 2, 3, 8, 9], some [1, 2, 3]], HeapVector.mk (some 1) 3 3) ∧
      HeapVector.mutateAll (HeapVector.copy sampleHeap sampleOwner).1
          (HeapVector.copy sampleHeap sampleOwner).2 sampleMutations
        = some (Heap.mk [some [1, 2, 3, 8, 9], none, some [42, 2, 3, 2, 2, 0]],
            HeapVector.mk (some 2) 4 6) ∧
      sampleOwner.view (Heap.mk [some [1, 2, 3, 8, 9], none, some [42, 2, 3, 2, 2, 0]])
        = sampleOwner.view sampleHeap :=
  ⟨⟨by decide, Or.inr ⟨0, [1, 2, 3, 8, 9], rfl, rfl, rfl⟩⟩, by decide, by decide,
    ((copy_correct sampleHeap sampleOwner
      ⟨by decide, Or.inr ⟨0, [1, 2, 3, 8, 9], rfl, rfl, rfl⟩⟩).2.2.2.2.2.2.2.2.1
      sampleMutations _ (HeapVector.mk (some 2) 4 6) (by decide) (by
        intro m hm
        simp only [sampleMutations, List.mem_cons, List.mem_singleton, List.not_mem_nil,
          or_false] at hm
        rcases hm with e | e | e | e <;> subst e <;> exact trivial)).1⟩

/-- C16: for every array `A`, move construction of `B` from `A`, and move assignment of `A`
to a distinct array `B` whatever `B` held, leave `B` with the former size, capacity and
live sequence of `A` and leave `A` with size 0 and capacity 0. -/
theorem move_correct (a b : SimpleVector α) :
    ((moveFrom a).1.GetSize = a.GetSize ∧ (moveFrom a).1.GetCapacity = a.GetCapacity ∧
        (moveFrom a).1.toList = a.toList ∧
        (moveFrom a).2.GetSize = 0 ∧ (moveFrom a).2.GetCapacity = 0 ∧
        (moveFrom a).2.IsEmpty = true) ∧
      ((b.moveAssign a).1.GetSize = a.GetSize ∧ (b.moveAssign a).1.GetCapacity = a.GetCapacity ∧
        (b.moveAssign a).1.toList = a.toList ∧
        (b.moveAssign a).2.GetSize = 0 ∧ (b.moveAssign a).2.GetCapacity = 0 ∧
        (b.moveAssign a).2.IsEmpty = true) :=
  ⟨⟨rfl, rfl, rfl, rfl, rfl, rfl⟩, ⟨rfl, rfl, rfl, rfl, rfl, rfl⟩⟩

/-- Instance of C16: moving `1, 2, 3` (capacity 5) over an array that held `1, 2, 4`
before. -/
theorem move_correct_witness :
    (sampleOther.moveAssign sampleSpare).1.toList = [1, 2, 3] ∧
      (sampleOther.moveAssign sampleSpare).1.GetCapacity = 5 ∧
      (sampleOther.moveAssign sampleSpare).2 = empty ∧
      (moveFrom sampleSpare).2.GetCapacity = 0 :=
  ⟨by decide, by decide, by decide, (move_correct sampleSpare sampleOther).1.2.2.2.2.1⟩

/-- C17: `SimpleVector(n, x)` has size and capacity `n` and every element `x`;
`SimpleVector(n)` has size and capacity `n` and every element `Type()`; the
initializer-list constructor has size and capacity the length of `l` and element `i`
equal to `l[i]`; `SimpleVector(Reserve(c))` has size 0 and capacity `c`; the default
constructor has size and capacity 0. -/
theorem constructors_correct [Inhabited α] (n : Nat) (x : α) (l : List α) (c : Nat) :
    ((ofSizeValue n x).GetSize = n ∧ (ofSizeValue n x).GetCapacity = n ∧
        ∀ i, i < n → (ofSizeValue n x).index i = some x) ∧
      ((ofSize n : SimpleVector α).GetSize = n ∧ (ofSize n : SimpleVector α).GetCapacity = n ∧
        ∀ i, i < n → (ofSize n : SimpleVector α).index i = some default) ∧
      ((ofInitList l).GetSize = l.length ∧ (ofInitList l).GetCapacity = l.length ∧
        (∀ i, i < l.length → (ofInitList l).index i = l[i]?) ∧ (ofInitList l).toList = l) ∧
      ((ofReserve (ReserveProxyObj.Reserve c) : SimpleVector α).GetSize = 0 ∧
        (ofReserve (ReserveProxyObj.Reserve c) : SimpleVector α).GetCapacity = c) ∧
      ((empty : SimpleVector α).GetSize = 0 ∧ (empty : SimpleVector α).GetCapacity = 0) := by
  obtain ⟨v1, v2, _, v4⟩ := ofSizeValue_result n x
  obtain ⟨d1, d2, _, d4⟩ := ofSize_result (α := α) n
  obtain ⟨l1, l2, _, l4⟩ := ofInitList_result l
  unfold GetSize GetCapacity
  refine ⟨⟨v1, v2, fun i hi => ?_⟩, ⟨d1, d2, fun i hi => ?_⟩,
    ⟨l1, l2, fun i hi => ?_, ofInitList_toList l⟩, ⟨rfl, rfl⟩, ⟨rfl, rfl⟩⟩
  · exact index_of_getElem? _ i x (by rw [v1]; exact hi) (v4 i hi)
  · exact index_of_getElem? _ i default (by rw [d1]; exact hi) (d4 i hi)
  · rw [index_eq_toList _ (ofInitList_WF l) i (by rw [l1]; exact hi), ofInitList_toList]

/-- Instance of C17 for strings: three copies of a value, and a reserved but empty
array. -/
theorem constructors_correct_witness :
    (ofSizeValue 3 "x").toList = ["x", "x", "x"] ∧
      (ofSize 2 : SimpleVector String).toList = ["", ""] ∧
      ((ofReserve (ReserveProxyObj.Reserve 4) : SimpleVector String).GetSize = 0 ∧
        (ofReserve (ReserveProxyObj.Reserve 4) : SimpleVector String).GetCapacity = 4) :=
  ⟨by decide, by decide, (constructors_correct 3 "x" ["a"] 4).2.2.2.1⟩

/-- C18: `size <= capacity` holds for every array a constructor builds, and every public
operation whose assertion passes keeps it: copy and move construction, copy and move
assignment, `Reserve`, `PushBack`, `Insert`, `Erase`, `PopBack`, `Clear`, `Resize`, and
`swap` for both arrays. -/
theorem size_le_capacity_invariant [Element α] (v other : SimpleVector α)
    (hv : v.SizeLeCapacity) (ho : other.SizeLeCapacity) :
    ((empty : SimpleVector α).SizeLeCapacity ∧
      (∀ n, (ofSize n : SimpleVector α).SizeLeCapacity) ∧
      (∀ n (x : α), (ofSizeValue n x).SizeLeCapacity) ∧
      (∀ l : List α, (ofInitList l).SizeLeCapacity) ∧
      (∀ p, (ofReserve p : SimpleVector α).SizeLeCapacity) ∧
      (copy other).SizeLeCapacity ∧
      (moveFrom other).1.SizeLeCapacity ∧ (moveFrom other).2.SizeLeCapacity) ∧
    ((v.copyAssign other).SizeLeCapacity ∧
      (v.moveAssign other).1.SizeLeCapacity ∧ (v.moveAssign other).2.SizeLeCapacity) ∧
    ((∀ c, (v.Reserve c).SizeLeCapacity) ∧
      (∀ x, ∃ w r, v.PushBack (Ref.obj x) = some w ∧
        v.PushBackMove (Ref.obj x) = some (w, r) ∧ w.SizeLeCapacity) ∧
      (∀ item w, v.PushBack item = some w → w.SizeLeCapacity) ∧
      (∀ item w r, v.PushBackMove item = some (w, r) → w.SizeLeCapacity) ∧
      (∀ pos value w it, v.Insert pos value = some (w, it) → w.SizeLeCapacity) ∧
      (∀ pos value w it r, v.InsertMove pos value = some (w, it, r) → w.SizeLeCapacity) ∧
      (∀ pos w it, v.Erase pos = some (w, it) → w.SizeLeCapacity) ∧
      (∀ w, v.PopBack = some w → w.SizeLeCapacity) ∧
      v.Clear.SizeLeCapacity ∧
      (∀ n, (v.Resize n).SizeLeCapacity) ∧
      (v.swap other).1.SizeLeCapacity ∧ (v.swap other).2.SizeLeCapacity) := by
  unfold SizeLeCapacity GetSize GetCapacity at *
  have hgrow := grow_gt v.capacity_
  refine ⟨⟨Nat.le_refl _, fun _ => Nat.le_refl _, fun _ _ => Nat.le_refl _,
    fun _ => Nat.le_refl _, fun _ => Nat.zero_le _, Nat.le_refl _, ho, Nat.le_refl _⟩,
    ⟨Nat.le_refl _, ho, Nat.le_refl _⟩, ?_, ?_, ?_, ?_, ?_, ?_, ?_, ?_, Nat.zero_le _, ?_, ho,
    hv⟩
  · intro c
    unfold Reserve
    split
    · show v.size_ ≤ c
      omega
    · exact hv
  · intro x
    obtain ⟨w, r, h1, h2⟩ := PushBack_obj_isSome v x
    obtain ⟨hsz, hcap⟩ := PushBack_some_sizes v w _ h1
    refine ⟨w, r, h1, h2, ?_⟩
    rw [hsz, hcap]
    split <;> omega
  · intro item w h
    obtain ⟨hsz, hcap⟩ := PushBack_some_sizes v w item h
    rw [hsz, hcap]
    split <;> omega
  · intro item w r h
    obtain ⟨hsz, hcap⟩ := PushBackMove_some_sizes v w item r h
    rw [hsz, hcap]
    split <;> omega
  · intro pos x w it h
    unfold SimpleVector.Insert at h
    split at h
    · by_cases hfull : v.size_ = v.capacity_
      · simp only [if_pos hfull, Option.some.injEq, Prod.mk.injEq] at h
        rw [← h.1]
        show v.size_ + 1 ≤ (if v.capacity_ = 0 then 1 else v.capacity_ * 2)
        omega
      · simp only [if_neg hfull, Option.some.injEq, Prod.mk.injEq] at h
        rw [← h.1]
        show v.size_ + 1 ≤ v.capacity_
        omega
    · cases h
  · intro pos x w it r h
    unfold InsertMove at h
    split at h
    · by_cases hfull : v.size_ = v.capacity_
      · simp only [if_pos hfull, Option.some.injEq, Prod.mk.injEq] at h
        rw [← h.1]
        show v.size_ + 1 ≤ (if v.capacity_ = 0 then 1 else v.capacity_ * 2)
        omega
      · simp only [if_neg hfull, Option.some.injEq, Prod.mk.injEq] at h
        rw [← h.1]
        show v.size_ + 1 ≤ v.capacity_
        omega
    · cases h
  · intro pos w it h
    unfold Erase at h
    split at h
    · simp only [Option.some.injEq, Prod.mk.injEq] at h
      rw [← h.1]
      show v.size_ - 1 ≤ v.capacity_
      omega
    · cases h
  · intro w h
    obtain ⟨_, hw⟩ := PopBack_result v w h
    rw [hw]
    show v.size_ - 1 ≤ v.capacity_
    omega
  · intro n
    unfold Resize
    by_cases h1 : n > v.capacity_
    · simp only [if_pos h1]
      exact Nat.le_refl _
    · simp only [if_neg h1]
      split
      · show n ≤ v.capacity_
        omega
      · show n ≤ v.capacity_
        omega

/-- Instance of C18 on `1, 2, 3` with capacity 3 and `1, 2, 3` with capacity 5; the
full array stays within its capacity after `PushBack`. -/
theorem size_le_capacity_invariant_witness :
    sampleFull.SizeLeCapacity ∧ sampleSpare.SizeLeCapacity ∧
      (∃ w r, sampleFull.PushBack (Ref.obj 4) = some w ∧
        sampleFull.PushBackMove (Ref.obj 4) = some (w, r) ∧ w.SizeLeCapacity) ∧
      (sampleFull.swap sampleSpare).1.SizeLeCapacity :=
  ⟨by decide, by decide,
    (size_le_capacity_invariant sampleFull sampleSpare (by decide) (by decide)).2.2.2.1 4,
    by decide⟩

/-- C19: the assertion of `operator[](i)` passes exactly when `i < size`, that of
`PopBack` exactly when `size > 0`, that of `Erase` at index `k` exactly when `k < size`
(so `Erase` on an empty array and `Erase(end())` fail), that of `Insert` at index `k`
exactly when `k <= size`; a position before `begin()` fails both. -/
theorem assertions_correct [Element α] (v : SimpleVector α) (i k : Nat) :
    ((v.index i).isSome = true ↔ i < v.GetSize) ∧
      (v.PopBack.isSome = true ↔ v.GetSize > 0) ∧
      ((v.Erase (v.begin + (k : Int))).isSome = true ↔ k < v.GetSize) ∧
      (∀ x : Ref α, (v.Insert (v.begin + (k : Int)) x).isSome = true ↔ k ≤ v.GetSize) ∧
      (∀ x : Ref α, (v.InsertMove (v.begin + (k : Int)) x).isSome = true ↔ k ≤ v.GetSize) ∧
      (v.GetSize = 0 → ∀ pos, v.Erase pos = none) ∧
      v.Erase v.end_ = none ∧
      (∀ pos, pos < v.begin → v.Erase pos = none ∧ ∀ x : Ref α, v.Insert pos x = none ∧
        v.InsertMove pos x = none) := by
  unfold GetSize
  refine ⟨?_, ?_, ?_, ?_, ?_, ?_, ?_, ?_⟩
  · unfold index
    split <;> simp [*]
  · unfold PopBack
    split <;> simp [*]
  · unfold Erase
    simp only [SimpleVector.begin, end_]
    split
    · next h => simp only [Option.isSome_some, true_iff]; omega
    · next h => simp only [Option.isSome_none, Bool.false_eq_true, false_iff]; omega
  · intro x
    unfold SimpleVector.Insert
    simp only [SimpleVector.begin, end_]
    split
    · next h =>
      have hk : k ≤ v.size_ := by omega
      split <;> simp [hk]
    · next h => simp only [Option.isSome_none, Bool.false_eq_true, false_iff]; omega
  · intro x
    unfold InsertMove
    simp only [SimpleVector.begin, end_]
    split
    · next h =>
      have hk : k ≤ v.size_ := by omega
      split <;> simp [hk]
    · next h => simp only [Option.isSome_none, Bool.false_eq_true, false_iff]; omega
  · intro h0 pos
    unfold Erase
    simp only [SimpleVector.begin, end_]
    rw [if_neg (by omega)]
  · unfold Erase
    simp only [SimpleVector.begin, end_]
    rw [if_neg (by omega)]
  · intro pos hpos
    simp only [SimpleVector.begin] at hpos
    refine ⟨?_, fun x => ⟨?_, ?_⟩⟩
    · unfold Erase
      simp only [SimpleVector.begin, end_]
      rw [if_neg (by omega)]
    · unfold SimpleVector.Insert
      simp only [SimpleVector.begin, end_]
      rw [if_neg (by omega)]
    · unfold InsertMove
      simp only [SimpleVector.begin, end_]
      rw [if_neg (by omega)]

/-- Instance of C19 on `1, 2, 3` with capacity 5: index 3 lies inside the block but fails
the assertions of `operator[]` and `Erase`, and passes that of `Insert`. -/
theorem assertions_correct_witness :
    sampleSpare.index 3 = none ∧ (sampleSpare.Erase 3).isSome = false ∧
      (sampleSpare.Insert 3 (Ref.obj 7)).isSome = true ∧
      ¬ ((sampleSpare.index 3).isSome = true) :=
  ⟨by decide, by decide, by decide,
    fun h => absurd ((assertions_correct sampleSpare 3 0).1.1 h) (by decide)⟩

/-- C20: for every well-formed array, whatever values its slots `[size, capacity)` hold,
`Resize(n)` with `size < n <= capacity` makes every element at indices `[old size, n)`
equal to `Type()`; this holds in particular for the array left by `Clear`, by `PopBack`,
by `Erase` and by a truncating `Resize`.  `Clear` sets the size to 0 and keeps the
capacity; `PopBack` keeps the first `size - 1` elements and the capacity. -/
theorem stale_slots_not_exposed [Element α] (v : SimpleVector α) (hwf : v.WF) :
    (∀ n j, v.GetSize < n → n ≤ v.GetCapacity → v.GetSize ≤ j → j < n →
      (v.Resize n).index j = some default) ∧
    (v.Clear.GetSize = 0 ∧ v.Clear.GetCapacity = v.GetCapacity ∧
      ∀ n j, n ≤ v.Clear.GetCapacity → j < n → (v.Clear.Resize n).index j = some default) ∧
    (∀ w, v.PopBack = some w →
      w.GetSize = v.GetSize - 1 ∧ w.GetCapacity = v.GetCapacity ∧
      w.toList = v.toList.take (v.GetSize - 1) ∧
      ∀ n j, w.GetSize < n → n ≤ w.GetCapacity → w.GetSize ≤ j → j < n →
        (w.Resize n).index j = some default) ∧
    (∀ pos w it, v.Erase pos = some (w, it) →
      ∀ n j, w.GetSize < n → n ≤ w.GetCapacity → w.GetSize ≤ j → j < n →
        (w.Resize n).index j = some default) ∧
    (∀ m n j, m ≤ v.GetSize → m < n → n ≤ (v.Resize m).GetCapacity → m ≤ j → j < n →
      ((v.Resize m).Resize n).index j = some default) := by
  unfold GetSize GetCapacity
  refine ⟨?_, ⟨rfl, rfl, ?_⟩, ?_, ?_, ?_⟩
  · intro n j _ _ h1 h2
    exact Resize_exposes_default v hwf n j h1 h2
  · intro n j _ h2
    have hc : v.Clear.WF := ⟨hwf.1, Nat.zero_le _⟩
    exact Resize_exposes_default v.Clear hc n j (Nat.zero_le _) h2
  · intro w hw
    obtain ⟨hpos, hw⟩ := PopBack_result v w hw
    subst hw
    have hp : ({ v with size_ := v.size_ - 1 } : SimpleVector α).WF :=
      ⟨hwf.1, by have := hwf.2; show v.size_ - 1 ≤ v.capacity_; omega⟩
    refine ⟨rfl, rfl, ?_, fun n j _ _ h1 h2 => Resize_exposes_default _ hp n j h1 h2⟩
    unfold toList
    show List.take (v.size_ - 1) v.items_.Get = List.take (v.size_ - 1) (List.take v.size_ _)
    rw [List.take_take, Nat.min_eq_left (by omega)]
  · intro pos w it h
    obtain ⟨k, hk, hpos⟩ := Erase_some_index v w pos it h
    obtain ⟨w2, h2, _, hsz, hcap, hlen⟩ := Erase_result v hwf k hk
    rw [hpos, h2] at h
    simp only [Option.some.injEq, Prod.mk.injEq] at h
    have hw : w.WF := by
      rw [← h.1]
      exact ⟨hlen, by rw [hsz, hcap]; have := hwf.2; omega⟩
    intro n j _ _ h1 h2
    exact Resize_exposes_default w hw n j h1 h2
  · intro m n j _ _ _ h1 h2
    have hsz := (Resize_result v hwf m).1
    exact Resize_exposes_default _ (Resize_WF v hwf m) n j (by rw [hsz]; exact h1) h2

/-- Instance of C20: `1, 2, 3` with the stale values 8 and 9 behind it; after `Resize(5)`
the elements at indices 3 and 4 are 0. -/
theorem stale_slots_not_exposed_witness :
    sampleSpare.WF ∧ sampleSpare.items_.get 3 = 8 ∧
      (sampleSpare.Resize 5).index 3 = some 0 ∧ (sampleSpare.Resize 5).toList = [1, 2, 3, 0, 0] ∧
      ((sampleSpare.Clear).Resize 2).toList = [0, 0] :=
  ⟨by decide, by decide,
    (stale_slots_not_exposed sampleSpare (by decide)).1 5 3 (by decide) (by decide) (by decide)
      (by decide),
    by decide, by decide⟩

end Claims

end CppSimpleVector
